import Mathlib

/-! qtmapviewer: the LRU tile cache and the tile renderer

A shallow embedding of `src/TileCache.h` (class `LRUCache`) and of the parts of
`src/TileRenderer.{h,cpp}` that select tiles and request missing ones, with the
properties of the specification proved (or refuted) on it.

Conventions of the embedding.

* `std::map<K, std::pair<V, iterator>>` is an association list `List (K × V)`
  holding at most one entry per key. Only `find`, `insert`, `erase`, `size` and
  assignment through an iterator are used by the source, and none of them
  observes the order of the entries.
* `std::list<K>` is a `List K`, front of the list first. The iterator kept in a
  map entry points at the list node that holds the entry's key, so
  `m_list.splice(m_list.end(), m_list, it)` moves the occurrence of that key to
  the back of the list.
* Undefined behaviour (calling `front()` on an empty list, dereferencing
  `m_map.end()`, an `int` that cannot hold its value, division by zero) and
  a loop that never exits are the result `none`.
* The eviction callback `m_evict` is the list of its invocations, returned by
  the operation that makes them.
-/

namespace QtMapViewer

/-! ## `std::map` as an association list -/

/-- The call `m_map.find(key)`: the value stored under `key`, or `none` for `end()`. -/
def mapFind {K V : Type} [DecidableEq K] : List (K × V) → K → Option V
  | [], _ => none
  | (a, v) :: m, key => if a = key then some v else mapFind m key

/-- The call `m_map.erase(it)` for the iterator `it` of `key`. -/
def mapErase {K V : Type} [DecidableEq K] (m : List (K × V)) (key : K) : List (K × V) :=
  m.filter (fun e => decide (e.1 ≠ key))

/-- The call `m_map.insert(std::make_pair(key, value))`: `std::map::insert` leaves a
key that is already present alone. -/
def mapInsert {K V : Type} [DecidableEq K] (m : List (K × V)) (key : K) (value : V) :
    List (K × V) :=
  match mapFind m key with
  | some _ => m
  | none => m ++ [(key, value)]

/-- The assignment `ret->second.first = value` through the iterator of `key`. -/
def mapAssign {K V : Type} [DecidableEq K] : List (K × V) → K → V → List (K × V)
  | [], _, _ => []
  | (a, v) :: m, key, value =>
    if a = key then (a, value) :: m else (a, v) :: mapAssign m key value

/-! ## `LRUCache` (src/TileCache.h) -/

/-- The data members of `LRUCache<K, V>`; `m_evict` is modelled by the returned log
of callback invocations. -/
structure LRUCache (K V : Type) where
  /-- The capacity given to the constructor. -/
  m_size : Nat
  /-- The recency list: least recently used key at the front. -/
  m_list : List K
  /-- The key to value map. -/
  m_map : List (K × V)
  deriving DecidableEq, Repr

namespace LRUCache

variable {K V : Type} [DecidableEq K]

/-- The constructor `LRUCache(size, evict)`: both containers start empty. -/
def new (size : Nat) : LRUCache K V :=
  { m_size := size, m_list := [], m_map := [] }

/-- The method `size()`: `m_map.size()`. -/
def size (c : LRUCache K V) : Nat :=
  c.m_map.length

/-- The method `query(key, value)`: `none` is the result `false` (and `value` left
alone), `some v` the result `true` with `value = v`. On a hit the key's list node is
spliced to the back of `m_list`. -/
def query (c : LRUCache K V) (key : K) : LRUCache K V × Option V :=
  match mapFind c.m_map key with
  | none => (c, none)
  | some v => ({ c with m_list := c.m_list.erase key ++ [key] }, some v)

/-- The method `insert(key, value)`. The second component lists the invocations of
`m_evict` made by the call, each as the key of the map slot whose value is handed
to the callback together with that value (the callback itself receives the value
only). The result is `none` where the source has undefined behaviour:
`m_list.front()` on an empty list, or `it->second` for `it == m_map.end()`. -/
def insert (c : LRUCache K V) (key : K) (value : V) : Option (LRUCache K V × List (K × V)) :=
  match mapFind c.m_map key with
  | none =>
    if c.m_list.length = c.m_size then
      match c.m_list with
      | [] => none
      | front :: rest =>
        match mapFind c.m_map front with
        | none => none
        | some old =>
          some ({ c with m_list := rest ++ [key],
                         m_map := mapInsert (mapErase c.m_map front) key value },
                [(front, old)])
    else
      some ({ c with m_list := c.m_list ++ [key], m_map := mapInsert c.m_map key value }, [])
  | some old =>
    some ({ c with m_list := c.m_list.erase key ++ [key],
                   m_map := mapAssign c.m_map key value },
          [(key, old)])

/-- A run of `insert` calls, one per pair of the list, in order; the callback
invocations of all the calls are concatenated. -/
def insertAll (c : LRUCache K V) : List (K × V) → Option (LRUCache K V × List (K × V))
  | [] => some (c, [])
  | (key, value) :: kvs =>
    match c.insert key value with
    | none => none
    | some (c1, log1) =>
      match insertAll c1 kvs with
      | none => none
      | some (c2, log2) => some (c2, log1 ++ log2)

/-- An operation of the public interface applied to a cache. -/
inductive Op (K V : Type) where
  /-- The call `insert(key, value)`. -/
  | insert (key : K) (value : V)
  /-- The call `query(key, _)`. -/
  | query (key : K)
  deriving DecidableEq, Repr

/-- What a run of operations does to the slots of the cache, in order: a slot's value
is handed to the eviction callback, or a value is stored in a slot. -/
inductive Event (K V : Type) where
  /-- The call `m_evict(value)` for the value held in the slot of `key`. -/
  | evicted (key : K) (value : V)
  /-- The value is stored in the slot of `key` by `insert(key, value)`. -/
  | stored (key : K) (value : V)
  deriving DecidableEq, Repr

/-- One operation: the cache after it and the events it produces. An `insert` first
makes its callback invocations and then stores the value; a `query` produces no
event. -/
def step (c : LRUCache K V) : Op K V → Option (LRUCache K V × List (Event K V))
  | Op.insert key value =>
    match c.insert key value with
    | none => none
    | some (c1, log) =>
      some (c1, log.map (fun e => Event.evicted e.1 e.2) ++ [Event.stored key value])
  | Op.query key => some ((c.query key).1, [])

/-- A finite sequence of operations, in order, with the concatenated events. -/
def run (c : LRUCache K V) : List (Op K V) → Option (LRUCache K V × List (Event K V))
  | [] => some (c, [])
  | op :: ops =>
    match c.step op with
    | none => none
    | some (c1, ev1) =>
      match run c1 ops with
      | none => none
      | some (c2, ev2) => some (c2, ev1 ++ ev2)

/-- The effect of one event on the slot of `key`: a `stored` event for `key` fills it,
an `evicted` event for `key` empties it, an event for another key leaves it alone. -/
def slotAfter (key : K) (slot : Option V) : Event K V → Option V
  | Event.stored a v => if a = key then some v else slot
  | Event.evicted a _ => if a = key then none else slot

/-- The value that a history of events leaves in the slot of `key`, starting from an
empty slot: `some v` when `key` has been stored and not evicted since it was last
stored, `v` being the value last stored. -/
def liveValue (key : K) (history : List (Event K V)) : Option V :=
  history.foldl (slotAfter key) none

/-- The pair of an `insert` operation; `none` for a `query`. -/
def Op.insertPair : Op K V → Option (K × V)
  | Op.insert key value => some (key, value)
  | Op.query _ => none

/-- The pair of a `stored` event; `none` for an `evicted` event. -/
def Event.storedPair : Event K V → Option (K × V)
  | Event.stored key value => some (key, value)
  | Event.evicted _ _ => none

/-- The representation invariant of the two containers: every key has one list node and
one map entry, the list and the map hold the same keys, and the list is no longer than
the capacity. -/
structure WF (c : LRUCache K V) : Prop where
  nodup_list : c.m_list.Nodup
  nodup_keys : (c.m_map.map Prod.fst).Nodup
  mem_iff : ∀ k, k ∈ c.m_list ↔ k ∈ c.m_map.map Prod.fst
  length_le : c.m_list.length ≤ c.m_size

/-- The key `key` is the most recently used key of `c`: in every run of inserts of
pairwise distinct keys that are absent from `c`, and at every point `i` of the run,
`key` has left the cache only if every key that `c` held has left it. -/
def MostRecent (c : LRUCache K V) (key : K) : Prop :=
  ∀ news : List (K × V), (news.map Prod.fst).Nodup →
    (∀ n ∈ news.map Prod.fst, mapFind c.m_map n = none) →
    ∀ i : Nat, ∃ c2 log, c.insertAll (news.take i) = some (c2, log) ∧
      (mapFind c2.m_map key = none →
        ∀ j, (mapFind c.m_map j).isSome = true → mapFind c2.m_map j = none)

end LRUCache

/-! ## Configuration (src/main.cpp, src/MapConfig.h) -/

/-- The assignment `config.cache_size = size_t(range.toInt())` of `parseCommandLine`:
`toInt` is the `int` that `QVariant::toInt()` returns for the text of `--cache-size`
(0 when the text is not a number), converted to the 64-bit `size_t`. -/
def parseCacheSize (toInt : Int) : Nat :=
  (toInt % 2 ^ 64).toNat

/-- The members of `MapConfig` that the renderer keeps (`TileRenderer::Config`). -/
structure Config where
  /-- The tile edge length in pixels, an `int`. -/
  tile_size : Int
  /-- The capacity of the tile cache, a `size_t`. -/
  cache_size : Nat
  deriving DecidableEq, Repr

/-! ## Tile types (src/TileTypes.h) -/

/-- The class `TileIndex`, a `std::tuple<int, int, int>` of zoom, x and y. -/
structure TileIndex where
  zoom : Int
  x : Int
  y : Int
  deriving DecidableEq, Repr

/-- A `TileImage` object as seen through a `TileImage*`: `id` stands for the address of
the object, `m_index` is its coordinate and `m_valid` says whether `m_texture` is not
`NULL`, which is what `valid()` returns. -/
structure TileImage where
  id : Nat
  m_index : TileIndex
  m_valid : Bool
  deriving DecidableEq, Repr

/-- The method `TileImage::index()`. -/
def TileImage.index (t : TileImage) : TileIndex :=
  t.m_index

/-- The method `TileImage::valid()`. -/
def TileImage.valid (t : TileImage) : Bool :=
  t.m_valid

/-- The tile cache, `LRUCache<TileIndex, TileImage*>`. -/
abbrev TileCache : Type :=
  LRUCache TileIndex TileImage

/-! ## The viewport state (src/TileRenderer.h, class `State`) -/

/-- A `QRect`, held as Qt holds it: the coordinates of its left, top, right and bottom
edges, which `getCoords` returns. -/
structure QRect where
  x1 : Int
  y1 : Int
  x2 : Int
  y2 : Int
  deriving DecidableEq, Repr

/-- A `QSize`. -/
structure QSize where
  wd : Int
  ht : Int
  deriving DecidableEq, Repr

/-- The data members of `TileRenderer::State`. -/
structure State where
  m_valid : Bool
  m_map_bounds : QRect
  m_zoom : Int
  m_last_zoom : Int
  m_map_size : QSize
  deriving DecidableEq, Repr

namespace State

/-- The constructor `State()`: it sets `m_valid` and `m_last_zoom`; `QRect()` and
`QSize()` are Qt's null rectangle and invalid size; `m_zoom` is left uninitialised and
holds whatever `zoom0` was in memory. -/
def new (zoom0 : Int) : State :=
  { m_valid := false, m_map_bounds := ⟨0, 0, -1, -1⟩, m_zoom := zoom0, m_last_zoom := -1,
    m_map_size := ⟨-1, -1⟩ }

/-- The method `setValid()`. -/
def setValid (s : State) : State :=
  { s with m_valid := true }

/-- The method `setBounds(bounds)`. -/
def setBounds (s : State) (bounds : QRect) : State :=
  { s with m_map_bounds := bounds }

/-- The method `setZoom(zoom)`. -/
def setZoom (s : State) (zoom : Int) : State :=
  if s.m_last_zoom = -1 then
    { s with m_last_zoom := zoom, m_zoom := zoom }
  else
    { s with m_last_zoom := s.m_zoom, m_zoom := zoom }

/-- The method `setMapSize(size)`. -/
def setMapSize (s : State) (size : QSize) : State :=
  { s with m_map_size := size }

/-- The method `valid()`. -/
def valid (s : State) : Bool :=
  s.m_valid

/-- The method `bounds()`. -/
def bounds (s : State) : QRect :=
  s.m_map_bounds

/-- The method `zoom()`. -/
def zoom (s : State) : Int :=
  s.m_zoom

/-- The method `zoomedIn()`. -/
def zoomedIn (s : State) : Bool :=
  decide (s.m_zoom > s.m_last_zoom)

/-- The method `zoomedOut()`. -/
def zoomedOut (s : State) : Bool :=
  decide (s.m_zoom < s.m_last_zoom)

/-- The method `mapSize()`. -/
def mapSize (s : State) : QSize :=
  s.m_map_size

end State

/-! ## Tile selection (src/TileRenderer.cpp, `getTiles`)

The `int` coordinates are integers; they are taken in the range in which the sums and
products of `getTiles` do not overflow an `int`. The one `int` whose range the source
itself singles out, `pixels`, is undefined (`none`) when it does not fit. The `float`
components of a `QVector2D` are rationals: the constants `1.f`, `0.5f`, `0.f` and the
products `0.5f * (x % 2)` are exact in `float`; an `int` offset is converted to the
nearest `float` (`floatOfInt`), which is the offset itself up to a magnitude of `2^24`. -/

/-- A `QVector2D`. -/
structure QVector2D where
  x : ℚ
  y : ℚ
  deriving DecidableEq

/-- The struct `TileDrawable`. -/
structure TileDrawable where
  scale : QVector2D
  offset : QVector2D
  tex_scale : QVector2D
  tex_offset : QVector2D
  image : TileImage
  deriving DecidableEq

/-- The distance between neighbouring `float` values at the natural number `a`: 1 below
`2^24` (a `float` has a significand of 24 bits), and twice as much with each further
bit. Each unit of `fuel` pays for one halving of `a`. -/
def floatUlp : Nat → Nat → Nat
  | 0, _ => 1
  | fuel + 1, a => if a < 2 ^ 24 then 1 else 2 * floatUlp fuel (a / 2)

/-- The conversion of an `int` to `float` (IEEE 754 binary32, rounding to nearest, ties
to the even significand), as the integer that the `float` holds: an `int` of magnitude up
to `2^24` is converted exactly, a larger one is rounded to a multiple of the distance
between neighbouring `float` values. -/
def floatOfInt (v : Int) : Int :=
  if v.natAbs ≤ 2 ^ 24 then v
  else
    let a := v.natAbs
    let ulp := floatUlp a a
    let q := a / ulp
    let r := a % ulp
    let m := if 2 * r < ulp then q * ulp
      else if 2 * r = ulp ∧ q % 2 = 0 then q * ulp else (q + 1) * ulp
    if v < 0 then -(m : Int) else (m : Int)

/-- The constructor `QVector2D(float xpos, float ypos)` called with two `int` values,
each converted to `float`. -/
def QVector2D.ofInt (a b : Int) : QVector2D :=
  { x := (floatOfInt a : ℚ), y := (floatOfInt b : ℚ) }

/-- The initialisation `int pixels = int(pow(2.0, state.zoom()))`, with the source's
note "we assume a 32bit limit here": `2^zoom` for `0 ≤ zoom ≤ 30`; for a negative zoom
the power lies strictly between 0 and 1 (or underflows to 0) and truncates to 0; from
`zoom = 31` on the value cannot be represented in an `int` and the conversion is
undefined. -/
def pixelsOfZoom (zoom : Int) : Option Int :=
  if zoom < 0 then some 0
  else if zoom ≤ 30 then some (2 ^ zoom.toNat)
  else none

/-- The loop `while (wx < 0) { wx += pixels; }`, each unit of `fuel` paying for one
test of the loop condition; `none` when the fuel does not suffice. -/
def wrapLoop : Nat → Int → Int → Option Int
  | 0, _, _ => none
  | fuel + 1, pixels, wx => if wx < 0 then wrapLoop fuel pixels (wx + pixels) else some wx

/-- The longitudinal wrap of a grid column `x` into `wx`:
`if (wx < 0) { while (wx < 0) { wx += pixels; } } else if (wx >= pixels) { wx %= pixels; }`.
The loop is given `-x + 1` tests of its condition, which is all it can use when
`pixels ≥ 1`; with `pixels ≤ 0` and `x < 0` the loop of the source never exits (or
overflows), and the fuel runs out. `wx %= pixels` with `pixels = 0` is undefined. -/
def wrapX (pixels x : Int) : Option Int :=
  if x < 0 then wrapLoop ((-x).toNat + 1) pixels x
  else if x ≥ pixels then (if pixels = 0 then none else some (Int.tmod x pixels))
  else some x

/-- The drawable built in the branches of `getTiles`. -/
def mkDrawable (scale offset tex_scale tex_offset : QVector2D) (image : TileImage) :
    TileDrawable :=
  { scale := scale, offset := offset, tex_scale := tex_scale, tex_offset := tex_offset,
    image := image }

/-- One query of a child tile in the zoomed-out branch: on a hit, a drawable of half
the cell size at the pixel offset `(ox, oy)` with the full texture. -/
def childQuery (cache : TileCache) (index : TileIndex) (ox oy : Int) :
    TileCache × List TileDrawable :=
  match cache.query index with
  | (cache1, some image) =>
    (cache1, [mkDrawable ⟨1/2, 1/2⟩ (QVector2D.ofInt ox oy) ⟨1, 1⟩ ⟨0, 0⟩ image])
  | (cache1, none) => (cache1, [])

/-- The body of the inner loop of `getTiles` for the grid cell in column `x`, row `y`,
reached with the counters `xx` and `yy`: the cache after the queries, the drawables
pushed to `tiles` and the indices pushed to `requests`. -/
def getTilesCell (size : Int) (state : State) (pixels xoffset yoffset : Int)
    (x y xx yy : Int) (cache : TileCache) :
    Option (TileCache × List TileDrawable × List TileIndex) :=
  match wrapX pixels x with
  | none => none
  | some wx =>
    if y ≥ 0 ∧ y < pixels then
      let index : TileIndex := ⟨state.zoom, wx, y⟩
      match cache.query index with
      | (cache1, some image) =>
        some (cache1,
          [mkDrawable ⟨1, 1⟩ (QVector2D.ofInt (xoffset + xx * size) (yoffset + yy * size))
            ⟨1, 1⟩ ⟨0, 0⟩ image],
          [])
      | (cache1, none) =>
        if state.zoomedIn then
          let parent : TileIndex := ⟨state.zoom - 1, Int.tdiv x 2, Int.tdiv y 2⟩
          match cache1.query parent with
          | (cache2, some image) =>
            some (cache2,
              [mkDrawable ⟨1, 1⟩ (QVector2D.ofInt (xoffset + xx * size) (yoffset + yy * size))
                ⟨1/2, 1/2⟩ ⟨1/2 * (Int.tmod x 2 : Int), 1/2 * (Int.tmod y 2 : Int)⟩ image],
              [index])
          | (cache2, none) => some (cache2, [], [index])
        else if state.zoomedOut then
          let indexTL : TileIndex := ⟨state.zoom + 1, wx * 2, y * 2⟩
          let indexTR : TileIndex := ⟨state.zoom + 1, wx * 2 + 1, y * 2⟩
          let indexBR : TileIndex := ⟨state.zoom + 1, wx * 2 + 1, y * 2 + 1⟩
          let indexBL : TileIndex := ⟨state.zoom + 1, wx * 2, y * 2 + 1⟩
          let (cache2, tl) := childQuery cache1 indexTL
            (xoffset + xx * size) (yoffset + yy * size)
          let (cache3, tr) := childQuery cache2 indexTR
            (xoffset + xx * size + Int.tdiv size 2) (yoffset + yy * size)
          let (cache4, br) := childQuery cache3 indexBR
            (xoffset + xx * size + Int.tdiv size 2) (yoffset + yy * size + Int.tdiv size 2)
          let (cache5, bl) := childQuery cache4 indexBL
            (xoffset + xx * size) (yoffset + yy * size + Int.tdiv size 2)
          some (cache5, tl ++ tr ++ br ++ bl, [index])
        else
          some (cache1, [], [index])
    else
      some (cache, [], [])

/-- The values of a `for (int v = a; v <= b; v++)` loop, each with the value of the
counter that the loop body increments from 0 (`xx`, `yy`). -/
def loopRange (a b : Int) : List (Int × Int) :=
  (List.range (b + 1 - a).toNat).map (fun i => (a + (i : Int), (i : Int)))

/-- The inner loop `for (int x = x1; x <= x2; x++)` for the row `y` with counter `yy`,
over the columns still to visit. -/
def getTilesRow (size : Int) (state : State) (pixels xoffset yoffset : Int) (y yy : Int) :
    List (Int × Int) → TileCache → Option (TileCache × List TileDrawable × List TileIndex)
  | [], cache => some (cache, [], [])
  | (x, xx) :: cols, cache =>
    match getTilesCell size state pixels xoffset yoffset x y xx yy cache with
    | none => none
    | some (cache1, tiles1, requests1) =>
      match getTilesRow size state pixels xoffset yoffset y yy cols cache1 with
      | none => none
      | some (cache2, tiles2, requests2) =>
        some (cache2, tiles1 ++ tiles2, requests1 ++ requests2)

/-- The outer loop `for (int y = y1; y <= y2; y++)` over the rows still to visit, each
row running the inner loop over the columns `cols`. -/
def getTilesRows (size : Int) (state : State) (pixels xoffset yoffset : Int)
    (cols : List (Int × Int)) :
    List (Int × Int) → TileCache → Option (TileCache × List TileDrawable × List TileIndex)
  | [], cache => some (cache, [], [])
  | (y, yy) :: rows, cache =>
    match getTilesRow size state pixels xoffset yoffset y yy cols cache with
    | none => none
    | some (cache1, tiles1, requests1) =>
      match getTilesRows size state pixels xoffset yoffset cols rows cache1 with
      | none => none
      | some (cache2, tiles2, requests2) =>
        some (cache2, tiles1 ++ tiles2, requests1 ++ requests2)

/-- The first and last grid column that `getTiles` visits for the bounds `b`: the
values of `x1` and `x2` when the loops start. -/
def gridColumns (size : Int) (b : QRect) : Int × Int :=
  let x1_shift : Int := if b.x1 < 0 then 1 else 0
  let x2_shift : Int := if b.x2 < 0 then 1 else 0
  (Int.tdiv b.x1 size - x1_shift, Int.tdiv b.x2 size - x2_shift)

/-- The first and last grid row that `getTiles` visits for the bounds `b`: the values of
`y1` and `y2` when the loops start. -/
def gridRows (size : Int) (b : QRect) : Int × Int :=
  (Int.tdiv b.y1 size, Int.tdiv b.y2 size)

/-- The value of `xoffset` when the loops start. -/
def gridXOffset (size : Int) (b : QRect) : Int :=
  let xoffset : Int := -(Int.tmod b.x1 size)
  let x_shift : Int := if b.x1 < 0 then size else 0
  xoffset - x_shift

/-- The value of `yoffset` when the loops start. -/
def gridYOffset (size : Int) (b : QRect) : Int :=
  -(Int.tmod b.y1 size)

/-- The method `getTiles(state, tiles, requests)` called with empty `tiles` and
`requests`, on the cache `cache`: the cache after the queries, `tiles` and `requests`.
The result is `none` when `pixels` is undefined, when the tile size is 0 (`x1 % size`
and `x1 / size` divide by zero) or when the wrap of some visited column is undefined. -/
def getTiles (config : Config) (state : State) (cache : TileCache) :
    Option (TileCache × List TileDrawable × List TileIndex) :=
  let size := config.tile_size
  match pixelsOfZoom state.zoom with
  | none => none
  | some pixels =>
    if size = 0 then none
    else
      let cols := gridColumns size state.bounds
      let rows := gridRows size state.bounds
      getTilesRows size state pixels (gridXOffset size state.bounds)
        (gridYOffset size state.bounds) (loopRange cols.1 cols.2) (loopRange rows.1 rows.2)
        cache

/-- The value of `wx` in the loop body of `getTiles` for the zoom level `zoom` and the
grid column `x`: `pixels` is computed from the zoom, then `x` is wrapped. -/
def wrapColumn (zoom x : Int) : Option Int :=
  match pixelsOfZoom zoom with
  | none => none
  | some pixels => wrapX pixels x

/-! ## The renderer (src/TileRenderer.cpp) -/

/-- What a method of the renderer sends out: the signals `requestTile` and `deleteTile`,
a `RenderRequest` event posted to the renderer's own event queue, and a draw call for
one drawable. -/
inductive Effect where
  /-- The statement `emit requestTile(index)`. -/
  | requestTile (index : TileIndex)
  /-- The statement `emit deleteTile(tile)`. -/
  | deleteTile (tile : TileImage)
  /-- The call `QCoreApplication::postEvent(this, new TileRenderer::RenderRequest())`. -/
  | postRender
  /-- The draw call of the render loop for one element of `tiles`. -/
  | draw (tile : TileDrawable)
  deriving DecidableEq

/-- The data members of `TileRenderer` that its methods read and write; `m_requests` is
the `std::map<TileIndex, bool>` of outstanding requests. -/
structure TileRenderer where
  m_config : Config
  m_state : State
  m_cache : TileCache
  m_requests : List (TileIndex × Bool)
  m_render_requests : Nat
  deriving DecidableEq

namespace TileRenderer

/-- The constructor: the cache is built with `m_config.cache_size`, no request is
outstanding, no render is scheduled and `m_state` is a default-constructed `State`. -/
def new (config : Config) (zoom0 : Int) : TileRenderer :=
  { m_config := config, m_state := State.new zoom0, m_cache := LRUCache.new config.cache_size,
    m_requests := [], m_render_requests := 0 }

/-- The method `setState(state)`. -/
def setState (r : TileRenderer) (state : State) : TileRenderer × List Effect :=
  if r.m_render_requests = 0 then
    ({ r with m_state := state, m_render_requests := r.m_render_requests + 1 },
      [Effect.postRender])
  else
    ({ r with m_state := state }, [])

/-- The method `getState()`: the state read, the renderer with the decremented
counter, and the render request posted when the counter is still positive. -/
def getState (r : TileRenderer) : TileRenderer × State × List Effect :=
  if r.m_render_requests > 0 then
    if r.m_render_requests - 1 > 0 then
      ({ r with m_render_requests := r.m_render_requests - 1 }, r.m_state, [Effect.postRender])
    else
      ({ r with m_render_requests := r.m_render_requests - 1 }, r.m_state, [])
  else
    (r, r.m_state, [])

/-- The loop of `render()` over `requests`: each index is inserted in `m_requests`, and
`requestTile` is emitted when the insertion took place (`it.second`). -/
def requestLoop : List (TileIndex × Bool) → List TileIndex →
    List (TileIndex × Bool) × List Effect
  | m, [] => (m, [])
  | m, index :: rest =>
    match mapFind m index with
    | some _ => requestLoop m rest
    | none =>
      let (m2, fx) := requestLoop (mapInsert m index true) rest
      (m2, Effect.requestTile index :: fx)

/-- The method `render()`: the effects are the render request that `getState` may post,
the tile requests and the draw calls, in this order. An invalid state ends the pass
right after `getState`. -/
def render (r : TileRenderer) : Option (TileRenderer × List Effect) :=
  match r.getState with
  | (r1, state, fx) =>
    if state.valid = false then some (r1, fx)
    else
      match getTiles r1.m_config state r1.m_cache with
      | none => none
      | some (cache, tiles, requests) =>
        match requestLoop r1.m_requests requests with
        | (m, emitted) =>
          some ({ r1 with m_cache := cache, m_requests := m },
            fx ++ emitted ++ tiles.map Effect.draw)

/-- The slot `tileResponse(tile)` for a non-null `tile`; the eviction callback of the
cache is `tileEvicted`, which emits `deleteTile`. -/
def tileResponse (r : TileRenderer) (tile : TileImage) : Option (TileRenderer × List Effect) :=
  let m := mapErase r.m_requests tile.index
  if tile.valid = true then
    match r.m_cache.insert tile.index tile with
    | none => none
    | some (cache, log) =>
      let deleted := log.map (fun e => Effect.deleteTile e.2)
      if r.m_render_requests = 0 then
        some ({ r with m_requests := m, m_cache := cache,
                       m_render_requests := r.m_render_requests + 1 },
          deleted ++ [Effect.postRender])
      else
        some ({ r with m_requests := m, m_cache := cache }, deleted)
  else
    some ({ r with m_requests := m }, [])

/-- An entry point of the renderer: a render pass (the handling of one `RenderRequest`
event), a tile response from the fetcher, or a state update from the viewer. -/
inductive Call where
  | render
  | tileResponse (tile : TileImage)
  | setState (state : State)
  deriving DecidableEq

/-- An item of the trace of a run: an entry point is called, or an effect is sent. -/
inductive TraceItem where
  | call (c : Call)
  | effect (e : Effect)
  deriving DecidableEq

/-- One call: the renderer after it and its effects. -/
def step (r : TileRenderer) : Call → Option (TileRenderer × List Effect)
  | Call.render => r.render
  | Call.tileResponse tile => r.tileResponse tile
  | Call.setState state => some (r.setState state)

/-- A run of calls, in order, with its trace: each call followed by its effects. -/
def run (r : TileRenderer) : List Call → Option (TileRenderer × List TraceItem)
  | [] => some (r, [])
  | c :: cs =>
    match r.step c with
    | none => none
    | some (r1, fx) =>
      match run r1 cs with
      | none => none
      | some (r2, trace) =>
        some (r2, TraceItem.call c :: (fx.map TraceItem.effect ++ trace))

/-- The trace has a `tileResponse` for the coordinate `index` among the items `mid`. -/
def HasResponse (index : TileIndex) (mid : List TraceItem) : Prop :=
  ∃ tile : TileImage, tile.index = index ∧ TraceItem.call (Call.tileResponse tile) ∈ mid

/-- Between any two emissions of `requestTile` for the same coordinate the trace has a
`tileResponse` for that coordinate. -/
def Deduplicated (trace : List TraceItem) : Prop :=
  ∀ (index : TileIndex) (pre mid post : List TraceItem),
    trace = pre ++ TraceItem.effect (Effect.requestTile index) :: mid ++
      TraceItem.effect (Effect.requestTile index) :: post →
    HasResponse index mid

/-- The effect of one trace item on the number of requests for `index` that wait for
their response: a `requestTile` for `index` adds one, a `tileResponse` for `index`
clears them. -/
def outstandingStep (index : TileIndex) (n : Nat) : TraceItem → Nat
  | TraceItem.effect (Effect.requestTile i) => if i = index then n + 1 else n
  | TraceItem.effect (Effect.deleteTile _) => n
  | TraceItem.effect Effect.postRender => n
  | TraceItem.effect (Effect.draw _) => n
  | TraceItem.call (Call.tileResponse tile) => if tile.index = index then 0 else n
  | TraceItem.call Call.render => n
  | TraceItem.call (Call.setState _) => n

/-- The number of requests for `index` outstanding at the end of the trace. -/
def outstanding (index : TileIndex) (trace : List TraceItem) : Nat :=
  trace.foldl (outstandingStep index) 0

end TileRenderer

/-- The assignment `m[key] = value` of a `std::map`: the entry of `key` is created or
overwritten. -/
def mapSet {K V : Type} [DecidableEq K] (m : List (K × V)) (key : K) (value : V) :
    List (K × V) :=
  match mapFind m key with
  | some _ => mapAssign m key value
  | none => m ++ [(key, value)]

namespace State

/-- A call of one of the four setters of `State`. -/
inductive Setter where
  | setValid
  | setBounds (bounds : QRect)
  | setZoom (zoom : Int)
  | setMapSize (size : QSize)
  deriving DecidableEq, Repr

/-- The state after one setter call. -/
def apply (s : State) : Setter → State
  | Setter.setValid => s.setValid
  | Setter.setBounds bounds => s.setBounds bounds
  | Setter.setZoom zoom => s.setZoom zoom
  | Setter.setMapSize size => s.setMapSize size

end State

/-! ## The renderer and its event queue

`setState`, `tileResponse` and `getState` post `RenderRequest` events to the renderer's
own event queue; `customEvent` handles each of them by one call of `render()`. -/

/-- Whether an effect is a posted `RenderRequest`. -/
def Effect.isPostRender : Effect → Bool
  | Effect.postRender => true
  | Effect.requestTile _ => false
  | Effect.deleteTile _ => false
  | Effect.draw _ => false

/-- The number of `RenderRequest` events among the effects. -/
def postCount (fx : List Effect) : Nat :=
  (fx.filter Effect.isPostRender).length

/-- The renderer with the render requests of its event queue. -/
structure RenderLoop where
  renderer : TileRenderer
  /-- The `RenderRequest` events posted and not yet handled. -/
  queue : Nat
  /-- The number of `RenderRequest` events posted so far. -/
  posted : Nat
  /-- The state that each render pass so far got from `getState()`, oldest first. -/
  reads : List State
  deriving DecidableEq

namespace RenderLoop

/-- A renderer with an empty event queue. -/
def start (r : TileRenderer) : RenderLoop :=
  { renderer := r, queue := 0, posted := 0, reads := [] }

/-- A call of `setState(state)`; the event it posts is queued. -/
def setState (l : RenderLoop) (state : State) : RenderLoop :=
  match l.renderer.setState state with
  | (r, fx) =>
    { l with renderer := r, queue := l.queue + postCount fx, posted := l.posted + postCount fx }

/-- A call of `tileResponse(tile)`; the event it posts is queued. -/
def tileResponse (l : RenderLoop) (tile : TileImage) : Option RenderLoop :=
  match l.renderer.tileResponse tile with
  | none => none
  | some (r, fx) =>
    some { l with renderer := r, queue := l.queue + postCount fx,
                  posted := l.posted + postCount fx }

/-- The handling of one queued `RenderRequest` by `customEvent`: a call of `render()`,
which reads the state with `getState()`. The result is `none` when no render request
is queued, so that no pass starts, or when `render()` is undefined. -/
def renderPass (l : RenderLoop) : Option RenderLoop :=
  if l.queue = 0 then none
  else
    match l.renderer.render with
    | none => none
    | some (r, fx) =>
      some { renderer := r, queue := l.queue - 1 + postCount fx,
             posted := l.posted + postCount fx,
             reads := l.reads ++ [l.renderer.getState.2.1] }

end RenderLoop

namespace TileRenderer

/-- A run of `tileResponse` calls, one per image, in order, with their effects. -/
def tileResponses (r : TileRenderer) : List TileImage → Option (TileRenderer × List Effect)
  | [] => some (r, [])
  | tile :: tiles =>
    match r.tileResponse tile with
    | none => none
    | some (r1, fx1) =>
      match tileResponses r1 tiles with
      | none => none
      | some (r2, fx2) => some (r2, fx1 ++ fx2)

end TileRenderer

/-! ## The tile fetcher (src/TileFetcher.cpp)

A `QNetworkReply*` is the natural number `handle`. A failed `assert` is fatal and is the
result `none`. The thread that runs a slot is not part of the model. -/

/-- The values of `QNetworkReply::NetworkError` that `loadTile` tells apart. -/
inductive NetworkError where
  | NoError
  | OperationCanceledError
  /-- Any other error code. -/
  | OtherError (code : Nat)
  deriving DecidableEq, Repr

/-- A finished `QNetworkReply` as `loadTile` reads it: its address, `error()`, and the
width and height of the `QImage` that `loadFromData` makes of `readAll()` (0 by 0 when
the payload is not an image of the configured format). -/
structure Reply where
  handle : Nat
  error : NetworkError
  width : Int
  height : Int
  deriving DecidableEq, Repr

/-- What a slot of the fetcher sends out or does to an image. -/
inductive FetchEffect where
  /-- The statement `emit responseTile(tile)`. -/
  | responseTile (tile : TileImage)
  /-- The `qCritical()` line for the reply `handle`. -/
  | logCritical (handle : Nat)
  /-- The statement `delete tile`. -/
  | destroyed (tile : TileImage)
  deriving DecidableEq, Repr

/-- The data members of `TileFetcher` that its slots read and write: the tile size of
`m_config`, the in-flight map `m_replies` and the owned-image table `m_images`. -/
structure TileFetcher where
  tile_size : Int
  m_replies : List (Nat × TileIndex)
  m_images : List (TileIndex × TileImage)
  deriving DecidableEq, Repr

namespace TileFetcher

/-- The constructor: both maps start empty. -/
def new (tile_size : Int) : TileFetcher :=
  { tile_size := tile_size, m_replies := [], m_images := [] }

/-- The slot `tileRequest(tile)`; `reply` is the address of the `QNetworkReply` that
`m_network->get(request)` returns. -/
def tileRequest (f : TileFetcher) (tile : TileIndex) (reply : Nat) : Option TileFetcher :=
  match mapFind f.m_replies reply with
  | some _ => none
  | none => some { f with m_replies := mapSet f.m_replies reply tile }

/-- The slot `loadTile(reply)`; `fresh` is the address that `new TileImage` returns. -/
def loadTile (f : TileFetcher) (reply : Reply) (fresh : Nat) :
    Option (TileFetcher × List FetchEffect) :=
  match mapFind f.m_replies reply.handle with
  | none => none
  | some index =>
    let replies := mapErase f.m_replies reply.handle
    if reply.error ≠ NetworkError.NoError then
      let tile : TileImage := ⟨fresh, index, false⟩
      if reply.error ≠ NetworkError.OperationCanceledError then
        some ({ f with m_replies := replies },
          [FetchEffect.logCritical reply.handle, FetchEffect.responseTile tile])
      else
        some ({ f with m_replies := replies }, [FetchEffect.responseTile tile])
    else
      if reply.width = f.tile_size then
        if reply.height = f.tile_size then
          let tile : TileImage := ⟨fresh, index, true⟩
          some ({ f with m_replies := replies, m_images := mapSet f.m_images index tile },
            [FetchEffect.responseTile tile])
        else none
      else none

/-- The slot `deleteTile(tile)`; `none` as argument is the null pointer. The comparison
`tile == it->second` of two pointers compares addresses. -/
def deleteTile (f : TileFetcher) (tile : Option TileImage) :
    Option (TileFetcher × List FetchEffect) :=
  match tile with
  | none => none
  | some t =>
    match mapFind f.m_images t.index with
    | none => none
    | some owned =>
      if t.id = owned.id then
        some ({ f with m_images := mapErase f.m_images t.index }, [FetchEffect.destroyed t])
      else none

/-- A run of `loadTile` calls, one per finished reply (with the address of the image it
allocates), in order, with their effects. -/
def loadTiles (f : TileFetcher) : List (Reply × Nat) → Option (TileFetcher × List FetchEffect)
  | [] => some (f, [])
  | (reply, fresh) :: rest =>
    match f.loadTile reply fresh with
    | none => none
    | some (f1, fx1) =>
      match loadTiles f1 rest with
      | none => none
      | some (f2, fx2) => some (f2, fx1 ++ fx2)

end TileFetcher

/-! ## The scheduling state machine of the renderer -/

namespace RenderLoop

/-- A step of the renderer with its event queue: a `setState` call of the viewer, a
`tileResponse` call, or the handling of one queued `RenderRequest`, which starts a
render pass. -/
inductive Call where
  | setState (state : State)
  | tileResponse (tile : TileImage)
  | renderPass
  deriving DecidableEq

/-- One step; `none` when the step cannot be taken (no render request is queued) or is
undefined. -/
def step (l : RenderLoop) : Call → Option RenderLoop
  | Call.setState state => some (l.setState state)
  | Call.tileResponse tile => l.tileResponse tile
  | Call.renderPass => l.renderPass

/-- A run of steps, in order. -/
def run (l : RenderLoop) : List Call → Option RenderLoop
  | [] => some l
  | call :: calls =>
    match l.step call with
    | none => none
    | some l1 => run l1 calls

/-- The scheduling invariant: the counter is the number of queued render requests, which
is the number posted less the number of passes started, and is at most 1. -/
structure Scheduled (l : RenderLoop) : Prop where
  counter : l.renderer.m_render_requests = l.queue
  posted : l.posted = l.queue + l.reads.length
  bound : l.queue ≤ 1

end RenderLoop

/-! ## The renderer and the fetcher with their mailboxes

The signals `requestTile` and `deleteTile` of the renderer are queued calls of the slots
`tileRequest` and `deleteTile` of the fetcher, the signal `responseTile` of the fetcher
is a queued call of the slot `tileResponse` of the renderer (src/MapViewer.cpp,
`initialize`), and `RenderRequest` events go to the renderer's own event queue. Each
worker takes the messages of its mailbox in the order in which they were posted. The
`finished` signal of a transfer runs `loadTile` at any time after the transfer was
started. -/

/-- A message in the mailbox of the renderer. -/
inductive RendererMsg where
  /-- A queued call of the slot `tileResponse(tile)`. -/
  | responseTile (tile : TileImage)
  /-- A `RenderRequest` event. -/
  | renderRequest
  deriving DecidableEq

/-- A message in the mailbox of the fetcher. -/
inductive FetcherMsg where
  /-- A queued call of the slot `tileRequest(index)`. -/
  | tileRequest (index : TileIndex)
  /-- A queued call of the slot `deleteTile(tile)`. -/
  | deleteTile (tile : TileImage)
  deriving DecidableEq

/-- The image of a queued `tileResponse` call. -/
def RendererMsg.response : RendererMsg → Option TileImage
  | RendererMsg.responseTile tile => some tile
  | RendererMsg.renderRequest => none

/-- The coordinate of a queued `tileRequest` call. -/
def FetcherMsg.requested : FetcherMsg → Option TileIndex
  | FetcherMsg.tileRequest index => some index
  | FetcherMsg.deleteTile _ => none

/-- The image of a queued `deleteTile` call. -/
def FetcherMsg.deleted : FetcherMsg → Option TileImage
  | FetcherMsg.tileRequest _ => none
  | FetcherMsg.deleteTile tile => some tile

/-- The message that an effect of the renderer puts in the renderer's own mailbox. -/
def Effect.toRenderer : Effect → Option RendererMsg
  | Effect.postRender => some RendererMsg.renderRequest
  | Effect.requestTile _ => none
  | Effect.deleteTile _ => none
  | Effect.draw _ => none

/-- The message that an effect of the renderer puts in the fetcher's mailbox. -/
def Effect.toFetcher : Effect → Option FetcherMsg
  | Effect.postRender => none
  | Effect.requestTile index => some (FetcherMsg.tileRequest index)
  | Effect.deleteTile tile => some (FetcherMsg.deleteTile tile)
  | Effect.draw _ => none

/-- The message that an effect of the fetcher puts in the renderer's mailbox. -/
def FetchEffect.toRenderer : FetchEffect → Option RendererMsg
  | FetchEffect.responseTile tile => some (RendererMsg.responseTile tile)
  | FetchEffect.logCritical _ => none
  | FetchEffect.destroyed _ => none

/-- The image that an effect of the fetcher destroys. -/
def FetchEffect.toDestroyed : FetchEffect → Option TileImage
  | FetchEffect.responseTile _ => none
  | FetchEffect.logCritical _ => none
  | FetchEffect.destroyed tile => some tile

/-- The ownership invariant, over the contents of the cache, the pending set of the
renderer, the owned-image table and the in-flight map of the fetcher, the mailbox of
the fetcher, the images of the queued `tileResponse` calls, and the two records. Every
image in the cache, in a queued `deleteTile` call, or valid in a queued `tileResponse`
call is registered in the owned-image table under its own coordinate. A coordinate is
in at most one of the stages request queued, transfer in flight, response queued,
cached, and is pending in the first three; a queued `deleteTile` for the coordinate
excludes the last three stages and comes before a queued request for it. A registered
image is a created one that was not destroyed. -/
structure Owned (cache : List (TileIndex × TileImage)) (pend : List (TileIndex × Bool))
    (images : List (TileIndex × TileImage)) (replies : List (Nat × TileIndex))
    (fq : List FetcherMsg) (responses : List TileImage) (allocated : List Nat)
    (destroyed : List TileImage) : Prop where
  cache_reg : ∀ k t, mapFind cache k = some t →
    t.index = k ∧ t.valid = true ∧ mapFind images k = some t
  del_reg : ∀ t ∈ fq.filterMap FetcherMsg.deleted,
    t.valid = true ∧ mapFind images t.index = some t
  rsp_reg : ∀ t ∈ responses, t.valid = true → mapFind images t.index = some t
  pending : ∀ c, 0 < (fq.filterMap FetcherMsg.requested).count c
      + (replies.map Prod.snd).count c + (responses.map TileImage.index).count c →
    (mapFind pend c).isSome = true
  holders : ∀ c, (fq.filterMap FetcherMsg.requested).count c
      + (replies.map Prod.snd).count c + (responses.map TileImage.index).count c
      + (cache.map Prod.fst).count c ≤ 1
  deleters : ∀ c, ((fq.filterMap FetcherMsg.deleted).map TileImage.index).count c
      + (replies.map Prod.snd).count c + (responses.map TileImage.index).count c
      + (cache.map Prod.fst).count c ≤ 1
  order : fq.Pairwise (fun a b =>
    ∀ c t, a = FetcherMsg.tileRequest c → b = FetcherMsg.deleteTile t → t.index ≠ c)
  destroyed_nodup : destroyed.Nodup
  destroyed_ids : ∀ d ∈ destroyed, d.id ∈ allocated
  registered_live : ∀ t, mapFind images t.index = some t → t.id ∈ allocated ∧ t ∉ destroyed

/-- The two workers with their mailboxes (oldest message first), and two records kept
for the statements about the life of an image: the `id` of every `TileImage` object
created so far and the images destroyed so far, oldest first. An `id` names one
object: an object created after another was destroyed counts as a new object even if
the allocator gives it the same address. -/
structure System where
  renderer : TileRenderer
  fetcher : TileFetcher
  /-- The mailbox of the renderer. -/
  rq : List RendererMsg
  /-- The mailbox of the fetcher. -/
  fq : List FetcherMsg
  allocated : List Nat
  destroyed : List TileImage

namespace System

/-- The two workers as constructed, with empty mailboxes. -/
def start (config : Config) (zoom0 : Int) : System :=
  { renderer := TileRenderer.new config zoom0, fetcher := TileFetcher.new config.tile_size,
    rq := [], fq := [], allocated := [], destroyed := [] }

/-- A step of the combined state machine. -/
inductive Step where
  /-- The viewer calls `setState(state)`. -/
  | setState (state : State)
  /-- The renderer handles the oldest message of its mailbox. -/
  | rendererNext
  /-- The fetcher handles the oldest message of its mailbox; `reply` is the address
  of the `QNetworkReply` that `get` returns if the message is a `tileRequest`. -/
  | fetcherNext (reply : Nat)
  /-- A transfer finishes, with success or with an error, and `loadTile` runs;
  `fresh` names the `TileImage` that it creates. -/
  | finished (reply : Reply) (fresh : Nat)

/-- One step. The result is `none` when the step cannot be taken (empty mailbox, a name
in `fresh` that is already in use) or when the slot that runs is undefined or stops on
a fatal assertion. -/
def step (s : System) : Step → Option System
  | Step.setState state =>
    match s.renderer.setState state with
    | (r, fx) => some { s with renderer := r, rq := s.rq ++ fx.filterMap Effect.toRenderer }
  | Step.rendererNext =>
    match s.rq with
    | [] => none
    | RendererMsg.responseTile tile :: rest =>
      match s.renderer.tileResponse tile with
      | none => none
      | some (r, fx) =>
        some { s with renderer := r, rq := rest ++ fx.filterMap Effect.toRenderer,
                      fq := s.fq ++ fx.filterMap Effect.toFetcher }
    | RendererMsg.renderRequest :: rest =>
      match s.renderer.render with
      | none => none
      | some (r, fx) =>
        some { s with renderer := r, rq := rest ++ fx.filterMap Effect.toRenderer,
                      fq := s.fq ++ fx.filterMap Effect.toFetcher }
  | Step.fetcherNext reply =>
    match s.fq with
    | [] => none
    | FetcherMsg.tileRequest index :: rest =>
      match s.fetcher.tileRequest index reply with
      | none => none
      | some f => some { s with fetcher := f, fq := rest }
    | FetcherMsg.deleteTile tile :: rest =>
      match s.fetcher.deleteTile (some tile) with
      | none => none
      | some (f, fx) =>
        some { s with fetcher := f, fq := rest,
                      destroyed := s.destroyed ++ fx.filterMap FetchEffect.toDestroyed }
  | Step.finished reply fresh =>
    if fresh ∈ s.allocated then none
    else
      match s.fetcher.loadTile reply fresh with
      | none => none
      | some (f, fx) =>
        some { s with fetcher := f, rq := s.rq ++ fx.filterMap FetchEffect.toRenderer,
                      allocated := s.allocated ++ [fresh] }

/-- A run of steps, in order. -/
def run (s : System) : List Step → Option System
  | [] => some s
  | st :: steps =>
    match s.step st with
    | none => none
    | some s1 => run s1 steps

/-- The invariant of the combined state machine; it is kept by every step. -/
def Inv (s : System) : Prop :=
  Owned s.renderer.m_cache.m_map s.renderer.m_requests s.fetcher.m_images
    s.fetcher.m_replies s.fq (s.rq.filterMap RendererMsg.response) s.allocated s.destroyed

end System

/-! ## The broadcast `cancelRequests()`

`MapViewer::mouseDoubleClickEvent` emits `cancelRequests()`, which is connected to the
signal `cancelRequests()` of the fetcher, and `tileRequest` connects that signal to the
slot `abort()` of each `QNetworkReply` it creates. When the fetcher takes the signal
from its mailbox, every transfer in flight is aborted and finishes with
`OperationCanceledError`, so that `loadTile` runs for it. -/

namespace System

end System

section MapLemmas

variable {K V : Type} [DecidableEq K]

theorem mapFind_eq_none_iff (m : List (K × V)) (k : K) :
    mapFind m k = none ↔ k ∉ m.map Prod.fst := by
  induction m with
  | nil => simp [mapFind]
  | cons e m ih =>
    obtain ⟨a, v⟩ := e
    by_cases h : a = k
    · simp [mapFind, h]
    · simp [mapFind, h, ih, Ne.symm h]

theorem mapFind_isSome_iff (m : List (K × V)) (k : K) :
    (mapFind m k).isSome = true ↔ k ∈ m.map Prod.fst := by
  rw [← not_iff_not, ← mapFind_eq_none_iff]
  cases mapFind m k <;> simp

theorem mapFind_append (m m2 : List (K × V)) (k : K) :
    mapFind (m ++ m2) k = (mapFind m k).orElse (fun _ => mapFind m2 k) := by
  induction m with
  | nil => simp [mapFind]
  | cons e m ih =>
    obtain ⟨a, v⟩ := e
    by_cases h : a = k
    · simp [mapFind, h]
    · simp [mapFind, h, ih]

theorem mapFind_mapErase (m : List (K × V)) (a k : K) :
    mapFind (mapErase m a) k = if k = a then none else mapFind m k := by
  induction m with
  | nil => simp [mapFind, mapErase]
  | cons e m ih =>
    obtain ⟨b, v⟩ := e
    unfold mapErase at ih ⊢
    by_cases hb : b = a
    · subst hb
      by_cases hk : k = b
      · simp [hk] at ih ⊢
        simpa [hk] using ih
      · simp [hk, mapFind, Ne.symm hk] at ih ⊢
        simpa [hk] using ih
    · by_cases hk : k = a
      · subst hk
        simp [hb, mapFind, List.filter_cons] at ih ⊢
        exact ih
      · simp [hb, hk, mapFind, List.filter_cons] at ih ⊢
        rw [ih]

theorem mapFind_mapInsert (m : List (K × V)) (key k : K) (value : V)
    (h : mapFind m key = none) :
    mapFind (mapInsert m key value) k = if k = key then some value else mapFind m k := by
  unfold mapInsert
  rw [h]
  simp only [mapFind_append]
  by_cases hk : k = key
  · subst hk
    simp [h, mapFind]
  · cases hm : mapFind m k <;> simp [mapFind, hk, Ne.symm hk]

theorem map_fst_mapAssign (m : List (K × V)) (key : K) (value : V) :
    (mapAssign m key value).map Prod.fst = m.map Prod.fst := by
  induction m with
  | nil => simp [mapAssign]
  | cons e m ih =>
    obtain ⟨a, v⟩ := e
    by_cases h : a = key <;> simp [mapAssign, h, ih]

theorem mapFind_mapAssign (m : List (K × V)) (key k : K) (value : V) :
    mapFind (mapAssign m key value) k
      = if k = key then (mapFind m key).map (fun _ => value) else mapFind m k := by
  induction m with
  | nil => simp [mapAssign, mapFind]
  | cons e m ih =>
    obtain ⟨a, v⟩ := e
    by_cases h : a = key
    · subst h
      by_cases hk : k = a
      · simp [mapAssign, mapFind, hk]
      · simp [mapAssign, mapFind, hk, Ne.symm hk]
    · by_cases hk : k = key
      · subst hk
        simp [mapAssign, mapFind, h, ih]
      · simp [mapAssign, mapFind, h, hk, ih]

theorem map_fst_mapErase (m : List (K × V)) (a : K) :
    (mapErase m a).map Prod.fst = (m.map Prod.fst).filter (fun b => decide (b ≠ a)) := by
  unfold mapErase
  rw [List.filter_map]
  rfl

theorem mapInsert_of_none (m : List (K × V)) (key : K) (value : V)
    (h : mapFind m key = none) : mapInsert m key value = m ++ [(key, value)] := by
  unfold mapInsert
  rw [h]

end MapLemmas

namespace LRUCache

theorem wf_new {K V : Type} (N : Nat) : WF (new N : LRUCache K V) :=
  ⟨List.nodup_nil, List.nodup_nil, fun _ => Iff.rfl, Nat.zero_le _⟩

theorem WF.size_eq {K V : Type} {c : LRUCache K V} (h : WF c) : c.size = c.m_list.length := by
  have hp : c.m_list.Perm (c.m_map.map Prod.fst) :=
    (List.perm_ext_iff_of_nodup h.nodup_list h.nodup_keys).mpr h.mem_iff
  simpa [size] using hp.length_eq.symm

variable {K V : Type} [DecidableEq K]

theorem WF.mem_list_iff {c : LRUCache K V} (h : WF c) (k : K) :
    k ∈ c.m_list ↔ (mapFind c.m_map k).isSome = true := by
  rw [mapFind_isSome_iff]
  exact h.mem_iff k

theorem WF.not_mem_list_iff {c : LRUCache K V} (h : WF c) (k : K) :
    k ∉ c.m_list ↔ mapFind c.m_map k = none := by
  rw [mapFind_eq_none_iff]
  exact not_congr (h.mem_iff k)

/-- The three branches of `insert`, on a well-formed cache: which one is taken and
what it produces. -/
theorem insert_cases {c : LRUCache K V} (h : WF c) (key : K) (value : V) :
    (∃ old, mapFind c.m_map key = some old ∧
      c.insert key value = some ({ c with m_list := c.m_list.erase key ++ [key],
                                          m_map := mapAssign c.m_map key value },
                                 [(key, old)])) ∨
    (mapFind c.m_map key = none ∧ c.m_list.length < c.m_size ∧
      c.insert key value = some ({ c with m_list := c.m_list ++ [key],
                                          m_map := c.m_map ++ [(key, value)] }, [])) ∨
    (mapFind c.m_map key = none ∧ c.m_list.length = c.m_size ∧ c.m_list = [] ∧
      c.insert key value = none) ∨
    (∃ front rest old, mapFind c.m_map key = none ∧ c.m_list.length = c.m_size ∧
      c.m_list = front :: rest ∧ mapFind c.m_map front = some old ∧ front ≠ key ∧
      c.insert key value = some ({ c with m_list := rest ++ [key],
                                          m_map := mapErase c.m_map front ++ [(key, value)] },
                                 [(front, old)])) := by
  cases hk : mapFind c.m_map key with
  | some old =>
    left
    exact ⟨old, rfl, by simp [insert, hk]⟩
  | none =>
    right
    by_cases hfull : c.m_list.length = c.m_size
    · right
      cases hl : c.m_list with
      | nil =>
        left
        have h0 : c.m_size = 0 := by rw [← hfull, hl]; rfl
        exact ⟨rfl, hl ▸ hfull, rfl, by simp [insert, hk, hl, h0]⟩
      | cons front rest =>
        right
        have hmem : front ∈ c.m_list := by simp [hl]
        have hsome := (h.mem_list_iff front).mp hmem
        obtain ⟨old, hold⟩ := Option.isSome_iff_exists.mp hsome
        have hne : front ≠ key := by
          intro e
          rw [e, hk] at hold
          cases hold
        have hk2 : mapFind (mapErase c.m_map front) key = none := by
          rw [mapFind_mapErase, hk]
          simp
        have hlen : (front :: rest).length = c.m_size := by rw [← hl]; exact hfull
        refine ⟨front, rest, old, rfl, hlen, rfl, hold, hne, ?_⟩
        simp only [insert, hk, hl, hlen, if_true, hold, mapInsert_of_none _ _ _ hk2]
    · left
      refine ⟨rfl, lt_of_le_of_ne h.length_le hfull, ?_⟩
      simp [insert, hk, hfull, mapInsert_of_none _ _ _ hk]

theorem insert_wf {c c2 : LRUCache K V} (h : WF c) {key : K} {value : V} {log : List (K × V)}
    (hi : c.insert key value = some (c2, log)) : WF c2 ∧ c2.m_size = c.m_size := by
  rcases insert_cases h key value with ⟨old, hk, he⟩ | ⟨hk, hlt, he⟩ | ⟨_, _, _, he⟩ |
      ⟨front, rest, old, hk, hfull, hl, hold, hne, he⟩
  · rw [he] at hi
    obtain ⟨rfl, -⟩ := Prod.mk.inj (Option.some.inj hi)
    have hmem : key ∈ c.m_list := (h.mem_list_iff key).mpr (by simp [hk])
    refine ⟨⟨?_, ?_, ?_, ?_⟩, rfl⟩
    · simp only
      rw [List.nodup_append]
      refine ⟨h.nodup_list.erase key, List.nodup_singleton key, ?_⟩
      intro a ha hb
      rw [List.mem_singleton] at hb
      subst hb
      exact ((h.nodup_list.mem_erase_iff).mp ha).1 rfl
    · simp only [map_fst_mapAssign]
      exact h.nodup_keys
    · intro k
      simp only [map_fst_mapAssign, List.mem_append, List.mem_singleton,
        h.nodup_list.mem_erase_iff, ← h.mem_iff]
      constructor
      · rintro (⟨-, hm⟩ | rfl)
        · exact hm
        · exact hmem
      · intro hm
        by_cases e : k = key
        · exact Or.inr e
        · exact Or.inl ⟨e, hm⟩
    · simp only [List.length_append, List.length_singleton, List.length_erase_of_mem hmem]
      have := List.length_pos_of_mem hmem
      have := h.length_le
      omega
  · rw [he] at hi
    obtain ⟨rfl, -⟩ := Prod.mk.inj (Option.some.inj hi)
    have hnk : key ∉ c.m_list := (h.not_mem_list_iff key).mpr hk
    refine ⟨⟨?_, ?_, ?_, ?_⟩, rfl⟩
    · simp only
      rw [List.nodup_append]
      refine ⟨h.nodup_list, List.nodup_singleton key, ?_⟩
      intro a ha hb
      rw [List.mem_singleton] at hb
      subst hb
      exact hnk ha
    · simp only [List.map_append, List.map_cons, List.map_nil]
      rw [List.nodup_append]
      refine ⟨h.nodup_keys, List.nodup_singleton key, ?_⟩
      intro a ha hb
      rw [List.mem_singleton] at hb
      subst hb
      exact hnk ((h.mem_iff _).mpr ha)
    · intro k
      simp only [List.map_append, List.map_cons, List.map_nil, List.mem_append,
        List.mem_singleton, h.mem_iff]
    · simp only [List.length_append, List.length_singleton]
      omega
  · rw [he] at hi
    cases hi
  · rw [he] at hi
    obtain ⟨rfl, -⟩ := Prod.mk.inj (Option.some.inj hi)
    have hnk : key ∉ c.m_list := (h.not_mem_list_iff key).mpr hk
    have hnd := h.nodup_list
    rw [hl] at hnd hnk
    have hfr : front ∉ rest := (List.nodup_cons.mp hnd).1
    have hrest : rest.Nodup := (List.nodup_cons.mp hnd).2
    have hkr : key ∉ rest := fun hm => hnk (List.mem_cons_of_mem _ hm)
    refine ⟨⟨?_, ?_, ?_, ?_⟩, rfl⟩
    · simp only
      rw [List.nodup_append]
      refine ⟨hrest, List.nodup_singleton key, ?_⟩
      intro a ha hb
      rw [List.mem_singleton] at hb
      subst hb
      exact hkr ha
    · simp only [List.map_append, List.map_cons, List.map_nil, map_fst_mapErase]
      rw [List.nodup_append]
      refine ⟨h.nodup_keys.filter _, List.nodup_singleton key, ?_⟩
      intro a ha hb
      rw [List.mem_singleton] at hb
      subst hb
      have := (List.mem_filter.mp ha).1
      rw [← h.mem_iff, hl] at this
      exact hnk this
    · intro k
      simp only [List.map_append, List.map_cons, List.map_nil, map_fst_mapErase,
        List.mem_append, List.mem_singleton, List.mem_filter, ← h.mem_iff, hl,
        List.mem_cons, decide_eq_true_eq, List.not_mem_nil, or_false]
      constructor
      · rintro (hm | rfl)
        · exact Or.inl ⟨Or.inr hm, fun e => hfr (e ▸ hm)⟩
        · exact Or.inr rfl
      · rintro (⟨hm | hm, hne2⟩ | rfl)
        · exact absurd hm hne2
        · exact Or.inl hm
        · exact Or.inr rfl
    · have := h.length_le
      rw [hl] at this
      simp only [List.length_append, List.length_singleton, List.length_cons] at this ⊢
      exact this

theorem insert_isSome {c : LRUCache K V} (h : WF c) (hN : 1 ≤ c.m_size) (key : K) (value : V) :
    ∃ c2 log, c.insert key value = some (c2, log) := by
  rcases insert_cases h key value with ⟨old, hk, he⟩ | ⟨hk, hlt, he⟩ | ⟨_, hfull, hnil, he⟩ |
      ⟨front, rest, old, hk, hfull, hl, hold, hne, he⟩
  · exact ⟨_, _, he⟩
  · exact ⟨_, _, he⟩
  · rw [hnil] at hfull
    simp at hfull
    omega
  · exact ⟨_, _, he⟩

theorem query_wf {c : LRUCache K V} (h : WF c) (key : K) :
    WF (c.query key).1 ∧ (c.query key).1.m_size = c.m_size ∧
      (c.query key).1.m_map = c.m_map ∧ (c.query key).2 = mapFind c.m_map key := by
  unfold query
  cases hk : mapFind c.m_map key with
  | none => exact ⟨h, rfl, rfl, rfl⟩
  | some v =>
    have hmem : key ∈ c.m_list := (h.mem_list_iff key).mpr (by simp [hk])
    refine ⟨⟨?_, h.nodup_keys, ?_, ?_⟩, rfl, rfl, rfl⟩
    · simp only
      rw [List.nodup_append]
      refine ⟨h.nodup_list.erase key, List.nodup_singleton key, ?_⟩
      intro a ha hb
      rw [List.mem_singleton] at hb
      subst hb
      exact ((h.nodup_list.mem_erase_iff).mp ha).1 rfl
    · intro k
      simp only [List.mem_append, List.mem_singleton, h.nodup_list.mem_erase_iff, ← h.mem_iff]
      constructor
      · rintro (⟨-, hm⟩ | rfl)
        · exact hm
        · exact hmem
      · intro hm
        by_cases e : k = key
        · exact Or.inr e
        · exact Or.inl ⟨e, hm⟩
    · simp only [List.length_append, List.length_singleton, List.length_erase_of_mem hmem]
      have := List.length_pos_of_mem hmem
      have := h.length_le
      omega

theorem insertAll_append (c : LRUCache K V) (xs ys : List (K × V)) :
    c.insertAll (xs ++ ys) =
      match c.insertAll xs with
      | none => none
      | some (c1, log1) =>
        match c1.insertAll ys with
        | none => none
        | some (c2, log2) => some (c2, log1 ++ log2) := by
  induction xs generalizing c with
  | nil =>
    simp only [List.nil_append, insertAll]
    cases c.insertAll ys with
    | none => rfl
    | some r => simp
  | cons e xs ih =>
    obtain ⟨key, value⟩ := e
    rw [List.cons_append, insertAll, insertAll]
    cases c.insert key value with
    | none => rfl
    | some r =>
      obtain ⟨c1, log1⟩ := r
      simp only
      rw [ih c1]
      cases c1.insertAll xs with
      | none => rfl
      | some r2 =>
        obtain ⟨c2, log2⟩ := r2
        simp only
        cases c2.insertAll ys with
        | none => rfl
        | some r3 => simp [List.append_assoc]

/-- Inserting pairwise distinct keys while there is room appends them, with no
callback invocation. -/
theorem insertAll_room (N : Nat) (m kvs : List (K × V))
    (hnd : ((m ++ kvs).map Prod.fst).Nodup) (hlen : m.length + kvs.length ≤ N) :
    insertAll (⟨N, m.map Prod.fst, m⟩ : LRUCache K V) kvs
      = some (⟨N, (m ++ kvs).map Prod.fst, m ++ kvs⟩, []) := by
  induction kvs generalizing m with
  | nil => simp [insertAll]
  | cons e kvs ih =>
    obtain ⟨key, value⟩ := e
    have hkey : mapFind m key = none := by
      rw [mapFind_eq_none_iff]
      intro hm
      rw [List.map_append, List.nodup_append] at hnd
      exact hnd.2.2 hm (by simp)
    have hlt : m.length ≠ N := by
      simp only [List.length_cons] at hlen
      omega
    have hins : insert (⟨N, m.map Prod.fst, m⟩ : LRUCache K V) key value
        = some (⟨N, (m ++ [(key, value)]).map Prod.fst, m ++ [(key, value)]⟩, []) := by
      simp [insert, hkey, hlt, mapInsert_of_none _ _ _ hkey]
    have hnd2 : (((m ++ [(key, value)]) ++ kvs).map Prod.fst).Nodup := by
      simpa [List.append_assoc] using hnd
    have hlen2 : (m ++ [(key, value)]).length + kvs.length ≤ N := by
      simp only [List.length_append, List.length_cons, List.length_nil] at hlen ⊢
      omega
    simp only [insertAll, hins, ih _ hnd2 hlen2]
    simp [List.append_assoc]

/-- The state and callback log after filling an empty cache of capacity `N` with `N`
distinct keys and inserting one more distinct key. -/
theorem insertAll_overflow (N : Nat) (k0 : K) (v0 : V) (rest : List (K × V))
    (hlen : rest.length = N) (hN : 1 ≤ N) (hnd : (k0 :: rest.map Prod.fst).Nodup) :
    insertAll (new N : LRUCache K V) ((k0, v0) :: rest)
      = some (⟨N, rest.map Prod.fst, rest⟩, [(k0, v0)]) := by
  rcases List.eq_nil_or_concat rest with hnil | ⟨init, last, hrest⟩
  · subst hnil
    simp at hlen
    omega
  · obtain ⟨kN, vN⟩ := last
    rw [List.concat_eq_append] at hrest
    subst hrest
    have hlen1 : init.length + 1 = N := by simpa using hlen
    have hfill := insertAll_room N ([] : List (K × V)) ((k0, v0) :: init)
      (by
        simp only [List.nil_append, List.map_cons]
        simp only [List.map_append, List.map_cons, List.map_nil] at hnd
        rw [List.nodup_cons] at hnd ⊢
        refine ⟨fun hm => hnd.1 (List.mem_append_left _ hm), ?_⟩
        exact (List.nodup_append.mp hnd.2).1)
      (by simp only [List.length_nil, List.length_cons]; omega)
    have hsplit : (k0, v0) :: (init ++ [(kN, vN)]) = ((k0, v0) :: init) ++ [(kN, vN)] := rfl
    rw [hsplit, insertAll_append]
    simp only [List.map_nil, List.nil_append] at hfill
    have hnew : (new N : LRUCache K V) = ⟨N, [], []⟩ := rfl
    rw [hnew, hfill]
    simp only [List.map_append, List.map_cons, List.map_nil] at hnd
    rw [List.nodup_cons] at hnd
    obtain ⟨hk0, hnd2⟩ := hnd
    rw [List.nodup_append] at hnd2
    have hkN0 : kN ≠ k0 := by
      intro e
      exact hk0 (by simp [e])
    have hkNi : kN ∉ init.map Prod.fst := fun hm => hnd2.2.2 hm (by simp)
    have hk0i : k0 ∉ init.map Prod.fst := fun hm => hk0 (List.mem_append_left _ hm)
    have hfind : mapFind ((k0, v0) :: init) kN = none := by
      rw [mapFind_eq_none_iff]
      simp only [List.map_cons, List.mem_cons, not_or]
      exact ⟨hkN0, hkNi⟩
    have herase : mapErase ((k0, v0) :: init) k0 = init := by
      unfold mapErase
      rw [List.filter_cons]
      simp only [ne_eq, not_true_eq_false, decide_False, Bool.false_eq_true, if_false]
      rw [List.filter_eq_self]
      intro e he
      simp only [ne_eq, decide_eq_true_eq]
      intro e0
      exact hk0i (e0 ▸ List.mem_map_of_mem Prod.fst he)
    have hfind2 : mapFind init kN = none := (mapFind_eq_none_iff _ _).mpr hkNi
    have hins : insert (⟨N, ((k0, v0) :: init).map Prod.fst, (k0, v0) :: init⟩ : LRUCache K V)
        kN vN = some (⟨N, (init ++ [(kN, vN)]).map Prod.fst, init ++ [(kN, vN)]⟩,
          [(k0, v0)]) := by
      have hl : (k0 :: List.map Prod.fst init).length = N := by
        simp only [List.length_map, List.length_cons]
        exact hlen1
      simp only [insert, hfind, List.map_cons]
      simp only [mapFind, if_true, herase, mapInsert_of_none _ _ _ hfind2, List.map_append,
        List.map_cons, List.map_nil]
      rw [if_pos hl]
    simp only [List.map_cons, List.map_append, List.map_nil] at hins
    simp only [insertAll, hins, List.append_nil, List.nil_append, List.map_append,
      List.map_cons, List.map_nil]

theorem mapFind_of_mem_nodup (m : List (K × V)) (hnd : (m.map Prod.fst).Nodup)
    (kv : K × V) (hkv : kv ∈ m) : mapFind m kv.1 = some kv.2 := by
  induction m with
  | nil => cases hkv
  | cons e m ih =>
    obtain ⟨a, v⟩ := e
    rw [List.map_cons, List.nodup_cons] at hnd
    rcases List.mem_cons.mp hkv with rfl | hm
    · simp [mapFind]
    · have hne : a ≠ kv.1 := by
        intro e
        have := List.mem_map_of_mem Prod.fst hm
        rw [← e] at this
        exact hnd.1 this
      simp [mapFind, hne, ih hnd.2 hm]

theorem step_wf {c c2 : LRUCache K V} (h : WF c) {op : Op K V} {ev : List (Event K V)}
    (hs : c.step op = some (c2, ev)) : WF c2 ∧ c2.m_size = c.m_size := by
  cases op with
  | insert key value =>
    simp only [step] at hs
    cases hi : c.insert key value with
    | none => simp [hi] at hs
    | some r =>
      obtain ⟨c1, log⟩ := r
      simp only [hi, Option.some.injEq, Prod.mk.injEq] at hs
      obtain ⟨rfl, -⟩ := hs
      exact insert_wf h hi
  | query key =>
    simp only [step, Option.some.injEq, Prod.mk.injEq] at hs
    obtain ⟨rfl, -⟩ := hs
    exact ⟨(query_wf h key).1, (query_wf h key).2.1⟩

theorem step_isSome {c : LRUCache K V} (h : WF c) (hN : 1 ≤ c.m_size) (op : Op K V) :
    ∃ c2 ev, c.step op = some (c2, ev) := by
  cases op with
  | insert key value =>
    obtain ⟨c2, log, hi⟩ := insert_isSome h hN key value
    exact ⟨c2, log.map (fun e => Event.evicted e.1 e.2) ++ [Event.stored key value],
      by simp [step, hi]⟩
  | query key => exact ⟨_, _, rfl⟩

theorem run_wf {c c2 : LRUCache K V} (h : WF c) {ops : List (Op K V)} {ev : List (Event K V)}
    (hr : c.run ops = some (c2, ev)) : WF c2 ∧ c2.m_size = c.m_size := by
  induction ops generalizing c ev with
  | nil =>
    simp only [run, Option.some.injEq, Prod.mk.injEq] at hr
    obtain ⟨rfl, -⟩ := hr
    exact ⟨h, rfl⟩
  | cons op ops ih =>
    simp only [run] at hr
    cases hs : c.step op with
    | none => simp [hs] at hr
    | some r =>
      obtain ⟨c1, ev1⟩ := r
      simp only [hs] at hr
      cases hr2 : c1.run ops with
      | none => simp [hr2] at hr
      | some r2 =>
        obtain ⟨c3, ev2⟩ := r2
        simp only [hr2, Option.some.injEq, Prod.mk.injEq] at hr
        obtain ⟨rfl, -⟩ := hr
        have h1 := step_wf h hs
        have h2 := ih h1.1 hr2
        exact ⟨h2.1, h2.2.trans h1.2⟩

theorem run_isSome {c : LRUCache K V} (h : WF c) (hN : 1 ≤ c.m_size) (ops : List (Op K V)) :
    ∃ c2 ev, c.run ops = some (c2, ev) := by
  induction ops generalizing c with
  | nil => exact ⟨c, [], rfl⟩
  | cons op ops ih =>
    obtain ⟨c1, ev1, hs⟩ := step_isSome h hN op
    have h1 := step_wf h hs
    obtain ⟨c2, ev2, hr⟩ := ih h1.1 (by rw [h1.2]; exact hN)
    exact ⟨c2, ev1 ++ ev2, by simp [run, hs, hr]⟩

/-- With a capacity of at least one, every sequence of operations on an initially empty
cache is defined, and the cache never holds more entries than its capacity. -/
theorem run_new_size_le (N : Nat) (hN : 1 ≤ N) (ops : List (Op K V)) :
    ∃ c ev, (new N : LRUCache K V).run ops = some (c, ev) ∧ WF c ∧ c.size ≤ N := by
  obtain ⟨c, ev, hr⟩ := run_isSome (wf_new N : WF (new N : LRUCache K V)) hN ops
  have hw := run_wf (wf_new N) hr
  refine ⟨c, ev, hr, hw.1, ?_⟩
  rw [hw.1.size_eq]
  have := hw.1.length_le
  rw [hw.2] at this
  exact this

/-- C1: for a capacity `N ≥ 1` and `N + 1` pairwise distinct keys `k0, k1 .. kN` (the
pairs of `rest` are `k1 .. kN` with their values), inserting them in order into an
empty cache of capacity `N` succeeds, invokes the eviction callback exactly once, with
`v0`, and leaves a cache of `N` entries in which `k0` is absent, every `ki` of `rest` is
mapped to its own value and no other key is present. -/
theorem lru_evicts_first_inserted (N : Nat) (hN : 1 ≤ N) (k0 : K) (v0 : V)
    (rest : List (K × V)) (hlen : rest.length = N)
    (hnd : (k0 :: rest.map Prod.fst).Nodup) :
    ∃ c log, insertAll (new N : LRUCache K V) ((k0, v0) :: rest) = some (c, log) ∧
      log.map Prod.snd = [v0] ∧
      mapFind c.m_map k0 = none ∧
      (∀ kv ∈ rest, mapFind c.m_map kv.1 = some kv.2) ∧
      (∀ k, k ∉ rest.map Prod.fst → mapFind c.m_map k = none) ∧
      c.size = N := by
  refine ⟨⟨N, rest.map Prod.fst, rest⟩, [(k0, v0)],
    insertAll_overflow N k0 v0 rest hlen hN hnd, rfl, ?_, ?_, ?_, hlen⟩
  · exact (mapFind_eq_none_iff _ _).mpr (List.nodup_cons.mp hnd).1
  · intro kv hkv
    exact mapFind_of_mem_nodup rest (List.nodup_cons.mp hnd).2 kv hkv
  · intro k hk
    exact (mapFind_eq_none_iff _ _).mpr hk

/-- C1, the instance of the specification: capacity 2, inserts A, B, C. -/
theorem lru_evicts_first_inserted_witness :
    ∃ c log, insertAll (new 2 : LRUCache String Nat) (("A", 1) :: [("B", 2), ("C", 3)])
        = some (c, log) ∧
      log.map Prod.snd = [1] ∧
      mapFind c.m_map "A" = none ∧
      (∀ kv ∈ [("B", 2), ("C", 3)], mapFind c.m_map kv.1 = some kv.2) ∧
      (∀ k, k ∉ [("B", 2), ("C", 3)].map Prod.fst → mapFind c.m_map k = none) ∧
      c.size = 2 :=
  lru_evicts_first_inserted 2 (by decide) "A" 1 [("B", 2), ("C", 3)] rfl (by decide)

/-- C2: a cache size of 0 is accepted by `parseCommandLine`, and the first `insert`
into the empty cache of capacity 0 is undefined: the list is "full" (`0 == m_size`),
so `m_list.front()` is evaluated on the empty list and no entry exists to evict. -/
theorem insert_capacity_zero_undefined (key : K) (value : V) :
    parseCacheSize 0 = 0 ∧
      (new (parseCacheSize 0) : LRUCache K V).insert key value = none ∧
      (new (parseCacheSize 0) : LRUCache K V).run [Op.insert key value] = none := by
  refine ⟨by decide, ?_, ?_⟩
  · have h0 : parseCacheSize 0 = 0 := by decide
    rw [h0]
    rfl
  · have h0 : parseCacheSize 0 = 0 := by decide
    rw [h0]
    rfl

/-- Inserting fresh keys consumes the recency list from its front: what is left of the
original list `base` is always one of its suffixes `s2`, followed by fresh keys. -/
theorem insertAll_fresh_suffix (base : List K) (news : List (K × V)) :
    ∀ (c : LRUCache K V) (s t p : List K), WF c → 1 ≤ c.m_size →
      c.m_list = s ++ t → base = p ++ s → (∀ x ∈ t, x ∉ base) →
      (news.map Prod.fst).Nodup → (∀ n ∈ news.map Prod.fst, n ∉ c.m_list) →
      (∀ n ∈ news.map Prod.fst, n ∉ base) →
      ∃ c2 log s2 t2 p2, c.insertAll news = some (c2, log) ∧ WF c2 ∧
        c2.m_list = s2 ++ t2 ∧ base = p2 ++ s2 ∧ (∀ x ∈ t2, x ∉ base) := by
  induction news with
  | nil =>
    intro c s t p h _ hlist hsuf ht _ _ _
    exact ⟨c, [], s, t, p, rfl, h, hlist, hsuf, ht⟩
  | cons e news ih =>
    obtain ⟨key, value⟩ := e
    intro c s t p h hN hlist hsuf ht hnd habs hbase
    rw [List.map_cons, List.nodup_cons] at hnd
    have hkey : key ∉ c.m_list := habs key (by simp)
    have hkbase : key ∉ base := hbase key (by simp)
    have hfind : mapFind c.m_map key = none := (h.not_mem_list_iff key).mp hkey
    have hrest_base : ∀ n ∈ news.map Prod.fst, n ∉ base :=
      fun n hn => hbase n (by simp only [List.map_cons, List.mem_cons]; exact Or.inr hn)
    have hrest_abs : ∀ n ∈ news.map Prod.fst, n ∉ c.m_list :=
      fun n hn => habs n (by simp only [List.map_cons, List.mem_cons]; exact Or.inr hn)
    have hrest_ne : ∀ n ∈ news.map Prod.fst, n ≠ key := fun n hn e => hnd.1 (e ▸ hn)
    have hfinish : ∀ (c1 : LRUCache K V) (log1 : List (K × V)) (s1 t1 p1 : List K),
        c.insert key value = some (c1, log1) → c1.m_list = s1 ++ t1 → base = p1 ++ s1 →
        (∀ x ∈ t1, x ∉ base) → (∀ x ∈ c1.m_list, x ∈ c.m_list ∨ x = key) →
        ∃ c2 log s2 t2 p2, c.insertAll ((key, value) :: news) = some (c2, log) ∧ WF c2 ∧
          c2.m_list = s2 ++ t2 ∧ base = p2 ++ s2 ∧ (∀ x ∈ t2, x ∉ base) := by
      intro c1 log1 s1 t1 p1 hi hl1 hs1 ht1 hsub
      have hw1 := insert_wf h hi
      have habs1 : ∀ n ∈ news.map Prod.fst, n ∉ c1.m_list := by
        intro n hn hm
        rcases hsub n hm with hm2 | e
        · exact hrest_abs n hn hm2
        · exact hrest_ne n hn e
      obtain ⟨c2, log2, s2, t2, p2, hr, hw2, hl2, hs2, ht2⟩ :=
        ih c1 s1 t1 p1 hw1.1 (by rw [hw1.2]; exact hN) hl1 hs1 ht1 hnd.2 habs1 hrest_base
      exact ⟨c2, log1 ++ log2, s2, t2, p2, by simp [insertAll, hi, hr], hw2, hl2, hs2, ht2⟩
    rcases insert_cases h key value with ⟨old, hk, _⟩ | ⟨_, hlt, he⟩ | ⟨_, hfull, hnil, _⟩ |
        ⟨front, rest, old, _, hfull, hl, hold, hne, he⟩
    · rw [hfind] at hk
      cases hk
    · refine hfinish _ _ s (t ++ [key]) p he ?_ hsuf ?_ ?_
      · simp only [hlist, List.append_assoc]
      · intro x hx
        rcases List.mem_append.mp hx with hx | hx
        · exact ht x hx
        · rw [List.mem_singleton] at hx
          exact hx ▸ hkbase
      · intro x hx
        rcases List.mem_append.mp hx with hx | hx
        · exact Or.inl hx
        · exact Or.inr (List.mem_singleton.mp hx)
    · rw [hnil] at hfull
      simp only [List.length_nil] at hfull
      omega
    · have hsub : ∀ x ∈ rest ++ [key], x ∈ c.m_list ∨ x = key := by
        intro x hx
        rcases List.mem_append.mp hx with hx | hx
        · exact Or.inl (hl ▸ List.mem_cons_of_mem _ hx)
        · exact Or.inr (List.mem_singleton.mp hx)
      cases s with
      | nil =>
        have hrest : t = front :: rest := by
          rw [← hl, hlist, List.nil_append]
        refine hfinish _ _ [] (rest ++ [key]) p he (by simp) hsuf ?_ hsub
        intro x hx
        rcases List.mem_append.mp hx with hx | hx
        · exact ht x (hrest ▸ List.mem_cons_of_mem _ hx)
        · rw [List.mem_singleton] at hx
          exact hx ▸ hkbase
      | cons a s1 =>
        have hsplit : front :: rest = a :: (s1 ++ t) := by
          rw [← hl, hlist, List.cons_append]
        obtain ⟨-, hrest⟩ := List.cons.inj hsplit
        refine hfinish _ _ s1 (t ++ [key]) (p ++ [a]) he ?_ ?_ ?_ hsub
        · simp only [hrest, List.append_assoc]
        · rw [hsuf, List.append_assoc, List.singleton_append]
        · intro x hx
          rcases List.mem_append.mp hx with hx | hx
          · exact ht x hx
          · rw [List.mem_singleton] at hx
            exact hx ▸ hkbase

/-- The key at the back of the recency list of a well-formed cache is its most
recently used key. -/
theorem mostRecent_of_back {c : LRUCache K V} (h : WF c) (l : List K) (k : K)
    (hl : c.m_list = l ++ [k]) : MostRecent c k := by
  intro news hnd habs i
  have hN : 1 ≤ c.m_size := by
    have := h.length_le
    rw [hl] at this
    simp only [List.length_append, List.length_singleton] at this
    omega
  have hnd2 : ((news.take i).map Prod.fst).Nodup := by
    rw [List.map_take]
    exact hnd.sublist (List.take_sublist _ _)
  have habs2 : ∀ n ∈ (news.take i).map Prod.fst, n ∉ c.m_list := by
    intro n hn
    rw [List.map_take] at hn
    exact (h.not_mem_list_iff n).mpr (habs n (List.mem_of_mem_take hn))
  obtain ⟨c2, log, s2, t2, p2, hr, hw2, hl2, hs2, ht2⟩ :=
    insertAll_fresh_suffix c.m_list (news.take i) c c.m_list [] [] h hN (by simp) (by simp)
      (by simp) hnd2 habs2 habs2
  refine ⟨c2, log, hr, ?_⟩
  intro hk j hj
  have hk2 : k ∉ c2.m_list := (hw2.not_mem_list_iff k).mpr hk
  rw [hl2] at hk2
  have hs2nil : s2 = [] := by
    rcases List.eq_nil_or_concat s2 with hnil | ⟨s3, x, hx⟩
    · exact hnil
    · exfalso
      rw [List.concat_eq_append] at hx
      rw [hl, hx, ← List.append_assoc] at hs2
      have hxk := (List.append_inj' hs2 rfl).2
      simp only [List.cons.injEq, and_true] at hxk
      apply hk2
      rw [hx, hxk]
      simp
  have hj2 : j ∈ c.m_list := (h.mem_list_iff j).mpr hj
  apply (hw2.not_mem_list_iff j).mp
  rw [hl2, hs2nil, List.nil_append]
  intro hjt
  exact ht2 j hjt hj2

/-- Every state reached from the empty cache is well formed. -/
theorem wf_of_run {N : Nat} {ops : List (Op K V)} {c : LRUCache K V} {ev : List (Event K V)}
    (hr : (new N : LRUCache K V).run ops = some (c, ev)) : WF c :=
  (run_wf (wf_new N) hr).1

/-- C3: in every state `c` reached from the empty cache and for every key `k` present
in it, after `query(k)` the key `k` is the most recently used one: in any following run
of inserts of pairwise distinct keys absent from the cache, at every point of the run,
`k` has been evicted only if every key that was present at the time of the query has
been evicted. -/
theorem query_makes_most_recent (N : Nat) (ops : List (Op K V)) (c : LRUCache K V)
    (ev : List (Event K V)) (hr : (new N : LRUCache K V).run ops = some (c, ev)) (k : K)
    (hk : (mapFind c.m_map k).isSome = true) :
    (c.query k).1.m_map = c.m_map ∧ MostRecent (c.query k).1 k := by
  have h := wf_of_run hr
  have hq := query_wf h k
  refine ⟨hq.2.2.1, ?_⟩
  apply mostRecent_of_back hq.1 (c.m_list.erase k) k
  obtain ⟨v, hv⟩ := Option.isSome_iff_exists.mp hk
  simp [query, hv]

/-- C3, an instance: capacity 2 holding A then B; after `query(A)` a fresh insert evicts
B and not A. -/
theorem query_makes_most_recent_witness :
    ((new 2 : LRUCache String Nat).run [Op.insert "A" 1, Op.insert "B" 2]
        = some (⟨2, ["A", "B"], [("A", 1), ("B", 2)]⟩,
                [Event.stored "A" 1, Event.stored "B" 2])) ∧
      (mapFind ([("A", 1), ("B", 2)] : List (String × Nat)) "A").isSome = true ∧
      ((query (⟨2, ["A", "B"], [("A", 1), ("B", 2)]⟩ : LRUCache String Nat) "A").1.m_map
          = [("A", 1), ("B", 2)] ∧
        MostRecent (query (⟨2, ["A", "B"], [("A", 1), ("B", 2)]⟩ : LRUCache String Nat) "A").1
          "A") :=
  ⟨by decide, by decide,
    query_makes_most_recent 2 [Op.insert "A" 1, Op.insert "B" 2]
      ⟨2, ["A", "B"], [("A", 1), ("B", 2)]⟩ [Event.stored "A" 1, Event.stored "B" 2]
      (by decide) "A" (by decide)⟩

/-- C4: in every state `c` reached from the empty cache, for every key `k` present with
value `v_old` and every `v_new`, `insert(k, v_new)` succeeds, invokes the eviction
callback exactly once, with `v_old`, leaves `size()` and the set of present keys
unchanged (no other entry is evicted or changed, whether or not the cache is full),
stores `v_new` under `k`, and makes `k` the most recently used key. -/
theorem insert_present_overwrites (N : Nat) (ops : List (Op K V)) (c : LRUCache K V)
    (ev : List (Event K V)) (hr : (new N : LRUCache K V).run ops = some (c, ev)) (k : K)
    (v_old v_new : V) (hk : mapFind c.m_map k = some v_old) :
    ∃ c2 log, c.insert k v_new = some (c2, log) ∧
      log.map Prod.snd = [v_old] ∧
      c2.size = c.size ∧
      c2.m_map.map Prod.fst = c.m_map.map Prod.fst ∧
      mapFind c2.m_map k = some v_new ∧
      (∀ j, j ≠ k → mapFind c2.m_map j = mapFind c.m_map j) ∧
      c2.m_list.getLast? = some k ∧
      MostRecent c2 k := by
  have h := wf_of_run hr
  have hi : c.insert k v_new
      = some ({ c with m_list := c.m_list.erase k ++ [k],
                       m_map := mapAssign c.m_map k v_new }, [(k, v_old)]) := by
    simp [insert, hk]
  have hw := insert_wf h hi
  refine ⟨_, _, hi, rfl, ?_, map_fst_mapAssign _ _ _, ?_, ?_, ?_, ?_⟩
  · have hlen := congrArg List.length (map_fst_mapAssign c.m_map k v_new)
    simpa [size] using hlen
  · simp [mapFind_mapAssign, hk]
  · intro j hj
    simp [mapFind_mapAssign, hj]
  · simp
  · exact mostRecent_of_back hw.1 (c.m_list.erase k) k rfl

/-- C4, an instance: a full cache of capacity 2 holding A and B; `insert(A, 7)` hands the
old value 1 to the callback and evicts nothing else. -/
theorem insert_present_overwrites_witness :
    ((new 2 : LRUCache String Nat).run [Op.insert "A" 1, Op.insert "B" 2]
        = some (⟨2, ["A", "B"], [("A", 1), ("B", 2)]⟩,
                [Event.stored "A" 1, Event.stored "B" 2])) ∧
      mapFind ([("A", 1), ("B", 2)] : List (String × Nat)) "A" = some 1 ∧
      ∃ c2 log, insert (⟨2, ["A", "B"], [("A", 1), ("B", 2)]⟩ : LRUCache String Nat) "A" 7
          = some (c2, log) ∧
        log.map Prod.snd = [1] ∧
        c2.size = size (⟨2, ["A", "B"], [("A", 1), ("B", 2)]⟩ : LRUCache String Nat) ∧
        c2.m_map.map Prod.fst = ([("A", 1), ("B", 2)] : List (String × Nat)).map Prod.fst ∧
        mapFind c2.m_map "A" = some 7 ∧
        (∀ j, j ≠ "A" → mapFind c2.m_map j
          = mapFind ([("A", 1), ("B", 2)] : List (String × Nat)) j) ∧
        c2.m_list.getLast? = some "A" ∧
        MostRecent c2 "A" :=
  ⟨by decide, by decide,
    insert_present_overwrites 2 [Op.insert "A" 1, Op.insert "B" 2]
      ⟨2, ["A", "B"], [("A", 1), ("B", 2)]⟩ [Event.stored "A" 1, Event.stored "B" 2]
      (by decide) "A" 1 7 (by decide)⟩

theorem liveValue_append (key : K) (h1 h2 : List (Event K V)) :
    liveValue key (h1 ++ h2) = h2.foldl (slotAfter key) (liveValue key h1) := by
  simp [liveValue, List.foldl_append]

/-- An event that is neither `stored key _` nor `evicted key _`. -/
theorem slotAfter_other (key : K) (slot : Option V) (e : Event K V)
    (h1 : ∀ w, e ≠ Event.stored key w) (h2 : ∀ w, e ≠ Event.evicted key w) :
    slotAfter key slot e = slot := by
  cases e with
  | stored a v =>
    have : a ≠ key := fun e => h1 v (e ▸ rfl)
    simp [slotAfter, this]
  | evicted a v =>
    have : a ≠ key := fun e => h2 v (e ▸ rfl)
    simp [slotAfter, this]

/-- What `liveValue` computes, said on the history itself: the slot of `key` holds `v`
exactly when the history has an event `stored key v` after which `key` is neither
stored again nor evicted. -/
theorem liveValue_eq_some_iff (key : K) (v : V) (history : List (Event K V)) :
    liveValue key history = some v ↔
      ∃ h1 h2, history = h1 ++ Event.stored key v :: h2 ∧
        ∀ e ∈ h2, (∀ w, e ≠ Event.stored key w) ∧ (∀ w, e ≠ Event.evicted key w) := by
  induction history using List.reverseRecOn with
  | nil => simp [liveValue]
  | append_singleton h e ih =>
    rw [liveValue_append]
    simp only [List.foldl_cons, List.foldl_nil]
    constructor
    · intro hs
      by_cases hst : ∃ w, e = Event.stored key w
      · obtain ⟨w, rfl⟩ := hst
        simp only [slotAfter, if_true, Option.some.injEq] at hs
        subst hs
        exact ⟨h, [], rfl, by simp⟩
      · by_cases hev : ∃ w, e = Event.evicted key w
        · obtain ⟨w, rfl⟩ := hev
          simp [slotAfter] at hs
        · have hst2 : ∀ w, e ≠ Event.stored key w := fun w hw => hst ⟨w, hw⟩
          have hev2 : ∀ w, e ≠ Event.evicted key w := fun w hw => hev ⟨w, hw⟩
          rw [slotAfter_other key _ e hst2 hev2] at hs
          obtain ⟨h1, h2, rfl, hno⟩ := ih.mp hs
          refine ⟨h1, h2 ++ [e], by simp, ?_⟩
          intro x hx
          rcases List.mem_append.mp hx with hx | hx
          · exact hno x hx
          · rw [List.mem_singleton] at hx
            subst hx
            exact ⟨hst2, hev2⟩
    · rintro ⟨h1, h2, heq, hno⟩
      rcases List.eq_nil_or_concat h2 with hnil | ⟨h3, x, hx⟩
      · subst hnil
        have hinj := List.append_inj' heq rfl
        have he : e = Event.stored key v := by
          have := hinj.2
          simpa using this
        subst he
        simp [slotAfter]
      · rw [List.concat_eq_append] at hx
        subst hx
        have heq2 : h ++ [e] = (h1 ++ Event.stored key v :: h3) ++ [x] := by
          rw [heq]
          simp
        have hinj := List.append_inj' heq2 rfl
        have he : e = x := by
          have := hinj.2
          simpa using this
        subst he
        have hex := hno e (by simp)
        rw [slotAfter_other key _ e hex.1 hex.2]
        exact ih.mpr ⟨h1, h3, hinj.1, fun y hy => hno y (by simp [hy])⟩

/-- The map of a reachable cache holds, for each key, the value that the history of
events leaves in its slot. -/
theorem run_mapFind_eq_liveValue (ops : List (Op K V)) :
    ∀ (c : LRUCache K V) (h0 : List (Event K V)), WF c →
      (∀ k, mapFind c.m_map k = liveValue k h0) →
      ∀ c2 ev, c.run ops = some (c2, ev) →
        ∀ k, mapFind c2.m_map k = liveValue k (h0 ++ ev) := by
  induction ops with
  | nil =>
    intro c h0 _ hinv c2 ev hr k
    simp only [run, Option.some.injEq, Prod.mk.injEq] at hr
    obtain ⟨rfl, rfl⟩ := hr
    simpa using hinv k
  | cons op ops ih =>
    intro c h0 h hinv c2 ev hr k
    simp only [run] at hr
    cases hs : c.step op with
    | none => simp [hs] at hr
    | some r =>
      obtain ⟨c1, ev1⟩ := r
      simp only [hs] at hr
      cases hr2 : c1.run ops with
      | none => simp [hr2] at hr
      | some r2 =>
        obtain ⟨c3, ev2⟩ := r2
        simp only [hr2, Option.some.injEq, Prod.mk.injEq] at hr
        obtain ⟨rfl, rfl⟩ := hr
        have hw1 := step_wf h hs
        rw [← List.append_assoc]
        refine ih c1 (h0 ++ ev1) hw1.1 ?_ c3 ev2 hr2 k
        intro j
        rw [liveValue_append, ← hinv j]
        cases op with
        | query key =>
          simp only [step, Option.some.injEq, Prod.mk.injEq] at hs
          obtain ⟨rfl, rfl⟩ := hs
          simp [(query_wf h key).2.2.1]
        | insert key value =>
          simp only [step] at hs
          cases hi : c.insert key value with
          | none => simp [hi] at hs
          | some r3 =>
            obtain ⟨c4, log⟩ := r3
            simp only [hi, Option.some.injEq, Prod.mk.injEq] at hs
            obtain ⟨rfl, rfl⟩ := hs
            rcases insert_cases h key value with ⟨old, hk, he⟩ | ⟨hk, hlt, he⟩ |
                ⟨_, _, _, he⟩ | ⟨front, rest, old, hk, hfull, hl, hold, hne, he⟩
            · rw [he] at hi
              simp only [Option.some.injEq, Prod.mk.injEq] at hi
              obtain ⟨rfl, rfl⟩ := hi
              simp only [mapFind_mapAssign, hk, Option.map_some', List.map_cons, List.map_nil,
                List.singleton_append, List.foldl_cons, List.foldl_nil, slotAfter]
              by_cases hj : j = key
              · simp [hj]
              · simp [hj, Ne.symm hj]
            · rw [he] at hi
              simp only [Option.some.injEq, Prod.mk.injEq] at hi
              obtain ⟨rfl, rfl⟩ := hi
              simp only [mapFind_append, List.map_nil, List.nil_append, List.foldl_cons,
                List.foldl_nil, slotAfter, mapFind]
              by_cases hj : j = key
              · subst hj
                simp [hk]
              · cases mapFind c.m_map j <;> simp [hj, Ne.symm hj]
            · rw [he] at hi
              cases hi
            · rw [he] at hi
              simp only [Option.some.injEq, Prod.mk.injEq] at hi
              obtain ⟨rfl, rfl⟩ := hi
              simp only [mapFind_append, mapFind_mapErase, List.map_cons, List.map_nil,
                List.singleton_append, List.foldl_cons, List.foldl_nil, slotAfter, mapFind]
              by_cases hj : j = key
              · subst hj
                simp [hk]
              · by_cases hjf : j = front
                · subst hjf
                  simp [hj, Ne.symm hj]
                · cases mapFind c.m_map j <;> simp [hj, Ne.symm hj, hjf, Ne.symm hjf]

/-- The `stored` events of a run are its `insert` operations, in order. -/
theorem run_stored_eq_inserts (ops : List (Op K V)) :
    ∀ (c c2 : LRUCache K V) (ev : List (Event K V)), c.run ops = some (c2, ev) →
      ev.filterMap Event.storedPair = ops.filterMap Op.insertPair := by
  induction ops with
  | nil =>
    intro c c2 ev hr
    simp only [run, Option.some.injEq, Prod.mk.injEq] at hr
    obtain ⟨-, rfl⟩ := hr
    rfl
  | cons op ops ih =>
    intro c c2 ev hr
    simp only [run] at hr
    cases hs : c.step op with
    | none => simp [hs] at hr
    | some r =>
      obtain ⟨c1, ev1⟩ := r
      simp only [hs] at hr
      cases hr2 : c1.run ops with
      | none => simp [hr2] at hr
      | some r2 =>
        obtain ⟨c3, ev2⟩ := r2
        simp only [hr2, Option.some.injEq, Prod.mk.injEq] at hr
        obtain ⟨-, rfl⟩ := hr
        rw [List.filterMap_append, ih c1 c3 ev2 hr2]
        cases op with
        | query key =>
          simp only [step, Option.some.injEq, Prod.mk.injEq] at hs
          obtain ⟨-, rfl⟩ := hs
          simp [Op.insertPair]
        | insert key value =>
          simp only [step] at hs
          cases hi : c.insert key value with
          | none => simp [hi] at hs
          | some r3 =>
            obtain ⟨c4, log⟩ := r3
            simp only [hi, Option.some.injEq, Prod.mk.injEq] at hs
            obtain ⟨-, rfl⟩ := hs
            have hlog : (log.map (fun e => (Event.evicted e.1 e.2 : Event K V))).filterMap
                Event.storedPair = [] := by
              rw [List.filterMap_eq_nil_iff]
              intro e he
              obtain ⟨x, -, rfl⟩ := List.mem_map.mp he
              rfl
            rw [List.filterMap_append, hlog]
            simp [Event.storedPair, Op.insertPair]

/-- C5: for a capacity of at least one, every sequence of insert and query operations
on an initially empty cache is defined; the `stored` events of its history are its
inserts, in order; and in the state `c` it reaches, for every key `k`: `query(k)`
returns true with value `v` exactly when the history holds an insert of `k` with value
`v` after which `k` was neither inserted again nor evicted (otherwise it returns
false); the query invokes no callback and changes neither the map (so no key-to-value
association) nor `size()`. -/
theorem query_returns_last_inserted (N : Nat) (hN : 1 ≤ N) (ops : List (Op K V)) :
    ∃ c history, (new N : LRUCache K V).run ops = some (c, history) ∧
      history.filterMap Event.storedPair = ops.filterMap Op.insertPair ∧
      ∀ k, (∀ v, (c.query k).2 = some v ↔
              ∃ h1 h2, history = h1 ++ Event.stored k v :: h2 ∧
                ∀ e ∈ h2, (∀ w, e ≠ Event.stored k w) ∧ (∀ w, e ≠ Event.evicted k w)) ∧
        (c.query k).2 = liveValue k history ∧
        c.step (Op.query k) = some ((c.query k).1, []) ∧
        (c.query k).1.m_map = c.m_map ∧
        (c.query k).1.size = c.size := by
  obtain ⟨c, history, hr, hw, -⟩ := run_new_size_le (K := K) (V := V) N hN ops
  refine ⟨c, history, hr, run_stored_eq_inserts ops _ _ _ hr, ?_⟩
  intro k
  have hq := query_wf hw k
  have hlive : (c.query k).2 = liveValue k history := by
    rw [hq.2.2.2]
    have := run_mapFind_eq_liveValue ops (new N) [] (wf_new N)
      (fun j => by simp [new, mapFind, liveValue]) c history hr k
    simpa using this
  refine ⟨?_, hlive, rfl, hq.2.2.1, ?_⟩
  · intro v
    rw [hlive]
    exact liveValue_eq_some_iff k v history
  · simp only [size, hq.2.2.1]

/-- C5, an instance: capacity 1, inserts A then B; A has been evicted, B is live. -/
theorem query_returns_last_inserted_witness :
    (1 ≤ 1) ∧
    ∃ c history, (new 1 : LRUCache String Nat).run [Op.insert "A" 1, Op.insert "B" 2]
        = some (c, history) ∧
      history.filterMap Event.storedPair
        = [Op.insert "A" 1, Op.insert "B" 2].filterMap Op.insertPair ∧
      ∀ k, (∀ v, (c.query k).2 = some v ↔
              ∃ h1 h2, history = h1 ++ Event.stored k v :: h2 ∧
                ∀ e ∈ h2, (∀ w, e ≠ Event.stored k w) ∧ (∀ w, e ≠ Event.evicted k w)) ∧
        (c.query k).2 = liveValue k history ∧
        c.step (Op.query k) = some ((c.query k).1, []) ∧
        (c.query k).1.m_map = c.m_map ∧
        (c.query k).1.size = c.size :=
  ⟨by decide, query_returns_last_inserted 1 (by decide) [Op.insert "A" 1, Op.insert "B" 2]⟩

end LRUCache

namespace TileRenderer

/-- The two ways in which a list with a last item splits around an item `a`. -/
theorem snoc_eq_append_cons {α : Type} {l pre mid : List α} {it a : α}
    (h : l ++ [it] = pre ++ a :: mid) :
    (mid = [] ∧ it = a ∧ l = pre) ∨ (∃ mid2, mid = mid2 ++ [it] ∧ l = pre ++ a :: mid2) := by
  rcases List.eq_nil_or_concat mid with hnil | ⟨mid2, x, hx⟩
  · subst hnil
    have hinj := List.append_inj' h rfl
    have hit : it = a := by
      have := hinj.2
      simpa using this
    exact Or.inl ⟨rfl, hit, hinj.1⟩
  · rw [List.concat_eq_append] at hx
    subst hx
    have h2 : l ++ [it] = (pre ++ a :: mid2) ++ [x] := by
      rw [h]
      simp
    have hinj := List.append_inj' h2 rfl
    have hit : it = x := by
      have := hinj.2
      simpa using this
    subst hit
    exact Or.inr ⟨mid2, rfl, hinj.1⟩

/-- The invariant that ties the trace to `m_requests` (the trace is deduplicated, and a
coordinate with a request that no response follows is in `m_requests`) is kept when one
item is appended, provided a request is appended only for a coordinate that was not in
`m_requests` and is put there, and a coordinate leaves `m_requests` only on its
response. -/
theorem good_snoc (m m2 : List (TileIndex × Bool)) (past : List TraceItem) (it : TraceItem)
    (hd : Deduplicated past)
    (hi : ∀ index pre mid, past = pre ++ TraceItem.effect (Effect.requestTile index) :: mid →
      ¬ HasResponse index mid → (mapFind m index).isSome = true)
    (hreq : ∀ index, it = TraceItem.effect (Effect.requestTile index) →
      mapFind m index = none ∧ (mapFind m2 index).isSome = true)
    (hkeep : ∀ index, (mapFind m index).isSome = true →
      (mapFind m2 index).isSome = true ∨ HasResponse index [it]) :
    Deduplicated (past ++ [it]) ∧
      ∀ index pre mid,
        past ++ [it] = pre ++ TraceItem.effect (Effect.requestTile index) :: mid →
        ¬ HasResponse index mid → (mapFind m2 index).isSome = true := by
  constructor
  · intro index pre mid post heq
    rcases snoc_eq_append_cons heq with ⟨-, hit, hpast⟩ | ⟨post2, -, hpast⟩
    · by_contra hno
      have h1 := hi index pre mid hpast hno
      rw [(hreq index hit).1] at h1
      cases h1
    · exact hd index pre mid post2 hpast
  · intro index pre mid heq hno
    rcases snoc_eq_append_cons heq with ⟨-, hit, -⟩ | ⟨mid2, hmid, hpast⟩
    · exact (hreq index hit).2
    · have hno2 : ¬ HasResponse index mid2 := by
        rintro ⟨tile, ht, hmem⟩
        exact hno ⟨tile, ht, by rw [hmid]; exact List.mem_append_left _ hmem⟩
      rcases hkeep index (hi index pre mid2 hpast hno2) with h2 | ⟨tile, ht, hmem⟩
      · exact h2
      · exfalso
        apply hno
        refine ⟨tile, ht, ?_⟩
        rw [hmid]
        exact List.mem_append_right _ hmem

/-- The invariant is kept when effects other than `requestTile` are appended. -/
theorem good_append_effects (m : List (TileIndex × Bool)) (fx : List Effect)
    (hfx : ∀ e ∈ fx, ∀ index, e ≠ Effect.requestTile index) :
    ∀ past : List TraceItem, Deduplicated past →
      (∀ index pre mid, past = pre ++ TraceItem.effect (Effect.requestTile index) :: mid →
        ¬ HasResponse index mid → (mapFind m index).isSome = true) →
      Deduplicated (past ++ fx.map TraceItem.effect) ∧
        ∀ index pre mid,
          past ++ fx.map TraceItem.effect
            = pre ++ TraceItem.effect (Effect.requestTile index) :: mid →
          ¬ HasResponse index mid → (mapFind m index).isSome = true := by
  induction fx with
  | nil =>
    intro past hd hi
    simpa using And.intro hd hi
  | cons e fx ih =>
    intro past hd hi
    have hstep := good_snoc m m past (TraceItem.effect e) hd hi
      (by
        intro index he
        exfalso
        exact hfx e (by simp) index (TraceItem.effect.inj he))
      (fun index h => Or.inl h)
    have hrest := ih (fun e2 he2 => hfx e2 (List.mem_cons_of_mem _ he2)) (past ++ [TraceItem.effect e])
      hstep.1 hstep.2
    simpa [List.append_assoc] using hrest

/-- The invariant is kept by the request loop of `render()`. -/
theorem good_requestLoop (requests : List TileIndex) :
    ∀ (m : List (TileIndex × Bool)) (past : List TraceItem), Deduplicated past →
      (∀ index pre mid, past = pre ++ TraceItem.effect (Effect.requestTile index) :: mid →
        ¬ HasResponse index mid → (mapFind m index).isSome = true) →
      Deduplicated (past ++ (requestLoop m requests).2.map TraceItem.effect) ∧
        ∀ index pre mid,
          past ++ (requestLoop m requests).2.map TraceItem.effect
            = pre ++ TraceItem.effect (Effect.requestTile index) :: mid →
          ¬ HasResponse index mid →
          (mapFind (requestLoop m requests).1 index).isSome = true := by
  induction requests with
  | nil =>
    intro m past hd hi
    simpa [requestLoop] using And.intro hd hi
  | cons index rest ih =>
    intro m past hd hi
    cases hfind : mapFind m index with
    | some b =>
      have hloop : requestLoop m (index :: rest) = requestLoop m rest := by
        simp [requestLoop, hfind]
      rw [hloop]
      exact ih m past hd hi
    | none =>
      have hloop : requestLoop m (index :: rest)
          = ((requestLoop (mapInsert m index true) rest).1,
             Effect.requestTile index :: (requestLoop (mapInsert m index true) rest).2) := by
        simp [requestLoop, hfind]
      rw [hloop]
      have hstep := good_snoc m (mapInsert m index true) past
        (TraceItem.effect (Effect.requestTile index)) hd hi
        (by
          intro index2 he
          have he2 : index = index2 := by
            have := TraceItem.effect.inj he
            exact Effect.requestTile.inj this
          subst he2
          refine ⟨hfind, ?_⟩
          rw [mapFind_mapInsert _ _ _ _ hfind]
          simp)
        (by
          intro index2 h2
          left
          rw [mapFind_mapInsert _ _ _ _ hfind]
          by_cases e : index2 = index
          · simp [e]
          · simpa [e] using h2)
      have hrest := ih (mapInsert m index true)
        (past ++ [TraceItem.effect (Effect.requestTile index)]) hstep.1 hstep.2
      simpa [List.append_assoc] using hrest

/-- The method `getState()` changes the counter only, and posts render requests only. -/
theorem getState_requests (r : TileRenderer) :
    r.getState.1.m_requests = r.m_requests ∧ r.getState.1.m_config = r.m_config ∧
      r.getState.1.m_cache = r.m_cache ∧ r.getState.2.1 = r.m_state ∧
      ∀ e ∈ r.getState.2.2, e = Effect.postRender := by
  unfold getState
  by_cases h1 : r.m_render_requests > 0
  · by_cases h2 : r.m_render_requests - 1 > 0
    · simp [h1, h2]
    · simp [h1, h2]
  · simp [h1]

/-- The invariant is kept by a call followed by effects other than `requestTile`. -/
theorem good_call (m m2 : List (TileIndex × Bool)) (past : List TraceItem) (c : Call)
    (fx : List Effect) (hfx : ∀ e ∈ fx, ∀ index, e ≠ Effect.requestTile index)
    (hkeep : ∀ index, (mapFind m index).isSome = true →
      (mapFind m2 index).isSome = true ∨ HasResponse index [TraceItem.call c])
    (hd : Deduplicated past)
    (hi : ∀ index pre mid, past = pre ++ TraceItem.effect (Effect.requestTile index) :: mid →
      ¬ HasResponse index mid → (mapFind m index).isSome = true) :
    Deduplicated ((past ++ [TraceItem.call c]) ++ fx.map TraceItem.effect) ∧
      ∀ index pre mid,
        (past ++ [TraceItem.call c]) ++ fx.map TraceItem.effect
          = pre ++ TraceItem.effect (Effect.requestTile index) :: mid →
        ¬ HasResponse index mid → (mapFind m2 index).isSome = true := by
  have h1 := good_snoc m m2 past (TraceItem.call c) hd hi
    (by
      intro index he
      cases he)
    hkeep
  exact good_append_effects m2 fx hfx _ h1.1 h1.2

/-- The invariant is kept by every call of the renderer. -/
theorem good_step (r r1 : TileRenderer) (c : Call) (fx : List Effect)
    (hs : r.step c = some (r1, fx)) (past : List TraceItem) (hd : Deduplicated past)
    (hi : ∀ index pre mid, past = pre ++ TraceItem.effect (Effect.requestTile index) :: mid →
      ¬ HasResponse index mid → (mapFind r.m_requests index).isSome = true) :
    Deduplicated ((past ++ [TraceItem.call c]) ++ fx.map TraceItem.effect) ∧
      ∀ index pre mid,
        (past ++ [TraceItem.call c]) ++ fx.map TraceItem.effect
          = pre ++ TraceItem.effect (Effect.requestTile index) :: mid →
        ¬ HasResponse index mid → (mapFind r1.m_requests index).isSome = true := by
  cases c with
  | setState state =>
    simp only [step, setState, Option.some.injEq] at hs
    by_cases h0 : r.m_render_requests = 0
    · simp only [h0, if_true, Prod.mk.injEq] at hs
      obtain ⟨rfl, rfl⟩ := hs
      exact good_call r.m_requests r.m_requests past _ _ (by simp)
        (fun _ h => Or.inl h) hd hi
    · simp only [h0, if_false, Prod.mk.injEq] at hs
      obtain ⟨rfl, rfl⟩ := hs
      exact good_call r.m_requests r.m_requests past _ _ (by simp)
        (fun _ h => Or.inl h) hd hi
  | tileResponse tile =>
    have hkeep : ∀ index, (mapFind r.m_requests index).isSome = true →
        (mapFind (mapErase r.m_requests tile.index) index).isSome = true ∨
          HasResponse index [TraceItem.call (Call.tileResponse tile)] := by
      intro index h
      by_cases e : index = tile.index
      · exact Or.inr ⟨tile, e.symm, by simp⟩
      · left
        rw [mapFind_mapErase]
        simpa [e] using h
    simp only [step, tileResponse] at hs
    by_cases hv : tile.valid = true
    · simp only [hv, if_true] at hs
      cases hins : r.m_cache.insert tile.index tile with
      | none => simp [hins] at hs
      | some res =>
        obtain ⟨cache, log⟩ := res
        simp only [hins] at hs
        by_cases h0 : r.m_render_requests = 0
        · simp only [h0, if_true, Option.some.injEq, Prod.mk.injEq] at hs
          obtain ⟨rfl, rfl⟩ := hs
          refine good_call r.m_requests _ past _ _ ?_ hkeep hd hi
          intro e he index
          rcases List.mem_append.mp he with he | he
          · obtain ⟨x, -, rfl⟩ := List.mem_map.mp he
            simp
          · rw [List.mem_singleton] at he
            subst he
            simp
        · simp only [h0, if_false, Option.some.injEq, Prod.mk.injEq] at hs
          obtain ⟨rfl, rfl⟩ := hs
          refine good_call r.m_requests _ past _ _ ?_ hkeep hd hi
          intro e he index
          obtain ⟨x, -, rfl⟩ := List.mem_map.mp he
          simp
    · simp only [hv, if_false, Option.some.injEq, Prod.mk.injEq] at hs
      obtain ⟨rfl, rfl⟩ := hs
      exact good_call r.m_requests _ past _ _ (by simp) hkeep hd hi
  | render =>
    obtain ⟨hm, -, -, -, hpost⟩ := getState_requests r
    have hfx1 : ∀ e ∈ r.getState.2.2, ∀ index, e ≠ Effect.requestTile index := by
      intro e he index
      rw [hpost e he]
      simp
    have h1 := good_call r.m_requests r.m_requests past Call.render r.getState.2.2 hfx1
      (fun _ h => Or.inl h) hd hi
    simp only [step, render] at hs
    by_cases hv : r.getState.2.1.valid = false
    · simp only [hv, if_true, Option.some.injEq, Prod.mk.injEq] at hs
      obtain ⟨rfl, rfl⟩ := hs
      rw [hm]
      exact h1
    · simp only [hv, if_false] at hs
      cases hg : getTiles r.getState.1.m_config r.getState.2.1 r.getState.1.m_cache with
      | none => simp [hg] at hs
      | some res =>
        obtain ⟨cache, tiles, requests⟩ := res
        simp only [hg, Option.some.injEq, Prod.mk.injEq] at hs
        obtain ⟨rfl, rfl⟩ := hs
        simp only [hm]
        have h2 := good_requestLoop requests r.m_requests _ h1.1 h1.2
        have h3 := good_append_effects (requestLoop r.m_requests requests).1
          (tiles.map Effect.draw)
          (by
            intro e he index
            obtain ⟨x, -, rfl⟩ := List.mem_map.mp he
            simp)
          _ h2.1 h2.2
        simpa [List.append_assoc] using h3

/-- The trace of a run that starts in a state satisfying the invariant is deduplicated. -/
theorem good_run (calls : List Call) :
    ∀ (r r2 : TileRenderer) (trace past : List TraceItem), r.run calls = some (r2, trace) →
      Deduplicated past →
      (∀ index pre mid, past = pre ++ TraceItem.effect (Effect.requestTile index) :: mid →
        ¬ HasResponse index mid → (mapFind r.m_requests index).isSome = true) →
      Deduplicated (past ++ trace) := by
  induction calls with
  | nil =>
    intro r r2 trace past hr hd _
    simp only [run, Option.some.injEq, Prod.mk.injEq] at hr
    obtain ⟨-, rfl⟩ := hr
    simpa using hd
  | cons c cs ih =>
    intro r r2 trace past hr hd hi
    simp only [run] at hr
    cases hs : r.step c with
    | none => simp [hs] at hr
    | some res =>
      obtain ⟨r1, fx⟩ := res
      simp only [hs] at hr
      cases hr2 : r1.run cs with
      | none => simp [hr2] at hr
      | some res2 =>
        obtain ⟨r3, trace2⟩ := res2
        simp only [hr2, Option.some.injEq, Prod.mk.injEq] at hr
        obtain ⟨-, rfl⟩ := hr
        have h1 := good_step r r1 c fx hs past hd hi
        have h2 := ih r1 r3 trace2 _ hr2 h1.1 h1.2
        simpa [List.append_assoc] using h2

theorem outstanding_snoc (index : TileIndex) (trace : List TraceItem) (it : TraceItem) :
    outstanding index (trace ++ [it]) = outstandingStep index (outstanding index trace) it := by
  simp [outstanding, List.foldl_append]

theorem deduplicated_of_append (p q : List TraceItem) (h : Deduplicated (p ++ q)) :
    Deduplicated p := by
  intro index pre mid post heq
  apply h index pre mid (post ++ q)
  rw [heq]
  simp [List.append_assoc]

/-- A positive count of outstanding requests comes from a request that no response
follows. -/
theorem outstanding_pos (index : TileIndex) (trace : List TraceItem) :
    1 ≤ outstanding index trace →
      ∃ pre mid, trace = pre ++ TraceItem.effect (Effect.requestTile index) :: mid ∧
        ¬ HasResponse index mid := by
  induction trace using List.reverseRecOn with
  | nil =>
    intro h
    simp [outstanding] at h
  | append_singleton q it ih =>
    intro h
    rw [outstanding_snoc] at h
    have hkeep : outstandingStep index (outstanding index q) it = outstanding index q →
        (∀ tile, it = TraceItem.call (Call.tileResponse tile) → tile.index ≠ index) →
        ∃ pre mid, q ++ [it] = pre ++ TraceItem.effect (Effect.requestTile index) :: mid ∧
          ¬ HasResponse index mid := by
      intro he hresp
      rw [he] at h
      obtain ⟨pre, mid, hq, hno⟩ := ih h
      refine ⟨pre, mid ++ [it], by rw [hq]; simp, ?_⟩
      rintro ⟨tile, ht, hmem⟩
      rcases List.mem_append.mp hmem with hm | hm
      · exact hno ⟨tile, ht, hm⟩
      · rw [List.mem_singleton] at hm
        exact hresp tile hm.symm ht
    cases it with
    | call c =>
      cases c with
      | render => exact hkeep rfl (fun tile he => by cases he)
      | setState state => exact hkeep rfl (fun tile he => by cases he)
      | tileResponse tile =>
        by_cases e : tile.index = index
        · simp [outstandingStep, e] at h
        · refine hkeep (by simp [outstandingStep, e]) ?_
          intro tile2 he
          cases he
          exact e
    | effect e =>
      cases e with
      | requestTile i =>
        by_cases e : i = index
        · subst e
          exact ⟨q, [], rfl, by rintro ⟨tile, -, hmem⟩; cases hmem⟩
        · exact hkeep (by simp [outstandingStep, e]) (fun tile he => by cases he)
      | deleteTile tile => exact hkeep rfl (fun tile he => by cases he)
      | postRender => exact hkeep rfl (fun tile he => by cases he)
      | draw tile => exact hkeep rfl (fun tile he => by cases he)

/-- In a deduplicated trace at most one request per coordinate is outstanding. -/
theorem outstanding_le_one (index : TileIndex) (trace : List TraceItem) :
    Deduplicated trace → outstanding index trace ≤ 1 := by
  induction trace using List.reverseRecOn with
  | nil =>
    intro _
    simp [outstanding]
  | append_singleton q it ih =>
    intro hd
    have hq := ih (deduplicated_of_append q [it] hd)
    rw [outstanding_snoc]
    cases it with
    | call c =>
      cases c with
      | render => exact hq
      | setState state => exact hq
      | tileResponse tile =>
        by_cases e : tile.index = index
        · simp [outstandingStep, e]
        · simpa [outstandingStep, e] using hq
    | effect e =>
      cases e with
      | requestTile i =>
        by_cases e : i = index
        · subst e
          simp only [outstandingStep, if_true]
          by_contra hgt
          have hpos : 1 ≤ outstanding i q := by omega
          obtain ⟨pre, mid, hqeq, hno⟩ := outstanding_pos i q hpos
          apply hno
          apply hd i pre mid []
          rw [hqeq]
        · simpa [outstandingStep, e] using hq
      | deleteTile tile => exact hq
      | postRender => exact hq
      | draw tile => exact hq

/-- C6: in every run of the renderer from its constructed state, made of render passes,
tile responses and state updates in any order, for every coordinate `c`: between any
two emissions of `requestTile(c)` there is a `tileResponse` for `c`, so at every point
of the trace at most one request for `c` is outstanding. A coordinate that is missing
in several consecutive passes, or several times in one pass, is requested once until
its response arrives. -/
theorem requests_deduplicated (config : Config) (zoom0 : Int) (calls : List Call)
    (r : TileRenderer) (trace : List TraceItem)
    (hr : (new config zoom0).run calls = some (r, trace)) :
    Deduplicated trace ∧ ∀ index n, outstanding index (trace.take n) ≤ 1 := by
  have h := good_run calls (new config zoom0) r trace [] hr
    (by
      intro index pre mid post heq
      have := congrArg List.length heq
      simp at this
      omega)
    (by
      intro index pre mid heq
      have := congrArg List.length heq
      simp at this
      omega)
  have hd : Deduplicated trace := by simpa using h
  refine ⟨hd, ?_⟩
  intro index n
  apply outstanding_le_one
  apply deduplicated_of_append (trace.take n) (trace.drop n)
  rw [List.take_append_drop]
  exact hd

end TileRenderer

section Wrap

theorem wrapLoop_eq (pixels : Int) (hp : 0 < pixels) :
    ∀ (fuel : Nat) (wx : Int), (-wx).toNat < fuel →
      wrapLoop fuel pixels wx = some (if wx < 0 then wx % pixels else wx) := by
  intro fuel
  induction fuel with
  | zero =>
    intro wx h
    omega
  | succ fuel ih =>
    intro wx h
    unfold wrapLoop
    by_cases hneg : wx < 0
    · simp only [hneg, if_true]
      have hfuel : (-(wx + pixels)).toNat < fuel := by omega
      rw [ih (wx + pixels) hfuel]
      by_cases hneg2 : wx + pixels < 0
      · simp only [hneg2, if_true, Int.add_emod_self]
      · simp only [hneg2, if_false]
        rw [← Int.add_emod_self (a := wx) (b := pixels)]
        rw [Int.emod_eq_of_lt (by omega) (by omega)]
    · simp only [hneg, if_false]

/-- With `pixels = 0` the loop never exits, whatever the fuel. -/
theorem wrapLoop_zero (fuel : Nat) (wx : Int) (h : wx < 0) : wrapLoop fuel 0 wx = none := by
  induction fuel with
  | zero => rfl
  | succ fuel ih =>
    unfold wrapLoop
    simp only [h, if_true, add_zero]
    exact ih

theorem wrapX_eq (pixels x : Int) (hp : 0 < pixels) : wrapX pixels x = some (x % pixels) := by
  unfold wrapX
  by_cases hneg : x < 0
  · simp only [hneg, if_true]
    rw [wrapLoop_eq pixels hp _ x (by omega)]
    simp only [hneg, if_true]
  · simp only [hneg, if_false]
    by_cases hge : x ≥ pixels
    · have hne : pixels ≠ 0 := by omega
      simp only [hge, if_true, hne, if_false]
      rw [Int.tmod_eq_emod (by omega) (by omega)]
    · simp only [hge, if_false]
      rw [Int.emod_eq_of_lt (by omega) (by omega)]

theorem pixelsOfZoom_eq (z : Int) (h0 : 0 ≤ z) (h30 : z ≤ 30) :
    pixelsOfZoom z = some (2 ^ z.toNat) := by
  unfold pixelsOfZoom
  have h1 : ¬ z < 0 := by omega
  simp only [h1, if_false, h30, if_true]

theorem pixelsOfZoom_some (z pixels : Int) (h0 : 0 ≤ z) (h : pixelsOfZoom z = some pixels) :
    z ≤ 30 ∧ pixels = 2 ^ z.toNat := by
  unfold pixelsOfZoom at h
  have h1 : ¬ z < 0 := by omega
  simp only [h1, if_false] at h
  by_cases h30 : z ≤ 30
  · simp only [h30, if_true, Option.some.injEq] at h
    exact ⟨h30, h.symm⟩
  · simp only [h30, if_false] at h
    cases h

theorem two_pow_pos (n : Nat) : (0 : Int) < 2 ^ n := by positivity

end Wrap

namespace LRUCache

variable {K V : Type} [DecidableEq K]

theorem query_snd (c : LRUCache K V) (key : K) : (c.query key).2 = mapFind c.m_map key := by
  unfold query
  cases mapFind c.m_map key <;> rfl

theorem query_map (c : LRUCache K V) (key : K) : (c.query key).1.m_map = c.m_map := by
  unfold query
  cases mapFind c.m_map key <;> rfl

theorem query_eq (c : LRUCache K V) (key : K) :
    c.query key = ((c.query key).1, mapFind c.m_map key) := by
  rw [← query_snd]

end LRUCache

section Cells

theorem childQuery_eq (cache : TileCache) (index : TileIndex) (ox oy : Int) :
    childQuery cache index ox oy
      = ((cache.query index).1,
         match mapFind cache.m_map index with
         | some image => [mkDrawable ⟨1/2, 1/2⟩ (QVector2D.ofInt ox oy) ⟨1, 1⟩ ⟨0, 0⟩ image]
         | none => []) := by
  unfold childQuery
  rw [LRUCache.query_eq]
  cases mapFind cache.m_map index <;> rfl

/-- The cell of a row outside `[0, pixels)` gives nothing and leaves the cache alone. -/
theorem getTilesCell_row_outside (size : Int) (state : State) (pixels xoffset yoffset : Int)
    (x y xx yy : Int) (cache : TileCache) (hp : 0 < pixels) (hy : y < 0 ∨ pixels ≤ y) :
    getTilesCell size state pixels xoffset yoffset x y xx yy cache = some (cache, [], []) := by
  unfold getTilesCell
  rw [wrapX_eq pixels x hp]
  have hn : ¬ (y ≥ 0 ∧ y < pixels) := by omega
  simp only [hn, if_false]

/-- The exact-zoom query of a cell: a hit gives the 1:1 drawable and no request, a miss
gives exactly the request of the wrapped coordinate. -/
theorem getTilesCell_exact (size : Int) (state : State) (pixels xoffset yoffset : Int)
    (x y xx yy : Int) (cache : TileCache) (hp : 0 < pixels) (hy0 : 0 ≤ y) (hy1 : y < pixels) :
    ∃ cache2 tiles requests,
      getTilesCell size state pixels xoffset yoffset x y xx yy cache
        = some (cache2, tiles, requests) ∧
      cache2.m_map = cache.m_map ∧
      (mapFind cache.m_map ⟨state.zoom, x % pixels, y⟩ = none →
        requests = [⟨state.zoom, x % pixels, y⟩]) ∧
      (∀ image, mapFind cache.m_map ⟨state.zoom, x % pixels, y⟩ = some image →
        requests = [] ∧
        tiles = [mkDrawable ⟨1, 1⟩
          (QVector2D.ofInt (xoffset + xx * size) (yoffset + yy * size)) ⟨1, 1⟩ ⟨0, 0⟩ image] ∧
        cache2 = (cache.query ⟨state.zoom, x % pixels, y⟩).1) := by
  unfold getTilesCell
  rw [wrapX_eq pixels x hp]
  have hin : y ≥ 0 ∧ y < pixels := ⟨hy0, hy1⟩
  simp only [hin, and_self, if_true]
  rw [LRUCache.query_eq]
  cases hfind : mapFind cache.m_map ⟨state.zoom, x % pixels, y⟩ with
  | some image =>
    refine ⟨_, _, _, rfl, LRUCache.query_map _ _, ?_, ?_⟩
    · intro h
      cases h
    · intro image2 h2
      cases h2
      exact ⟨rfl, rfl, rfl⟩
  | none =>
    simp only
    by_cases hin2 : state.zoomedIn = true
    · simp only [hin2, if_true]
      rw [LRUCache.query_eq]
      cases mapFind (cache.query ⟨state.zoom, x % pixels, y⟩).1.m_map
          ⟨state.zoom - 1, Int.tdiv x 2, Int.tdiv y 2⟩ with
      | some image =>
        refine ⟨_, _, _, rfl, ?_, fun _ => rfl, ?_⟩
        · simp only [LRUCache.query_map]
        · intro image2 h2
          cases h2
      | none =>
        refine ⟨_, _, _, rfl, ?_, fun _ => rfl, ?_⟩
        · simp only [LRUCache.query_map]
        · intro image2 h2
          cases h2
    · simp only [hin2, Bool.false_eq_true, if_false]
      by_cases hout : state.zoomedOut = true
      · simp only [hout, if_true, childQuery_eq]
        refine ⟨_, _, _, rfl, ?_, fun _ => rfl, ?_⟩
        · simp only [LRUCache.query_map]
        · intro image2 h2
          cases h2
      · simp only [hout, Bool.false_eq_true, if_false]
        refine ⟨_, _, _, rfl, ?_, fun _ => rfl, ?_⟩
        · simp only [LRUCache.query_map]
        · intro image2 h2
          cases h2

end Cells

section GetTiles

/-- A request lies in the tile grid of the zoom level of `state`, of width `pixels`. -/
theorem getTilesCell_requests (size : Int) (state : State) (pixels xoffset yoffset : Int)
    (x y xx yy : Int) (cache : TileCache) (hp : 0 < pixels) :
    ∃ cache2 tiles requests,
      getTilesCell size state pixels xoffset yoffset x y xx yy cache
        = some (cache2, tiles, requests) ∧
      ∀ i ∈ requests, i.zoom = state.zoom ∧ 0 ≤ i.x ∧ i.x < pixels ∧ 0 ≤ i.y ∧ i.y < pixels := by
  by_cases hy : y < 0 ∨ pixels ≤ y
  · refine ⟨cache, [], [],
      getTilesCell_row_outside size state pixels xoffset yoffset x y xx yy cache hp hy, ?_⟩
    intro i hi
    cases hi
  · have hy0 : 0 ≤ y := by omega
    have hy1 : y < pixels := by omega
    obtain ⟨cache2, tiles, requests, heq, -, hmiss, hhit⟩ :=
      getTilesCell_exact size state pixels xoffset yoffset x y xx yy cache hp hy0 hy1
    refine ⟨cache2, tiles, requests, heq, ?_⟩
    intro i hi
    cases hfind : mapFind cache.m_map ⟨state.zoom, x % pixels, y⟩ with
    | some image =>
      rw [(hhit image hfind).1] at hi
      cases hi
    | none =>
      rw [hmiss hfind, List.mem_singleton] at hi
      subst hi
      exact ⟨rfl, Int.emod_nonneg x (by omega), Int.emod_lt_of_pos x hp, hy0, hy1⟩

theorem getTilesRow_requests (size : Int) (state : State) (pixels xoffset yoffset : Int)
    (y yy : Int) (hp : 0 < pixels) (cols : List (Int × Int)) :
    ∀ cache : TileCache, ∃ cache2 tiles requests,
      getTilesRow size state pixels xoffset yoffset y yy cols cache
        = some (cache2, tiles, requests) ∧
      ∀ i ∈ requests, i.zoom = state.zoom ∧ 0 ≤ i.x ∧ i.x < pixels ∧ 0 ≤ i.y ∧ i.y < pixels := by
  induction cols with
  | nil =>
    intro cache
    exact ⟨cache, [], [], rfl, fun i hi => by cases hi⟩
  | cons col cols ih =>
    intro cache
    obtain ⟨x, xx⟩ := col
    obtain ⟨c1, t1, r1, h1, hr1⟩ :=
      getTilesCell_requests size state pixels xoffset yoffset x y xx yy cache hp
    obtain ⟨c2, t2, r2, h2, hr2⟩ := ih c1
    refine ⟨c2, t1 ++ t2, r1 ++ r2, by simp only [getTilesRow, h1, h2], ?_⟩
    intro i hi
    rcases List.mem_append.mp hi with hi | hi
    · exact hr1 i hi
    · exact hr2 i hi

theorem getTilesRows_requests (size : Int) (state : State) (pixels xoffset yoffset : Int)
    (hp : 0 < pixels) (cols rows : List (Int × Int)) :
    ∀ cache : TileCache, ∃ cache2 tiles requests,
      getTilesRows size state pixels xoffset yoffset cols rows cache
        = some (cache2, tiles, requests) ∧
      ∀ i ∈ requests, i.zoom = state.zoom ∧ 0 ≤ i.x ∧ i.x < pixels ∧ 0 ≤ i.y ∧ i.y < pixels := by
  induction rows with
  | nil =>
    intro cache
    exact ⟨cache, [], [], rfl, fun i hi => by cases hi⟩
  | cons row rows ih =>
    intro cache
    obtain ⟨y, yy⟩ := row
    obtain ⟨c1, t1, r1, h1, hr1⟩ :=
      getTilesRow_requests size state pixels xoffset yoffset y yy hp cols cache
    obtain ⟨c2, t2, r2, h2, hr2⟩ := ih c1
    refine ⟨c2, t1 ++ t2, r1 ++ r2, by simp only [getTilesRows, h1, h2], ?_⟩
    intro i hi
    rcases List.mem_append.mp hi with hi | hi
    · exact hr1 i hi
    · exact hr2 i hi

/-- For a zoom level in `0 .. 30` and a tile size other than 0, `getTiles` returns, and
its requests lie in the tile grid. -/
theorem getTiles_defined (config : Config) (state : State) (cache : TileCache)
    (h0 : 0 ≤ state.zoom) (h30 : state.zoom ≤ 30) (hs : config.tile_size ≠ 0) :
    ∃ cache2 tiles requests, getTiles config state cache = some (cache2, tiles, requests) ∧
      ∀ i ∈ requests, i.zoom = state.zoom ∧ 0 ≤ i.x ∧ i.x < 2 ^ state.zoom.toNat ∧
        0 ≤ i.y ∧ i.y < 2 ^ state.zoom.toNat := by
  unfold getTiles
  simp only [pixelsOfZoom_eq state.zoom h0 h30, hs, if_false]
  exact getTilesRows_requests config.tile_size state (2 ^ state.zoom.toNat) _ _
    (two_pow_pos _) _ _ cache

/-- C7 (as amended): for every zoom `0 ≤ z ≤ 30`, where `2^z` fits the `int` `pixels`,
and every grid column `x` of any sign, the wrap terminates with
`wx = x mod 2^z` (the non-negative modulo), `0 ≤ wx < 2^z`; the columns `-1` and
`2^z - 1` both give `wx = 2^z - 1`; and `wx` is the x coordinate of the exact-zoom
cache query of every cell `(x, y)` with `0 ≤ y < 2^z`: the cell is defined, on a miss
of `(z, wx, y)` that coordinate is the one requested, and on a hit its image is the
one drawn. -/
theorem wrapColumn_eq_emod (z x : Int) (h0 : 0 ≤ z) (h30 : z ≤ 30) :
    wrapColumn z x = some (x % 2 ^ z.toNat) ∧
      0 ≤ x % 2 ^ z.toNat ∧ x % 2 ^ z.toNat < 2 ^ z.toNat ∧
      wrapColumn z (-1) = some (2 ^ z.toNat - 1) ∧
      wrapColumn z (2 ^ z.toNat - 1) = some (2 ^ z.toNat - 1) ∧
      ∀ (size : Int) (state : State) (xoffset yoffset y xx yy : Int) (cache : TileCache),
        state.zoom = z → 0 ≤ y → y < 2 ^ z.toNat →
        ∃ cache2 tiles requests,
          getTilesCell size state (2 ^ z.toNat) xoffset yoffset x y xx yy cache
            = some (cache2, tiles, requests) ∧
          (mapFind cache.m_map ⟨z, x % 2 ^ z.toNat, y⟩ = none →
            requests = [⟨z, x % 2 ^ z.toNat, y⟩]) ∧
          (∀ image, mapFind cache.m_map ⟨z, x % 2 ^ z.toNat, y⟩ = some image →
            requests = [] ∧
            tiles = [mkDrawable ⟨1, 1⟩
              (QVector2D.ofInt (xoffset + xx * size) (yoffset + yy * size)) ⟨1, 1⟩ ⟨0, 0⟩
              image]) := by
  have hp : (0 : Int) < 2 ^ z.toNat := two_pow_pos _
  have hw : ∀ c : Int, wrapColumn z c = some (c % 2 ^ z.toNat) := by
    intro c
    unfold wrapColumn
    rw [pixelsOfZoom_eq z h0 h30]
    exact wrapX_eq _ c hp
  refine ⟨hw x, Int.emod_nonneg x (by omega), Int.emod_lt_of_pos x hp, ?_, ?_, ?_⟩
  · rw [hw]
    congr 1
    have h1 : (-1 : Int) % 2 ^ z.toNat = (-1 + 2 ^ z.toNat) % 2 ^ z.toNat :=
      Int.add_emod_self.symm
    rw [h1, Int.emod_eq_of_lt (by omega) (by omega)]
    omega
  · rw [hw]
    congr 1
    exact Int.emod_eq_of_lt (by omega) (by omega)
  · intro size state xoffset yoffset y xx yy cache hz hy0 hy1
    subst hz
    obtain ⟨cache2, tiles, requests, heq, -, hmiss, hhit⟩ :=
      getTilesCell_exact size state (2 ^ state.zoom.toNat) xoffset yoffset x y xx yy cache hp
        hy0 hy1
    exact ⟨cache2, tiles, requests, heq, hmiss,
      fun image h => ⟨(hhit image h).1, (hhit image h).2.1⟩⟩

/-- C7, an instance of the amended claim: zoom 3, column -1 wraps to 7. -/
theorem wrapColumn_eq_emod_witness :
    ((0 : Int) ≤ 3 ∧ (3 : Int) ≤ 30) ∧ wrapColumn 3 (-1) = some ((-1) % 2 ^ (3 : Int).toNat) :=
  ⟨by decide, (wrapColumn_eq_emod 3 (-1) (by decide) (by decide)).1⟩

/-- C7, as stated, fails at zoom 32 (`--max-zoom 32` allows it): `2^32` does not fit the
`int` `pixels`, so no `wx` with `0 ≤ wx < 2^32` and `wx = -1 mod 2^32` is computed for
the column `-1`, and `getTiles` is undefined. -/
theorem wrapColumn_zoom_32_undefined :
    (0 : Int) ≤ 32 ∧ wrapColumn 32 (-1) = none ∧
      (¬ ∃ wx, wrapColumn 32 (-1) = some wx ∧ 0 ≤ wx ∧ wx < 2 ^ 32 ∧ wx = (-1) % 2 ^ 32) ∧
      getTiles ⟨256, 2⟩ ⟨true, ⟨-256, 0, -1, 255⟩, 32, 31, ⟨256, 256⟩⟩ (LRUCache.new 2) = none := by
  refine ⟨by decide, rfl, ?_, rfl⟩
  rintro ⟨wx, h, -⟩
  have h2 : wrapColumn 32 (-1) = none := rfl
  rw [h2] at h
  cases h

/-- C8: for every viewport state with zoom `z ≥ 0`, every bounds rectangle and every
cache: every coordinate that `getTiles` puts in the request list has zoom `z`,
`0 ≤ x < 2^z` and `0 ≤ y < 2^z`; a cell of a grid row `y < 0` or `y ≥ 2^z` produces
neither a request nor a drawable and leaves the cache alone; and `getTiles` does return
its lists when `z ≤ 30` and the tile size is not 0. -/
theorem getTiles_requests_in_range (config : Config) (state : State) (cache : TileCache)
    (hz : 0 ≤ state.zoom) :
    (∀ cache2 tiles requests, getTiles config state cache = some (cache2, tiles, requests) →
      ∀ i ∈ requests, i.zoom = state.zoom ∧ 0 ≤ i.x ∧ i.x < 2 ^ state.zoom.toNat ∧
        0 ≤ i.y ∧ i.y < 2 ^ state.zoom.toNat) ∧
    (∀ (pixels xoffset yoffset x y xx yy : Int) (c : TileCache),
      pixelsOfZoom state.zoom = some pixels → (y < 0 ∨ 2 ^ state.zoom.toNat ≤ y) →
      getTilesCell config.tile_size state pixels xoffset yoffset x y xx yy c
        = some (c, [], [])) ∧
    (state.zoom ≤ 30 → config.tile_size ≠ 0 →
      ∃ out, getTiles config state cache = some out) := by
  refine ⟨?_, ?_, ?_⟩
  · intro cache2 tiles requests hg
    have h30 : state.zoom ≤ 30 := by
      unfold getTiles at hg
      cases hpx : pixelsOfZoom state.zoom with
      | none => simp [hpx] at hg
      | some pixels => exact (pixelsOfZoom_some _ _ hz hpx).1
    have hs : config.tile_size ≠ 0 := by
      intro h0
      unfold getTiles at hg
      simp [pixelsOfZoom_eq state.zoom hz h30, h0] at hg
    obtain ⟨c2, t2, r2, heq, hr⟩ := getTiles_defined config state cache hz h30 hs
    rw [heq] at hg
    simp only [Option.some.injEq, Prod.mk.injEq] at hg
    obtain ⟨-, -, rfl⟩ := hg
    exact hr
  · intro pixels xoffset yoffset x y xx yy c hpx hy
    obtain ⟨-, rfl⟩ := pixelsOfZoom_some _ _ hz hpx
    exact getTilesCell_row_outside _ _ _ _ _ _ _ _ _ _ (two_pow_pos _) hy
  · intro h30 hs
    obtain ⟨c2, t2, r2, heq, -⟩ := getTiles_defined config state cache hz h30 hs
    exact ⟨_, heq⟩

/-- C8, an instance: zoom 1, a viewport one tile wide left of the map origin, empty
cache; the two requests are the wrapped columns 0 and 1 of row 0. -/
theorem getTiles_requests_in_range_witness :
    (0 : Int) ≤ 1 ∧
      ∀ i ∈ [(⟨1, 0, 0⟩ : TileIndex), ⟨1, 1, 0⟩],
        i.zoom = 1 ∧ 0 ≤ i.x ∧ i.x < 2 ^ (1 : Int).toNat ∧ 0 ≤ i.y ∧ i.y < 2 ^ (1 : Int).toNat :=
  ⟨by decide,
    (getTiles_requests_in_range ⟨256, 2⟩ ⟨true, ⟨-256, 0, -1, 255⟩, 1, 1, ⟨256, 256⟩⟩
      (LRUCache.new 2) (by decide)).1 (LRUCache.new 2) [] [⟨1, 0, 0⟩, ⟨1, 1, 0⟩] (by rfl)⟩

end GetTiles

section Fallback

/-- What the zoomed-in branch does for a cell whose exact coordinate is missing and
whose parent `(z-1, x/2, y/2)` (truncating division of the unwrapped column) is cached:
one drawable of the parent at the cell's offset, with texture offset
`(0.5 * (x % 2), 0.5 * (y % 2))`; the remainders lie in `{0, 1}` for the row, and for
the column when `x ≥ 0`. -/
theorem getTilesCell_parent (size : Int) (state : State)
    (pixels xoffset yoffset x y xx yy wx : Int) (cache : TileCache) (image : TileImage)
    (hw : wrapX pixels x = some wx) (hy0 : 0 ≤ y) (hy1 : y < pixels)
    (hmiss : mapFind cache.m_map ⟨state.zoom, wx, y⟩ = none)
    (hzin : state.zoomedIn = true)
    (hpar : mapFind cache.m_map ⟨state.zoom - 1, Int.tdiv x 2, Int.tdiv y 2⟩ = some image) :
    getTilesCell size state pixels xoffset yoffset x y xx yy cache
        = some ((cache.query ⟨state.zoom - 1, Int.tdiv x 2, Int.tdiv y 2⟩).1,
            [mkDrawable ⟨1, 1⟩ (QVector2D.ofInt (xoffset + xx * size) (yoffset + yy * size))
              ⟨1/2, 1/2⟩ ⟨1/2 * (Int.tmod x 2 : Int), 1/2 * (Int.tmod y 2 : Int)⟩ image],
            [⟨state.zoom, wx, y⟩]) ∧
      (Int.tmod y 2 = 0 ∨ Int.tmod y 2 = 1) ∧
      (0 ≤ x → Int.tmod x 2 = 0 ∨ Int.tmod x 2 = 1) := by
  have hin : y ≥ 0 ∧ y < pixels := ⟨hy0, hy1⟩
  have hq : cache.query ⟨state.zoom, wx, y⟩ = (cache, none) := by
    unfold LRUCache.query
    rw [hmiss]
  have hq2 : cache.query ⟨state.zoom - 1, Int.tdiv x 2, Int.tdiv y 2⟩
      = ((cache.query ⟨state.zoom - 1, Int.tdiv x 2, Int.tdiv y 2⟩).1, some image) := by
    rw [LRUCache.query_eq, hpar]
  refine ⟨?_, ?_, ?_⟩
  · unfold getTilesCell
    simp only [hw, hin, and_self, if_true, hq, hzin]
    rw [hq2]
  · rw [Int.tmod_eq_emod hy0 (by decide)]
    omega
  · intro hx
    rw [Int.tmod_eq_emod hx (by decide)]
    omega

/-- C9, the failing input: zoom 1 just after a zoom-in from 0, tile size 256, viewport
`[-256, -1] × [0, 255]` (one tile wide, left of the map origin), cache holding only
`(0, 0, 0)`. The cell of grid column `-1` (wrapped column 1) misses `(1, 1, 0)` and
draws the parent with texture offset `(-1/2, 0)`: `x % 2` is `-1`, not in `{0, 1}`,
and the sampled rectangle `[-1/2, 0] × [0, 1/2]` lies outside the unit square. -/
theorem parent_fallback_negative_column :
    ∃ cache2 d,
      getTiles ⟨256, 4⟩ ⟨true, ⟨-256, 0, -1, 255⟩, 1, 0, ⟨256, 256⟩⟩
          ⟨4, [⟨0, 0, 0⟩], [(⟨0, 0, 0⟩, ⟨7, ⟨0, 0, 0⟩, true⟩)]⟩
        = some (cache2, [d], [⟨1, 0, 0⟩, ⟨1, 1, 0⟩]) ∧
      d.image = ⟨7, ⟨0, 0, 0⟩, true⟩ ∧ d.scale = ⟨1, 1⟩ ∧ d.offset = ⟨0, 0⟩ ∧
      d.tex_scale = ⟨1/2, 1/2⟩ ∧ d.tex_offset = ⟨-1/2, 0⟩ ∧
      Int.tmod (-1) 2 = -1 ∧ d.tex_offset.x < 0 := by
  refine ⟨⟨4, [⟨0, 0, 0⟩], [(⟨0, 0, 0⟩, ⟨7, ⟨0, 0, 0⟩, true⟩)]⟩,
    mkDrawable ⟨1, 1⟩ (QVector2D.ofInt 0 0) ⟨1/2, 1/2⟩
      ⟨1/2 * ((-1 : Int) : ℚ), 1/2 * ((0 : Int) : ℚ)⟩ ⟨7, ⟨0, 0, 0⟩, true⟩,
    rfl, rfl, rfl, ?_, rfl, ?_, by decide, ?_⟩
  · simp [mkDrawable, QVector2D.ofInt, floatOfInt]
  · norm_num [mkDrawable]
  · norm_num [mkDrawable]

end Fallback

section Witnesses

/-- C6, an instance: the tile `(0, 0, 0)` is missing twice in the first pass (the viewport
is two world widths wide) and again in the second pass, and is requested once; after
the response of the failed fetch the third pass requests it again. -/
theorem requests_deduplicated_witness :
    (TileRenderer.new ⟨256, 2⟩ 0).run
        [TileRenderer.Call.setState ⟨true, ⟨0, 0, 511, 255⟩, 0, 0, ⟨512, 256⟩⟩,
          TileRenderer.Call.render, TileRenderer.Call.render,
          TileRenderer.Call.tileResponse ⟨1, ⟨0, 0, 0⟩, false⟩, TileRenderer.Call.render]
      = some (⟨⟨256, 2⟩, ⟨true, ⟨0, 0, 511, 255⟩, 0, 0, ⟨512, 256⟩⟩, ⟨2, [], []⟩,
                [(⟨0, 0, 0⟩, true)], 0⟩,
          [TileRenderer.TraceItem.call
              (TileRenderer.Call.setState ⟨true, ⟨0, 0, 511, 255⟩, 0, 0, ⟨512, 256⟩⟩),
            TileRenderer.TraceItem.effect Effect.postRender,
            TileRenderer.TraceItem.call TileRenderer.Call.render,
            TileRenderer.TraceItem.effect (Effect.requestTile ⟨0, 0, 0⟩),
            TileRenderer.TraceItem.call TileRenderer.Call.render,
            TileRenderer.TraceItem.call (TileRenderer.Call.tileResponse ⟨1, ⟨0, 0, 0⟩, false⟩),
            TileRenderer.TraceItem.call TileRenderer.Call.render,
            TileRenderer.TraceItem.effect (Effect.requestTile ⟨0, 0, 0⟩)]) ∧
    TileRenderer.Deduplicated
      [TileRenderer.TraceItem.call
          (TileRenderer.Call.setState ⟨true, ⟨0, 0, 511, 255⟩, 0, 0, ⟨512, 256⟩⟩),
        TileRenderer.TraceItem.effect Effect.postRender,
        TileRenderer.TraceItem.call TileRenderer.Call.render,
        TileRenderer.TraceItem.effect (Effect.requestTile ⟨0, 0, 0⟩),
        TileRenderer.TraceItem.call TileRenderer.Call.render,
        TileRenderer.TraceItem.call (TileRenderer.Call.tileResponse ⟨1, ⟨0, 0, 0⟩, false⟩),
        TileRenderer.TraceItem.call TileRenderer.Call.render,
        TileRenderer.TraceItem.effect (Effect.requestTile ⟨0, 0, 0⟩)] :=
  ⟨by rfl,
    (TileRenderer.requests_deduplicated ⟨256, 2⟩ 0
      [TileRenderer.Call.setState ⟨true, ⟨0, 0, 511, 255⟩, 0, 0, ⟨512, 256⟩⟩,
        TileRenderer.Call.render, TileRenderer.Call.render,
        TileRenderer.Call.tileResponse ⟨1, ⟨0, 0, 0⟩, false⟩, TileRenderer.Call.render]
      _ _ (by rfl)).1⟩

end Witnesses

section Requests

/-- C11: for every state, cache and grid cell `(x, y)` with wrapped column `wx` and
`0 ≤ y < pixels`, the cell is defined and the exact-zoom coordinate `(z, wx, y)` is in
its request list if and only if the exact-zoom query misses, whatever `zoomedIn()` and
`zoomedOut()` say and whatever fallback drawables the cell emits: on a miss the
request list is exactly `[(z, wx, y)]`; on a hit it is empty and the cell draws the
cached image 1:1; a missed cell with no zoom change gives the request, no drawable and
leaves the cache as it was. -/
theorem exact_miss_requested (size : Int) (state : State)
    (pixels xoffset yoffset x y xx yy wx : Int) (cache : TileCache)
    (hw : wrapX pixels x = some wx) (hy0 : 0 ≤ y) (hy1 : y < pixels) :
    ∃ cache2 tiles requests,
      getTilesCell size state pixels xoffset yoffset x y xx yy cache
        = some (cache2, tiles, requests) ∧
      ((⟨state.zoom, wx, y⟩ : TileIndex) ∈ requests ↔
        mapFind cache.m_map ⟨state.zoom, wx, y⟩ = none) ∧
      (mapFind cache.m_map ⟨state.zoom, wx, y⟩ = none →
        requests = [⟨state.zoom, wx, y⟩]) ∧
      (∀ image, mapFind cache.m_map ⟨state.zoom, wx, y⟩ = some image →
        requests = [] ∧
        tiles = [mkDrawable ⟨1, 1⟩
          (QVector2D.ofInt (xoffset + xx * size) (yoffset + yy * size)) ⟨1, 1⟩ ⟨0, 0⟩ image]) ∧
      (mapFind cache.m_map ⟨state.zoom, wx, y⟩ = none →
        state.zoomedIn = false → state.zoomedOut = false → tiles = [] ∧ cache2 = cache) := by
  have hin : y ≥ 0 ∧ y < pixels := ⟨hy0, hy1⟩
  unfold getTilesCell
  simp only [hw, hin, and_self, if_true]
  rw [LRUCache.query_eq]
  cases hfind : mapFind cache.m_map ⟨state.zoom, wx, y⟩ with
  | some image =>
    refine ⟨_, _, _, rfl, ?_, ?_, ?_, ?_⟩
    · simp
    · intro h
      cases h
    · intro image2 h2
      cases h2
      exact ⟨rfl, rfl⟩
    · intro h
      cases h
  | none =>
    have hq : (cache.query ⟨state.zoom, wx, y⟩).1 = cache := by
      unfold LRUCache.query
      rw [hfind]
    simp only [hq]
    by_cases hzin : state.zoomedIn = true
    · simp only [hzin, if_true]
      rw [LRUCache.query_eq]
      cases mapFind cache.m_map ⟨state.zoom - 1, Int.tdiv x 2, Int.tdiv y 2⟩ with
      | some image =>
        refine ⟨_, _, _, rfl, by simp, fun _ => rfl, ?_, ?_⟩
        · intro image2 h2
          cases h2
        · intro _ h
          cases h
      | none =>
        refine ⟨_, _, _, rfl, by simp, fun _ => rfl, ?_, ?_⟩
        · intro image2 h2
          cases h2
        · intro _ h
          cases h
    · simp only [hzin, Bool.false_eq_true, if_false]
      by_cases hout : state.zoomedOut = true
      · simp only [hout, if_true, childQuery_eq]
        refine ⟨_, _, _, rfl, by simp, fun _ => rfl, ?_, ?_⟩
        · intro image2 h2
          cases h2
        · intro _ _ h
          cases h
      · simp only [hout, Bool.false_eq_true, if_false]
        refine ⟨_, _, _, rfl, by simp, fun _ => rfl, ?_, ?_⟩
        · intro image2 h2
          cases h2
        · intro _ _ _
          exact ⟨rfl, rfl⟩

/-- C11, an instance: zoom 2 with no zoom change, cell `(5, 1)` wraps to column 1; the
cache holds another tile, so the cell requests `(2, 1, 1)` and draws nothing. -/
theorem exact_miss_requested_witness :
    (wrapX 4 5 = some 1 ∧ (0 : Int) ≤ 1 ∧ (1 : Int) < 4) ∧
    ∃ cache2 tiles requests,
      getTilesCell 256 ⟨true, ⟨1280, 256, 1535, 511⟩, 2, 2, ⟨256, 256⟩⟩ 4 0 0 5 1 0 0
          ⟨4, [⟨2, 0, 0⟩], [(⟨2, 0, 0⟩, ⟨7, ⟨2, 0, 0⟩, true⟩)]⟩
        = some (cache2, tiles, requests) ∧
      requests = [⟨2, 1, 1⟩] ∧ tiles = [] := by
  refine ⟨⟨by decide, by decide, by decide⟩, ?_⟩
  obtain ⟨cache2, tiles, requests, h1, -, h3, -, h5⟩ :=
    exact_miss_requested 256 ⟨true, ⟨1280, 256, 1535, 511⟩, 2, 2, ⟨256, 256⟩⟩ 4 0 0 5 1 0 0 1
      ⟨4, [⟨2, 0, 0⟩], [(⟨2, 0, 0⟩, ⟨7, ⟨2, 0, 0⟩, true⟩)]⟩ (by decide) (by decide) (by decide)
  exact ⟨cache2, tiles, requests, h1, h3 (by decide), (h5 (by decide) (by decide) (by decide)).1⟩

end Requests

namespace RenderLoop

/-- A `setState` call while a render is scheduled replaces the state and posts nothing. -/
theorem setState_scheduled (l : RenderLoop) (state : State)
    (h : l.renderer.m_render_requests ≠ 0) :
    l.setState state = { l with renderer := { l.renderer with m_state := state } } := by
  simp [setState, TileRenderer.setState, h, postCount]

/-- A `setState` call while no render is scheduled schedules one and posts its event. -/
theorem setState_idle (l : RenderLoop) (state : State)
    (h : l.renderer.m_render_requests = 0) :
    l.setState state
      = { l with renderer := { l.renderer with m_state := state, m_render_requests := 1 },
                 queue := l.queue + 1, posted := l.posted + 1 } := by
  simp [setState, TileRenderer.setState, h, postCount, Effect.isPostRender]

/-- The request loop of `render()` posts no render request. -/
theorem postCount_requestLoop (requests : List TileIndex) :
    ∀ m : List (TileIndex × Bool), postCount (TileRenderer.requestLoop m requests).2 = 0 := by
  induction requests with
  | nil =>
    intro m
    rfl
  | cons index rest ih =>
    intro m
    cases hfind : mapFind m index with
    | some b =>
      simp only [TileRenderer.requestLoop, hfind]
      exact ih m
    | none =>
      simp only [TileRenderer.requestLoop, hfind]
      have := ih (mapInsert m index true)
      simpa [postCount, Effect.isPostRender] using this

theorem postCount_draw (tiles : List TileDrawable) : postCount (tiles.map Effect.draw) = 0 := by
  induction tiles with
  | nil => rfl
  | cons t ts _ => simp [postCount, Effect.isPostRender]

theorem postCount_append (fx gx : List Effect) :
    postCount (fx ++ gx) = postCount fx + postCount gx := by
  simp [postCount]

/-- A render pass with exactly one render scheduled: `getState` reads the stored state,
clears the counter and posts nothing, and neither does the rest of the pass. -/
theorem render_single (r r2 : TileRenderer) (fx : List Effect)
    (hc : r.m_render_requests = 1) (hr : r.render = some (r2, fx)) :
    r.getState.2.1 = r.m_state ∧ r2.m_render_requests = 0 ∧ postCount fx = 0 := by
  have hg : r.getState = ({ r with m_render_requests := 0 }, r.m_state, []) := by
    simp [TileRenderer.getState, hc]
  refine ⟨by rw [hg], ?_⟩
  unfold TileRenderer.render at hr
  rw [hg] at hr
  by_cases hv : r.m_state.valid = false
  · simp only [hv, if_true, Option.some.injEq, Prod.mk.injEq] at hr
    obtain ⟨rfl, rfl⟩ := hr
    exact ⟨rfl, rfl⟩
  · simp only [hv, if_false] at hr
    cases hgt : getTiles r.m_config r.m_state r.m_cache with
    | none => simp [hgt] at hr
    | some res =>
      obtain ⟨cache, tiles, requests⟩ := res
      simp only [hgt, Option.some.injEq, Prod.mk.injEq] at hr
      obtain ⟨rfl, rfl⟩ := hr
      refine ⟨rfl, ?_⟩
      rw [List.nil_append, postCount_append, postCount_requestLoop, postCount_draw]

/-- The pass that handles the only queued render request when one render is scheduled. -/
theorem renderPass_single (l : RenderLoop) (hq : l.queue = 1)
    (hc : l.renderer.m_render_requests = 1) :
    (∀ l2, l.renderPass = some l2 →
      l2.posted = l.posted ∧ l2.queue = 0 ∧ l2.reads = l.reads ++ [l.renderer.m_state] ∧
      l2.renderer.m_render_requests = 0 ∧ l2.renderPass = none) ∧
    (l.renderer.m_state.valid = false ∨
        (getTiles l.renderer.m_config l.renderer.m_state l.renderer.m_cache).isSome = true →
      ∃ l2, l.renderPass = some l2) := by
  constructor
  · intro l2 hpass
    unfold renderPass at hpass
    simp only [hq, one_ne_zero, if_false] at hpass
    cases hr : l.renderer.render with
    | none => simp [hr] at hpass
    | some res =>
      obtain ⟨r2, fx⟩ := res
      obtain ⟨hread, hcount, hpost⟩ := render_single _ r2 fx hc hr
      simp only [hr, Option.some.injEq] at hpass
      subst hpass
      simp only [hpost, hread, add_zero, Nat.sub_self, hcount, renderPass, if_true]
      exact ⟨trivial, trivial, trivial, trivial, trivial⟩
  · intro hdef
    unfold renderPass
    simp only [hq, one_ne_zero, if_false]
    have hg : l.renderer.getState
        = ({ l.renderer with m_render_requests := 0 }, l.renderer.m_state, []) := by
      simp [TileRenderer.getState, hc]
    unfold TileRenderer.render
    rw [hg]
    by_cases hv : l.renderer.m_state.valid = false
    · simp only [hv, if_true]
      exact ⟨_, rfl⟩
    · rcases hdef with h | h
      · exact absurd h hv
      · obtain ⟨res, hres⟩ := Option.isSome_iff_exists.mp h
        obtain ⟨cache, tiles, requests⟩ := res
        simp only [hv, if_false, hres]
        exact ⟨_, rfl⟩

end RenderLoop

section MapSet

variable {K V : Type} [DecidableEq K]

theorem mapFind_mapSet (m : List (K × V)) (key k : K) (value : V) :
    mapFind (mapSet m key value) k = if k = key then some value else mapFind m k := by
  unfold mapSet
  cases hfind : mapFind m key with
  | some old =>
    simp only [mapFind_mapAssign, hfind, Option.map_some']
  | none =>
    simp only [mapFind_append]
    by_cases hk : k = key
    · subst hk
      simp [hfind, mapFind]
    · cases mapFind m k <;> simp [mapFind, hk, Ne.symm hk]

end MapSet

namespace TileFetcher

/-- C15: for every owned-image table and every image pointer, `deleteTile` fails its
assertions if and only if the pointer is null, or the table has no entry for the
image's coordinate, or the entry for that coordinate is another image (another
address); when it succeeds it destroys the image, removes the entry of its coordinate
and leaves every other entry, and the in-flight map, as they were. -/
theorem deleteTile_fails_iff (f : TileFetcher) (tile : Option TileImage) :
    (f.deleteTile tile = none ↔
      (tile = none ∨ ∃ t, tile = some t ∧
        (mapFind f.m_images t.index = none ∨
          ∃ owned, mapFind f.m_images t.index = some owned ∧ owned.id ≠ t.id))) ∧
    (∀ f2 fx, f.deleteTile tile = some (f2, fx) →
      ∃ t, tile = some t ∧ fx = [FetchEffect.destroyed t] ∧
        mapFind f2.m_images t.index = none ∧
        (∀ k, k ≠ t.index → mapFind f2.m_images k = mapFind f.m_images k) ∧
        f2.m_replies = f.m_replies ∧ f2.tile_size = f.tile_size) := by
  cases tile with
  | none =>
    refine ⟨by simp [deleteTile], ?_⟩
    intro f2 fx h
    simp [deleteTile] at h
  | some t =>
    cases hfind : mapFind f.m_images t.index with
    | none =>
      refine ⟨by simp [deleteTile, hfind], ?_⟩
      intro f2 fx h
      simp [deleteTile, hfind] at h
    | some owned =>
      by_cases hid : t.id = owned.id
      · constructor
        · simp [deleteTile, hfind, hid]
        · intro f2 fx h
          simp only [deleteTile, hfind, hid, if_true, Option.some.injEq, Prod.mk.injEq] at h
          obtain ⟨rfl, rfl⟩ := h
          refine ⟨t, rfl, rfl, ?_, ?_, rfl, rfl⟩
          · simp [mapFind_mapErase]
          · intro k hk
            simp [mapFind_mapErase, hk]
      · constructor
        · simp [deleteTile, hfind, hid, Ne.symm hid]
        · intro f2 fx h
          simp [deleteTile, hfind, hid] at h

/-- C14, as stated, fails for a transfer that completes without error with a payload that
does not decode to a 256 by 256 image (here 0 by 0, not an image): `loadTile` fails the
assertion on the width and emits no image. -/
theorem loadTile_wrong_size_fatal :
    mapFind (⟨256, [(1, ⟨3, 2, 1⟩)], []⟩ : TileFetcher).m_replies 1 = some ⟨3, 2, 1⟩ ∧
      loadTile ⟨256, [(1, ⟨3, 2, 1⟩)], []⟩ ⟨1, NetworkError.NoError, 0, 0⟩ 5 = none ∧
      ¬ ∃ f2 fx tile, loadTile ⟨256, [(1, ⟨3, 2, 1⟩)], []⟩ ⟨1, NetworkError.NoError, 0, 0⟩ 5
          = some (f2, fx) ∧ FetchEffect.responseTile tile ∈ fx := by
  refine ⟨by decide, by decide, ?_⟩
  rintro ⟨f2, fx, tile, h, -⟩
  have hnone : loadTile ⟨256, [(1, ⟨3, 2, 1⟩)], []⟩ ⟨1, NetworkError.NoError, 0, 0⟩ 5 = none := by
    decide
  rw [hnone] at h
  cases h

/-- C14 (as amended): for every completed transfer whose handle is registered in the
in-flight map with coordinate `c` and whose payload, when the transport reported no
error, decodes to an image of the configured tile size: `loadTile` removes exactly that
handle's entry from the in-flight map and emits exactly one image, carrying `c`; the
image is valid if and only if the transport reported no error (a cancellation is an
error, and is not logged); a valid image is registered in the owned-image table under
`c`, the other entries staying as they were; on error the table is unchanged, so that,
the new image being at a fresh address, it is registered if and only if it is valid. -/
theorem loadTile_registered (f : TileFetcher) (reply : Reply) (fresh : Nat) (c : TileIndex)
    (hreg : mapFind f.m_replies reply.handle = some c)
    (hsize : reply.error = NetworkError.NoError →
      reply.width = f.tile_size ∧ reply.height = f.tile_size) :
    ∃ f2 fx tile, f.loadTile reply fresh = some (f2, fx) ∧
      (fx = [FetchEffect.responseTile tile] ∨
        fx = [FetchEffect.logCritical reply.handle, FetchEffect.responseTile tile]) ∧
      (fx = [FetchEffect.responseTile tile] ↔
        (reply.error = NetworkError.NoError ∨
          reply.error = NetworkError.OperationCanceledError)) ∧
      tile = ⟨fresh, c, decide (reply.error = NetworkError.NoError)⟩ ∧
      tile.index = c ∧
      (tile.valid = true ↔ reply.error = NetworkError.NoError) ∧
      mapFind f2.m_replies reply.handle = none ∧
      (∀ h, h ≠ reply.handle → mapFind f2.m_replies h = mapFind f.m_replies h) ∧
      (tile.valid = true → mapFind f2.m_images c = some tile ∧
        ∀ k, k ≠ c → mapFind f2.m_images k = mapFind f.m_images k) ∧
      (tile.valid = false → f2.m_images = f.m_images) ∧
      ((∀ k image, mapFind f.m_images k = some image → image.id ≠ fresh) →
        (mapFind f2.m_images c = some tile ↔ tile.valid = true)) := by
  have herase : mapFind (mapErase f.m_replies reply.handle) reply.handle = none := by
    simp [mapFind_mapErase]
  have hother : ∀ h, h ≠ reply.handle →
      mapFind (mapErase f.m_replies reply.handle) h = mapFind f.m_replies h := by
    intro h hne
    simp [mapFind_mapErase, hne]
  by_cases herr : reply.error = NetworkError.NoError
  · obtain ⟨hw, hh⟩ := hsize herr
    have hload : f.loadTile reply fresh
        = some (⟨f.tile_size, mapErase f.m_replies reply.handle,
                  mapSet f.m_images c ⟨fresh, c, true⟩⟩,
                [FetchEffect.responseTile ⟨fresh, c, true⟩]) := by
      simp [loadTile, hreg, herr, hw, hh]
    refine ⟨_, _, ⟨fresh, c, true⟩, hload, Or.inl rfl, ?_, ?_,
      rfl, ?_, herase, hother, ?_, ?_, ?_⟩
    · simp [herr]
    · simp [herr]
    · simp [TileImage.valid, herr]
    · intro _
      refine ⟨by simp [mapFind_mapSet], ?_⟩
      intro k hk
      simp [mapFind_mapSet, hk]
    · intro h
      simp [TileImage.valid] at h
    · intro _
      simp [mapFind_mapSet, TileImage.valid]
  · by_cases hcan : reply.error = NetworkError.OperationCanceledError
    · have hload : f.loadTile reply fresh
          = some (⟨f.tile_size, mapErase f.m_replies reply.handle, f.m_images⟩,
                  [FetchEffect.responseTile ⟨fresh, c, false⟩]) := by
        simp [loadTile, hreg, hcan]
      refine ⟨_, _, ⟨fresh, c, false⟩, hload, Or.inl rfl, ?_, ?_,
        rfl, ?_, herase, hother, ?_, ?_, ?_⟩
      · simp [hcan]
      · simp [herr]
      · simp [TileImage.valid, herr]
      · intro h
        simp [TileImage.valid] at h
      · intro _
        rfl
      · intro hfresh
        simp only [TileImage.valid, Bool.false_eq_true, iff_false]
        intro hm
        exact hfresh c _ hm rfl
    · have hload : f.loadTile reply fresh
          = some (⟨f.tile_size, mapErase f.m_replies reply.handle, f.m_images⟩,
                  [FetchEffect.logCritical reply.handle,
                    FetchEffect.responseTile ⟨fresh, c, false⟩]) := by
        simp [loadTile, hreg, herr, hcan]
      refine ⟨_, _, ⟨fresh, c, false⟩, hload, Or.inr rfl, ?_, ?_,
        rfl, ?_, herase, hother, ?_, ?_, ?_⟩
      · simp [herr, hcan]
      · simp [herr]
      · simp [TileImage.valid, herr]
      · intro h
        simp [TileImage.valid] at h
      · intro _
        rfl
      · intro hfresh
        simp only [TileImage.valid, Bool.false_eq_true, iff_false]
        intro hm
        exact hfresh c _ hm rfl

/-- C14, an instance of the amended claim: a transfer of tile `(3, 2, 1)` completes
without error with a 256 by 256 image. -/
theorem loadTile_registered_witness :
    (mapFind (⟨256, [(1, ⟨3, 2, 1⟩)], []⟩ : TileFetcher).m_replies
        (⟨1, NetworkError.NoError, 256, 256⟩ : Reply).handle = some ⟨3, 2, 1⟩ ∧
      ((⟨1, NetworkError.NoError, 256, 256⟩ : Reply).error = NetworkError.NoError →
        (⟨1, NetworkError.NoError, 256, 256⟩ : Reply).width
            = (⟨256, [(1, ⟨3, 2, 1⟩)], []⟩ : TileFetcher).tile_size ∧
          (⟨1, NetworkError.NoError, 256, 256⟩ : Reply).height
            = (⟨256, [(1, ⟨3, 2, 1⟩)], []⟩ : TileFetcher).tile_size)) ∧
    ∃ (f2 : TileFetcher) (fx : List FetchEffect) (tile : TileImage),
      loadTile ⟨256, [(1, ⟨3, 2, 1⟩)], []⟩ ⟨1, NetworkError.NoError, 256, 256⟩ 5
        = some (f2, fx) ∧
      tile.index = ⟨3, 2, 1⟩ ∧ mapFind f2.m_replies 1 = none := by
  refine ⟨⟨by decide, fun _ => ⟨rfl, rfl⟩⟩, ?_⟩
  obtain ⟨f2, fx, tile, h1, -, -, -, h2, -, h3, -⟩ :=
    loadTile_registered ⟨256, [(1, ⟨3, 2, 1⟩)], []⟩ ⟨1, NetworkError.NoError, 256, 256⟩ 5
      ⟨3, 2, 1⟩ (by decide) (fun _ => ⟨rfl, rfl⟩)
  exact ⟨f2, fx, tile, h1, h2, h3⟩

end TileFetcher

namespace LRUCache

variable {K V : Type} [DecidableEq K]

/-- The three ways in which `insert` returns, on any cache. -/
theorem insert_some_cases {c c2 : LRUCache K V} {key : K} {value : V} {log : List (K × V)}
    (h : c.insert key value = some (c2, log)) :
    (∃ old, mapFind c.m_map key = some old ∧ c2.m_map = mapAssign c.m_map key value ∧
      log = [(key, old)]) ∨
    (mapFind c.m_map key = none ∧ c2.m_map = c.m_map ++ [(key, value)] ∧ log = []) ∨
    (∃ front old, mapFind c.m_map key = none ∧ mapFind c.m_map front = some old ∧
      front ≠ key ∧ c2.m_map = mapErase c.m_map front ++ [(key, value)] ∧
      log = [(front, old)]) := by
  unfold insert at h
  cases hk : mapFind c.m_map key with
  | some old =>
    left
    simp only [hk, Option.some.injEq, Prod.mk.injEq] at h
    obtain ⟨rfl, rfl⟩ := h
    exact ⟨old, rfl, rfl, rfl⟩
  | none =>
    right
    simp only [hk] at h
    by_cases hfull : c.m_list.length = c.m_size
    · right
      simp only [hfull, if_true] at h
      cases hl : c.m_list with
      | nil => simp [hl] at h
      | cons front rest =>
        simp only [hl] at h
        cases hf : mapFind c.m_map front with
        | none => simp [hf] at h
        | some old =>
          simp only [hf, Option.some.injEq, Prod.mk.injEq] at h
          obtain ⟨rfl, rfl⟩ := h
          have hne : front ≠ key := by
            intro e
            rw [e, hk] at hf
            cases hf
          have hk2 : mapFind (mapErase c.m_map front) key = none := by
            rw [mapFind_mapErase, hk]
            simp
          exact ⟨front, old, rfl, hf, hne, mapInsert_of_none _ _ _ hk2, rfl⟩
    · left
      simp only [hfull, if_false, Option.some.injEq, Prod.mk.injEq] at h
      obtain ⟨rfl, rfl⟩ := h
      exact ⟨rfl, mapInsert_of_none _ _ _ hk, rfl⟩

end LRUCache

namespace TileRenderer

/-- An invalid response only clears the pending entry of its coordinate. -/
theorem tileResponse_invalid (r : TileRenderer) (t : TileImage) (h : t.valid = false) :
    r.tileResponse t = some ({ r with m_requests := mapErase r.m_requests t.index }, []) := by
  simp [tileResponse, h]

/-- C16: for every renderer state and every image `t`, `tileResponse(t)` removes the
coordinate of `t` from the pending set, valid or not, leaves the other pending
coordinates and emits no `requestTile`. If `t` is invalid, nothing else changes (cache,
recency list, counter) and nothing is emitted. If `t` is valid, `t` is inserted into the
cache under its coordinate; `deleteTile` is emitted, at most once, exactly for the image
that the insert takes out of the cache (the image held under the coordinate of `t`, or
the image of an entry that is gone afterwards); a render request is posted exactly
when the counter was 0, and the counter is then 1. The valid case is defined whenever
the cache is well formed with a capacity of at least 1. -/
theorem tileResponse_effects (r : TileRenderer) (t : TileImage) :
    (∀ r2 fx, r.tileResponse t = some (r2, fx) →
      mapFind r2.m_requests t.index = none ∧
      (∀ k, k ≠ t.index → mapFind r2.m_requests k = mapFind r.m_requests k) ∧
      r2.m_state = r.m_state ∧ r2.m_config = r.m_config ∧
      (∀ e ∈ fx, (∃ image, e = Effect.deleteTile image) ∨ e = Effect.postRender)) ∧
    (t.valid = false →
      r.tileResponse t = some ({ r with m_requests := mapErase r.m_requests t.index }, [])) ∧
    (t.valid = true → ∀ r2 fx, r.tileResponse t = some (r2, fx) →
      ∃ log, r.m_cache.insert t.index t = some (r2.m_cache, log) ∧
        mapFind r2.m_cache.m_map t.index = some t ∧
        fx = log.map (fun e => Effect.deleteTile e.2)
              ++ (if r.m_render_requests = 0 then [Effect.postRender] else []) ∧
        log.length ≤ 1 ∧
        (∀ image, Effect.deleteTile image ∈ fx ↔
          ∃ k, mapFind r.m_cache.m_map k = some image ∧
            (k = t.index ∨ mapFind r2.m_cache.m_map k = none)) ∧
        (Effect.postRender ∈ fx ↔ r.m_render_requests = 0) ∧
        r2.m_render_requests = (if r.m_render_requests = 0 then 1 else r.m_render_requests)) ∧
    (t.valid = true → LRUCache.WF r.m_cache → 1 ≤ r.m_cache.m_size →
      ∃ r2 fx, r.tileResponse t = some (r2, fx)) := by
  have herase : mapFind (mapErase r.m_requests t.index) t.index = none := by
    simp [mapFind_mapErase]
  have hother : ∀ k, k ≠ t.index →
      mapFind (mapErase r.m_requests t.index) k = mapFind r.m_requests k := by
    intro k hk
    simp [mapFind_mapErase, hk]
  have hvalid : t.valid = true → ∀ r2 fx, r.tileResponse t = some (r2, fx) →
      ∃ log, r.m_cache.insert t.index t = some (r2.m_cache, log) ∧
        r2.m_requests = mapErase r.m_requests t.index ∧
        r2.m_state = r.m_state ∧ r2.m_config = r.m_config ∧
        fx = log.map (fun e => Effect.deleteTile e.2)
              ++ (if r.m_render_requests = 0 then [Effect.postRender] else []) ∧
        r2.m_render_requests = (if r.m_render_requests = 0 then 1 else r.m_render_requests) := by
    intro hv r2 fx h
    simp only [tileResponse, hv, if_true] at h
    cases hins : r.m_cache.insert t.index t with
    | none => simp [hins] at h
    | some res =>
      obtain ⟨cache, log⟩ := res
      simp only [hins] at h
      by_cases h0 : r.m_render_requests = 0
      · simp only [h0, if_true, Option.some.injEq, Prod.mk.injEq] at h
        obtain ⟨rfl, rfl⟩ := h
        exact ⟨log, rfl, rfl, rfl, rfl, by simp [h0], by simp [h0]⟩
      · simp only [h0, if_false, Option.some.injEq, Prod.mk.injEq] at h
        obtain ⟨rfl, rfl⟩ := h
        exact ⟨log, rfl, rfl, rfl, rfl, by simp [h0], by simp [h0]⟩
  refine ⟨?_, tileResponse_invalid r t, ?_, ?_⟩
  · intro r2 fx h
    by_cases hv : t.valid = true
    · obtain ⟨log, -, hm, hs, hc, hfx, -⟩ := hvalid hv r2 fx h
      refine ⟨by rw [hm]; exact herase, fun k hk => by rw [hm]; exact hother k hk, hs, hc, ?_⟩
      intro e he
      rw [hfx] at he
      rcases List.mem_append.mp he with he | he
      · obtain ⟨x, -, rfl⟩ := List.mem_map.mp he
        exact Or.inl ⟨_, rfl⟩
      · right
        by_cases h0 : r.m_render_requests = 0
        · simpa [h0] using he
        · simp [h0] at he
    · have hv2 : t.valid = false := by simpa using hv
      rw [tileResponse_invalid r t hv2] at h
      simp only [Option.some.injEq, Prod.mk.injEq] at h
      obtain ⟨rfl, rfl⟩ := h
      exact ⟨herase, hother, rfl, rfl, fun e he => by cases he⟩
  · intro hv r2 fx h
    obtain ⟨log, hins, -, -, -, hfx, hcount⟩ := hvalid hv r2 fx h
    have hdel : ∀ image, Effect.deleteTile image ∈ fx ↔ image ∈ log.map Prod.snd := by
      intro image
      rw [hfx]
      by_cases h0 : r.m_render_requests = 0 <;> simp [h0]
    have hpost : Effect.postRender ∈ fx ↔ r.m_render_requests = 0 := by
      rw [hfx]
      by_cases h0 : r.m_render_requests = 0 <;> simp [h0]
    refine ⟨log, hins, ?_, hfx, ?_, ?_, hpost, hcount⟩
    · rcases LRUCache.insert_some_cases hins with ⟨old, hk, hmap, -⟩ | ⟨hk, hmap, -⟩ |
          ⟨front, old, hk, -, -, hmap, -⟩
      · rw [hmap, mapFind_mapAssign]
        simp [hk]
      · rw [hmap, mapFind_append, hk]
        simp [mapFind]
      · rw [hmap, mapFind_append, mapFind_mapErase, hk]
        simp [mapFind]
    · rcases LRUCache.insert_some_cases hins with ⟨old, -, -, hlog⟩ | ⟨-, -, hlog⟩ |
          ⟨front, old, -, -, -, -, hlog⟩ <;> simp [hlog]
    · intro image
      rw [hdel]
      rcases LRUCache.insert_some_cases hins with ⟨old, hk, hmap, hlog⟩ | ⟨hk, hmap, hlog⟩ |
          ⟨front, old, hk, hf, hne, hmap, hlog⟩
      · rw [hlog, hmap]
        simp only [List.map_cons, List.map_nil, List.mem_singleton]
        constructor
        · rintro rfl
          exact ⟨t.index, hk, Or.inl rfl⟩
        · rintro ⟨k, hbefore, hk2 | hafter⟩
          · rw [hk2, hk] at hbefore
            exact (Option.some.inj hbefore).symm
          · rw [mapFind_mapAssign] at hafter
            by_cases e : k = t.index
            · rw [e, hk] at hbefore
              exact (Option.some.inj hbefore).symm
            · simp [e, hbefore] at hafter
      · rw [hlog, hmap]
        simp only [List.map_nil, List.not_mem_nil, false_iff, not_exists, not_and, not_or]
        intro k hbefore
        refine ⟨?_, ?_⟩
        · intro e
          rw [e, hk] at hbefore
          cases hbefore
        · rw [mapFind_append, hbefore]
          simp
      · rw [hlog, hmap]
        simp only [List.map_cons, List.map_nil, List.mem_singleton]
        constructor
        · rintro rfl
          refine ⟨front, hf, Or.inr ?_⟩
          rw [mapFind_append, mapFind_mapErase]
          simp [mapFind, Ne.symm hne]
        · rintro ⟨k, hbefore, hk2 | hafter⟩
          · rw [hk2, hk] at hbefore
            cases hbefore
          · by_cases e : k = front
            · rw [e, hf] at hbefore
              exact (Option.some.inj hbefore).symm
            · rw [mapFind_append, mapFind_mapErase] at hafter
              simp [e, hbefore] at hafter
  · intro hv hwf hcap
    obtain ⟨cache, log, hins⟩ := LRUCache.insert_isSome hwf hcap t.index t
    by_cases h0 : r.m_render_requests = 0
    · simp only [tileResponse, hv, if_true, hins, h0]
      exact ⟨_, _, rfl⟩
    · simp only [tileResponse, hv, if_true, hins, h0, if_false]
      exact ⟨_, _, rfl⟩

/-- C16, an instance: a full cache of capacity 1 holding image 1 of `(0, 0, 0)`; the
valid response for the pending `(1, 0, 0)` evicts image 1 and posts a render request. -/
theorem tileResponse_effects_witness :
    ((⟨2, ⟨1, 0, 0⟩, true⟩ : TileImage).valid = true ∧
      tileResponse
          ⟨⟨256, 1⟩, State.new 1, ⟨1, [⟨0, 0, 0⟩], [(⟨0, 0, 0⟩, ⟨1, ⟨0, 0, 0⟩, true⟩)]⟩,
            [(⟨1, 0, 0⟩, true)], 0⟩
          ⟨2, ⟨1, 0, 0⟩, true⟩
        = some (⟨⟨256, 1⟩, State.new 1, ⟨1, [⟨1, 0, 0⟩], [(⟨1, 0, 0⟩, ⟨2, ⟨1, 0, 0⟩, true⟩)]⟩,
                  [], 1⟩,
                [Effect.deleteTile ⟨1, ⟨0, 0, 0⟩, true⟩, Effect.postRender])) ∧
    (Effect.postRender ∈ [Effect.deleteTile ⟨1, ⟨0, 0, 0⟩, true⟩, Effect.postRender] ↔
      (0 : Nat) = 0) := by
  have hrun : tileResponse
      ⟨⟨256, 1⟩, State.new 1, ⟨1, [⟨0, 0, 0⟩], [(⟨0, 0, 0⟩, ⟨1, ⟨0, 0, 0⟩, true⟩)]⟩,
        [(⟨1, 0, 0⟩, true)], 0⟩
      ⟨2, ⟨1, 0, 0⟩, true⟩
      = some (⟨⟨256, 1⟩, State.new 1, ⟨1, [⟨1, 0, 0⟩], [(⟨1, 0, 0⟩, ⟨2, ⟨1, 0, 0⟩, true⟩)]⟩,
                [], 1⟩,
              [Effect.deleteTile ⟨1, ⟨0, 0, 0⟩, true⟩, Effect.postRender]) := by
    rfl
  refine ⟨⟨rfl, hrun⟩, ?_⟩
  obtain ⟨log, -, -, -, -, -, hpost, -⟩ :=
    (tileResponse_effects _ ⟨2, ⟨1, 0, 0⟩, true⟩).2.2.1 rfl _ _ hrun
  exact hpost

/-- A render pass on an invalid stored state ends right after `getState()`. -/
theorem render_invalid (r : TileRenderer) (h : r.m_state.valid = false) :
    r.render = some (r.getState.1, r.getState.2.2) := by
  obtain ⟨-, -, -, hs, -⟩ := getState_requests r
  unfold render
  have hv : r.getState.2.1.valid = false := by rw [hs]; exact h
  simp only [hv, if_true]

end TileRenderer

section Validity

theorem valid_apply (s : State) (op : State.Setter) :
    (s.apply op).valid = (s.valid || decide (op = State.Setter.setValid)) := by
  cases op with
  | setValid => simp [State.apply, State.setValid, State.valid]
  | setBounds b => simp [State.apply, State.setBounds, State.valid]
  | setZoom z =>
    by_cases h : s.m_last_zoom = -1 <;> simp [State.apply, State.setZoom, State.valid, h]
  | setMapSize sz => simp [State.apply, State.setMapSize, State.valid]

theorem valid_foldl_apply (ops : List State.Setter) :
    ∀ s : State, (ops.foldl State.apply s).valid
      = (s.valid || decide (State.Setter.setValid ∈ ops)) := by
  induction ops with
  | nil =>
    intro s
    simp
  | cons op ops ih =>
    intro s
    rw [List.foldl_cons, ih, valid_apply]
    by_cases h : op = State.Setter.setValid
    · simp [h]
    · have h2 : ¬ State.Setter.setValid = op := fun e => h e.symm
      simp [h, h2, List.mem_cons]

/-- C18: a freshly constructed `State` is invalid, and after any sequence of setter
calls it is valid if and only if `setValid()` is among them. For every renderer whose
stored state is invalid, a render pass returns right after `getState()`: `getTiles`
is not called, so no cache query is made; the cache with its recency list, the pending
set, the stored state and the configuration are unchanged; the only effect it can have
is the render request that `getState()` posts when more than one render was scheduled,
so it emits no `requestTile`, no `deleteTile` and no draw call. -/
theorem invalid_state_render_noop (zoom0 : Int) (setters : List State.Setter)
    (r : TileRenderer) :
    (State.new zoom0).valid = false ∧
    ((setters.foldl State.apply (State.new zoom0)).valid = true ↔
      State.Setter.setValid ∈ setters) ∧
    (r.m_state.valid = false →
      ∃ r2 fx, r.render = some (r2, fx) ∧
        r2 = r.getState.1 ∧ fx = r.getState.2.2 ∧
        r2.m_cache = r.m_cache ∧ r2.m_requests = r.m_requests ∧
        r2.m_state = r.m_state ∧ r2.m_config = r.m_config ∧
        r2.m_render_requests = r.m_render_requests - 1 ∧
        (∀ e ∈ fx, e = Effect.postRender) ∧
        (Effect.postRender ∈ fx ↔ 2 ≤ r.m_render_requests)) := by
  refine ⟨rfl, ?_, ?_⟩
  · rw [valid_foldl_apply]
    simp [State.new, State.valid]
  · intro h
    obtain ⟨hm, hc, hcache, -, hpost⟩ := TileRenderer.getState_requests r
    refine ⟨_, _, TileRenderer.render_invalid r h, rfl, rfl, hcache, hm, ?_, hc, ?_, hpost, ?_⟩
    · unfold TileRenderer.getState
      by_cases h1 : r.m_render_requests > 0
      · by_cases h2 : r.m_render_requests - 1 > 0 <;> simp [h1, h2]
      · simp [h1]
    · unfold TileRenderer.getState
      by_cases h1 : r.m_render_requests > 0
      · by_cases h2 : r.m_render_requests - 1 > 0 <;> simp [h1, h2]
      · simp only [h1, if_false]
        omega
    · unfold TileRenderer.getState
      by_cases h1 : r.m_render_requests > 0
      · by_cases h2 : r.m_render_requests - 1 > 0
        · simp only [h1, h2, if_true, List.mem_singleton, true_iff]
          omega
        · simp only [h1, h2, if_true, if_false, List.not_mem_nil, false_iff]
          omega
      · simp only [h1, if_false, List.not_mem_nil, false_iff]
        omega

/-- C18, an instance: the freshly constructed renderer, whose state is invalid, after a
`setState` of a state that was given a zoom and bounds but not `setValid()`. -/
theorem invalid_state_render_noop_witness :
    (((TileRenderer.new ⟨256, 2⟩ 0).setState
        (((State.new 0).setZoom 10).setBounds ⟨0, 0, 99, 99⟩)).1.m_state.valid = false) ∧
    ∃ r2 fx,
      ((TileRenderer.new ⟨256, 2⟩ 0).setState
        (((State.new 0).setZoom 10).setBounds ⟨0, 0, 99, 99⟩)).1.render = some (r2, fx) ∧
      fx = [] ∧ r2.m_cache = LRUCache.new 2 ∧ r2.m_requests = [] := by
  refine ⟨by decide, ?_⟩
  obtain ⟨r2, fx, h1, -, h3, h4, h5, -⟩ :=
    (invalid_state_render_noop 0 []
      ((TileRenderer.new ⟨256, 2⟩ 0).setState
        (((State.new 0).setZoom 10).setBounds ⟨0, 0, 99, 99⟩)).1).2.2 (by decide)
  exact ⟨r2, fx, h1, h3, h4, h5⟩

end Validity

namespace TileFetcher

/-- A cancelled transfer of a registered reply: `loadTile` drops the reply from the
in-flight map and emits an invalid image with the reply's coordinate, without logging. -/
theorem loadTile_cancelled (f : TileFetcher) (reply : Reply) (fresh : Nat) (c : TileIndex)
    (hreg : mapFind f.m_replies reply.handle = some c)
    (hcan : reply.error = NetworkError.OperationCanceledError) :
    f.loadTile reply fresh
      = some (⟨f.tile_size, mapErase f.m_replies reply.handle, f.m_images⟩,
              [FetchEffect.responseTile ⟨fresh, c, false⟩]) := by
  simp [loadTile, hreg, hcan]

/-- The images that the cancelled replies `rs` give, read off the in-flight map. -/
theorem loadTiles_cancelled (rs : List (Reply × Nat)) :
    ∀ f : TileFetcher,
      (∀ p ∈ rs, p.1.error = NetworkError.OperationCanceledError) →
      (∀ p ∈ rs, (mapFind f.m_replies p.1.handle).isSome = true) →
      (rs.map (fun p => p.1.handle)).Nodup →
      ∃ f2 ts, f.loadTiles rs = some (f2, ts.map FetchEffect.responseTile) ∧
        List.Forall₂ (fun (p : Reply × Nat) (t : TileImage) =>
          t.id = p.2 ∧ mapFind f.m_replies p.1.handle = some t.index ∧ t.valid = false) rs ts ∧
        f2.m_images = f.m_images ∧ f2.tile_size = f.tile_size ∧
        ∀ h, mapFind f2.m_replies h
          = if h ∈ rs.map (fun p => p.1.handle) then none else mapFind f.m_replies h := by
  induction rs with
  | nil =>
    intro f _ _ _
    exact ⟨f, [], rfl, List.Forall₂.nil, rfl, rfl, fun h => by simp⟩
  | cons p rs ih =>
    intro f hcan hreg hnd
    obtain ⟨reply, fresh⟩ := p
    rw [List.map_cons, List.nodup_cons] at hnd
    obtain ⟨c, hc⟩ := Option.isSome_iff_exists.mp (hreg (reply, fresh) (by simp))
    have hload := loadTile_cancelled f reply fresh c hc (hcan (reply, fresh) (by simp))
    have hkeep : ∀ q ∈ rs, mapFind (mapErase f.m_replies reply.handle) q.1.handle
        = mapFind f.m_replies q.1.handle := by
      intro q hq
      have hne : q.1.handle ≠ reply.handle := by
        intro e
        apply hnd.1
        rw [← e]
        exact List.mem_map_of_mem (fun p => p.1.handle) hq
      simp [mapFind_mapErase, hne]
    obtain ⟨f2, ts, hrest, hall, himg, hsize, hrep⟩ :=
      ih ⟨f.tile_size, mapErase f.m_replies reply.handle, f.m_images⟩
        (fun q hq => hcan q (List.mem_cons_of_mem _ hq))
        (fun q hq => by
          rw [hkeep q hq]
          exact hreg q (List.mem_cons_of_mem _ hq))
        hnd.2
    refine ⟨f2, ⟨fresh, c, false⟩ :: ts, ?_, ?_, himg, hsize, ?_⟩
    · simp only [loadTiles, hload, hrest, List.map_cons, List.singleton_append]
    · refine List.Forall₂.cons ⟨rfl, hc, rfl⟩ ?_
      refine List.Forall₂.imp ?_ hall
      intro q t ⟨h1, h2, h3⟩
      refine ⟨h1, ?_, h3⟩
      rw [← h2, mapFind_mapErase]
      by_cases e : q.1.handle = reply.handle
      · exfalso
        rw [mapFind_mapErase] at h2
        simp [e] at h2
      · simp [e]
    · intro h
      rw [hrep h, mapFind_mapErase]
      by_cases e : h = reply.handle
      · simp [e]
      · by_cases hm : h ∈ rs.map (fun p => p.1.handle)
        · simp [hm]
        · simp only [hm, if_false, e, List.map_cons, List.mem_cons, false_or]

end TileFetcher

namespace TileRenderer

/-- A run of responses with invalid images clears their coordinates from the pending
set and does nothing else. -/
theorem tileResponses_invalid (ts : List TileImage) :
    ∀ r : TileRenderer, (∀ t ∈ ts, t.valid = false) →
      ∃ r2, r.tileResponses ts = some (r2, []) ∧
        r2.m_cache = r.m_cache ∧ r2.m_render_requests = r.m_render_requests ∧
        r2.m_state = r.m_state ∧ r2.m_config = r.m_config ∧
        ∀ c, mapFind r2.m_requests c
          = if c ∈ ts.map TileImage.index then none else mapFind r.m_requests c := by
  induction ts with
  | nil =>
    intro r _
    exact ⟨r, rfl, rfl, rfl, rfl, rfl, fun c => by simp⟩
  | cons t ts ih =>
    intro r hinv
    have h1 := tileResponse_invalid r t (hinv t (by simp))
    obtain ⟨r2, hrest, hcache, hcount, hstate, hconfig, hreq⟩ :=
      ih { r with m_requests := mapErase r.m_requests t.index }
        (fun u hu => hinv u (List.mem_cons_of_mem _ hu))
    refine ⟨r2, by simp only [tileResponses, h1, hrest, List.append_nil], hcache, hcount,
      hstate, hconfig, ?_⟩
    intro c
    rw [hreq c, mapFind_mapErase]
    by_cases e : c = t.index
    · simp [e]
    · by_cases hm : c ∈ ts.map TileImage.index
      · simp [hm]
      · simp only [hm, if_false, e, List.map_cons, List.mem_cons, false_or]

/-- What the request loop of `render()` does for one coordinate: it is pending
afterwards if it was pending or is among the requests, and `requestTile` is emitted
for it exactly when it is among the requests and was not pending. -/
theorem requestLoop_index (requests : List TileIndex) (index : TileIndex) :
    ∀ m : List (TileIndex × Bool),
      ((mapFind (requestLoop m requests).1 index).isSome = true ↔
        ((mapFind m index).isSome = true ∨ index ∈ requests)) ∧
      (Effect.requestTile index ∈ (requestLoop m requests).2 ↔
        (index ∈ requests ∧ mapFind m index = none)) := by
  induction requests with
  | nil =>
    intro m
    simp [requestLoop]
  | cons i rest ih =>
    intro m
    cases hfind : mapFind m i with
    | some b =>
      have hloop : requestLoop m (i :: rest) = requestLoop m rest := by
        simp [requestLoop, hfind]
      rw [hloop]
      obtain ⟨h1, h2⟩ := ih m
      constructor
      · rw [h1]
        constructor
        · rintro (h | h)
          · exact Or.inl h
          · exact Or.inr (List.mem_cons_of_mem _ h)
        · rintro (h | h)
          · exact Or.inl h
          · rcases List.mem_cons.mp h with e | h
            · left
              rw [e, hfind]
              rfl
            · exact Or.inr h
      · rw [h2]
        constructor
        · rintro ⟨h, hn⟩
          exact ⟨List.mem_cons_of_mem _ h, hn⟩
        · rintro ⟨h, hn⟩
          rcases List.mem_cons.mp h with e | h
          · rw [e, hfind] at hn
            cases hn
          · exact ⟨h, hn⟩
    | none =>
      have hloop : requestLoop m (i :: rest)
          = ((requestLoop (mapInsert m i true) rest).1,
             Effect.requestTile i :: (requestLoop (mapInsert m i true) rest).2) := by
        simp [requestLoop, hfind]
      rw [hloop]
      obtain ⟨h1, h2⟩ := ih (mapInsert m i true)
      have hins : mapFind (mapInsert m i true) index
          = if index = i then some true else mapFind m index :=
        mapFind_mapInsert m i index true hfind
      constructor
      · simp only [h1, hins]
        by_cases e : index = i
        · simp [e]
        · simp [e, List.mem_cons]
      · simp only [List.mem_cons, Effect.requestTile.injEq, h2, hins]
        by_cases e : index = i
        · subst e
          simp [hfind]
        · simp [e]

/-- A render pass on a valid stored state for which `getTiles` is defined. -/
theorem render_valid (r : TileRenderer) (cache : TileCache) (tiles : List TileDrawable)
    (requests : List TileIndex) (hv : r.m_state.valid = true)
    (hg : getTiles r.m_config r.m_state r.m_cache = some (cache, tiles, requests)) :
    r.render
      = some ({ r.getState.1 with m_cache := cache,
                                  m_requests := (requestLoop r.m_requests requests).1 },
              r.getState.2.2 ++ (requestLoop r.m_requests requests).2
                ++ tiles.map Effect.draw) := by
  obtain ⟨hm, hc, hcache, hs, -⟩ := getState_requests r
  unfold render
  have hv2 : ¬ r.getState.2.1.valid = false := by
    rw [hs, hv]
    simp
  simp only [hv2, if_false, hc, hs, hcache, hg, hm]
  simp [hv]

/-- In a render pass a coordinate that is not pending is requested exactly when it is
missing in the pass, and is pending afterwards exactly in that case. -/
theorem render_requests_missing (r : TileRenderer) (cache : TileCache)
    (tiles : List TileDrawable) (requests : List TileIndex) (c : TileIndex)
    (hv : r.m_state.valid = true)
    (hg : getTiles r.m_config r.m_state r.m_cache = some (cache, tiles, requests))
    (hc : mapFind r.m_requests c = none) :
    ∃ r2 fx, r.render = some (r2, fx) ∧
      (Effect.requestTile c ∈ fx ↔ c ∈ requests) ∧
      ((mapFind r2.m_requests c).isSome = true ↔ c ∈ requests) := by
  obtain ⟨-, -, -, -, hpost⟩ := getState_requests r
  refine ⟨_, _, render_valid r cache tiles requests hv hg, ?_, ?_⟩
  · obtain ⟨-, h2⟩ := requestLoop_index requests c r.m_requests
    simp only [List.mem_append, h2, hc, and_true, List.mem_map]
    constructor
    · rintro ((h | h) | ⟨d, -, h⟩)
      · have := hpost _ h
        cases this
      · exact h
      · cases h
    · intro h
      exact Or.inl (Or.inr h)
  · obtain ⟨h1, -⟩ := requestLoop_index requests c r.m_requests
    simp only [h1, hc, Option.isSome_none, Bool.false_eq_true, false_or]

/-- The pending set after a tile response: the entry of the coordinate is erased. -/
theorem tileResponse_requests (r r2 : TileRenderer) (t : TileImage) (fx : List Effect)
    (h : r.tileResponse t = some (r2, fx)) :
    r2.m_requests = mapErase r.m_requests t.index := by
  by_cases hv : t.valid = true
  · simp only [tileResponse, hv, if_true] at h
    cases hins : r.m_cache.insert t.index t with
    | none => simp [hins] at h
    | some res =>
      obtain ⟨cache, log⟩ := res
      simp only [hins] at h
      by_cases h0 : r.m_render_requests = 0
      · simp only [h0, if_true, Option.some.injEq, Prod.mk.injEq] at h
        obtain ⟨rfl, -⟩ := h
        rfl
      · simp only [h0, if_false, Option.some.injEq, Prod.mk.injEq] at h
        obtain ⟨rfl, -⟩ := h
        rfl
  · have hf : t.valid = false := by simpa using hv
    rw [tileResponse_invalid r t hf] at h
    simp only [Option.some.injEq, Prod.mk.injEq] at h
    obtain ⟨rfl, -⟩ := h
    rfl

/-- A call leaves a coordinate out of the pending set unless it requests it. -/
theorem step_keeps_unrequested (r r1 : TileRenderer) (call : Call) (fx : List Effect)
    (c : TileIndex) (hs : r.step call = some (r1, fx))
    (hc : mapFind r.m_requests c = none) (hno : Effect.requestTile c ∉ fx) :
    mapFind r1.m_requests c = none := by
  cases call with
  | setState state =>
    simp only [step, setState, Option.some.injEq] at hs
    by_cases h0 : r.m_render_requests = 0
    · simp only [h0, if_true, Prod.mk.injEq] at hs
      obtain ⟨rfl, -⟩ := hs
      exact hc
    · simp only [h0, if_false, Prod.mk.injEq] at hs
      obtain ⟨rfl, -⟩ := hs
      exact hc
  | tileResponse tile =>
    simp only [step] at hs
    rw [tileResponse_requests r r1 tile fx hs, mapFind_mapErase]
    by_cases e : c = tile.index
    · simp [e]
    · simp [e, hc]
  | render =>
    simp only [step] at hs
    by_cases hv : r.m_state.valid = false
    · rw [render_invalid r hv] at hs
      simp only [Option.some.injEq, Prod.mk.injEq] at hs
      obtain ⟨rfl, -⟩ := hs
      rw [(getState_requests r).1]
      exact hc
    · have hv2 : r.m_state.valid = true := by simpa using hv
      cases hg : getTiles r.m_config r.m_state r.m_cache with
      | none =>
        exfalso
        obtain ⟨-, hcfg, hcache, hst, -⟩ := getState_requests r
        unfold render at hs
        simp [hst, hv2, hcfg, hcache, hg] at hs
      | some res =>
        obtain ⟨cache, tiles, requests⟩ := res
        obtain ⟨r2, fx2, hr, hreq, hpend⟩ :=
          render_requests_missing r cache tiles requests c hv2 hg hc
        rw [hr] at hs
        simp only [Option.some.injEq, Prod.mk.injEq] at hs
        obtain ⟨rfl, rfl⟩ := hs
        have hnot : c ∉ requests := fun h => hno (hreq.mpr h)
        cases hfind : mapFind r2.m_requests c with
        | none => rfl
        | some b =>
          exfalso
          apply hnot
          apply hpend.mp
          rw [hfind]
          rfl

/-- A coordinate stays out of the pending set along a run as long as the run does not
request it. -/
theorem run_keeps_unrequested (calls : List Call) (c : TileIndex) :
    ∀ (r r2 : TileRenderer) (trace : List TraceItem), r.run calls = some (r2, trace) →
      mapFind r.m_requests c = none →
      TraceItem.effect (Effect.requestTile c) ∉ trace →
      mapFind r2.m_requests c = none := by
  induction calls with
  | nil =>
    intro r r2 trace hr hc _
    simp only [run, Option.some.injEq, Prod.mk.injEq] at hr
    obtain ⟨rfl, -⟩ := hr
    exact hc
  | cons call calls ih =>
    intro r r2 trace hr hc hno
    simp only [run] at hr
    cases hs : r.step call with
    | none => simp [hs] at hr
    | some res =>
      obtain ⟨r1, fx⟩ := res
      simp only [hs] at hr
      cases hr2 : r1.run calls with
      | none => simp [hr2] at hr
      | some res2 =>
        obtain ⟨r3, trace2⟩ := res2
        simp only [hr2, Option.some.injEq, Prod.mk.injEq] at hr
        obtain ⟨rfl, rfl⟩ := hr
        have hfx : Effect.requestTile c ∉ fx := by
          intro h
          apply hno
          apply List.mem_cons_of_mem
          apply List.mem_append_left
          exact List.mem_map_of_mem TraceItem.effect h
        have htr : TraceItem.effect (Effect.requestTile c) ∉ trace2 := by
          intro h
          apply hno
          apply List.mem_cons_of_mem
          exact List.mem_append_right _ h
        exact ih r1 r3 trace2 hr2 (step_keeps_unrequested r r1 call fx c hs hc hfx) htr

end TileRenderer

/-! ## Zoom flags of the viewport state -/

namespace State

/-- What one `setZoom` call stores. -/
theorem setZoom_fields (s : State) (b : Int) :
    (s.setZoom b).m_zoom = b ∧
    (s.m_last_zoom = -1 → (s.setZoom b).m_last_zoom = b) ∧
    (s.m_last_zoom ≠ -1 → (s.setZoom b).m_last_zoom = s.m_zoom) := by
  unfold setZoom
  by_cases h : s.m_last_zoom = -1
  · simp [h]
  · simp [h]

/-- After a non-empty sequence of `setZoom` calls, none with the argument `-1`, the
stored zoom is the last argument and the stored previous zoom is no longer the initial
`-1`. -/
theorem foldl_setZoom_last (zoom0 : Int) (pre : List Int) (a : Int)
    (h : ∀ z ∈ pre ++ [a], z ≠ -1) :
    ((pre ++ [a]).foldl setZoom (new zoom0)).m_zoom = a ∧
    ((pre ++ [a]).foldl setZoom (new zoom0)).m_last_zoom ≠ -1 := by
  induction pre using List.reverseRecOn generalizing a with
  | nil =>
    have ha : a ≠ -1 := h a (by simp)
    have h1 := (setZoom_fields (new zoom0) a).2.1 rfl
    simp only [List.nil_append, List.foldl_cons, List.foldl_nil]
    refine ⟨(setZoom_fields _ a).1, ?_⟩
    rw [h1]
    exact ha
  | append_singleton pre p ih =>
    have hp : ∀ z ∈ pre ++ [p], z ≠ -1 := by
      intro z hz
      exact h z (List.mem_append_left _ hz)
    obtain ⟨hz, hl⟩ := ih p hp
    rw [List.foldl_append, List.foldl_cons, List.foldl_nil]
    refine ⟨(setZoom_fields _ a).1, ?_⟩
    rw [(setZoom_fields _ a).2.2 hl, hz]
    exact hp p (by simp)

/-- C17, the claim as stated fails: the constructor marks "no zoom set yet" by the
previous zoom `-1`, so after `setZoom(-1)` the call `setZoom(0)` is taken for a first
call, and `zoomedIn()` is false although `0 > -1`. -/
theorem setZoom_after_minus_one :
    (([-1, 0] : List Int).foldl setZoom (new 0)).zoomedIn = false ∧ (0 : Int) > -1 := by
  decide

/-- C17, amended: for every sequence of `setZoom` calls on a freshly constructed state
(whatever `m_zoom` held), none with the argument `-1`: after the first call neither
`zoomedIn()` nor `zoomedOut()` holds; after a later call `setZoom(b)` whose immediately
preceding call was `setZoom(a)`, `zoomedIn()` holds iff `b > a` and `zoomedOut()` holds
iff `b < a`. On every state the two flags never hold together, and `setBounds`,
`setMapSize` and `setValid` change neither flag. -/
theorem setZoom_flags (zoom0 : Int) (pre : List Int) (a b : Int)
    (h : ∀ z ∈ pre ++ [a, b], z ≠ -1) :
    (((new zoom0).setZoom a).zoomedIn = false ∧ ((new zoom0).setZoom a).zoomedOut = false) ∧
    ((((pre ++ [a, b]).foldl setZoom (new zoom0)).zoomedIn = true ↔ b > a) ∧
      (((pre ++ [a, b]).foldl setZoom (new zoom0)).zoomedOut = true ↔ b < a)) ∧
    (∀ s : State, ¬ (s.zoomedIn = true ∧ s.zoomedOut = true)) ∧
    (∀ (s : State) (bounds : QRect) (size : QSize),
      (s.setBounds bounds).zoomedIn = s.zoomedIn ∧
      (s.setBounds bounds).zoomedOut = s.zoomedOut ∧
      (s.setMapSize size).zoomedIn = s.zoomedIn ∧
      (s.setMapSize size).zoomedOut = s.zoomedOut ∧
      s.setValid.zoomedIn = s.zoomedIn ∧ s.setValid.zoomedOut = s.zoomedOut) := by
  refine ⟨?_, ?_, ?_, ?_⟩
  · have h1 := (setZoom_fields (new zoom0) a).1
    have h2 := (setZoom_fields (new zoom0) a).2.1 rfl
    simp [zoomedIn, zoomedOut, h1, h2]
  · have hpre : ∀ z ∈ pre ++ [a], z ≠ -1 := by
      intro z hz
      apply h z
      rcases List.mem_append.mp hz with hz | hz
      · exact List.mem_append_left _ hz
      · apply List.mem_append_right
        rw [List.mem_singleton.mp hz]
        simp
    obtain ⟨hz, hl⟩ := foldl_setZoom_last zoom0 pre a hpre
    have happ : pre ++ [a, b] = (pre ++ [a]) ++ [b] := by simp
    rw [happ, List.foldl_append, List.foldl_cons, List.foldl_nil]
    have h1 := (setZoom_fields ((pre ++ [a]).foldl setZoom (new zoom0)) b).1
    have h2 := (setZoom_fields ((pre ++ [a]).foldl setZoom (new zoom0)) b).2.2 hl
    rw [hz] at h2
    constructor
    · simp only [zoomedIn, decide_eq_true_eq, h1, h2]
    · simp only [zoomedOut, decide_eq_true_eq, h1, h2]
  · intro s hs
    simp only [zoomedIn, zoomedOut, decide_eq_true_eq] at hs
    omega
  · intro s bounds size
    exact ⟨rfl, rfl, rfl, rfl, rfl, rfl⟩

/-- C17, an instance of the amended claim: after `setZoom(3)`, `setZoom(5)`, `setZoom(7)`
the state reports zoomed-in and not zoomed-out. -/
theorem setZoom_flags_witness :
    (∀ z ∈ [3] ++ [5, 7], z ≠ (-1 : Int)) ∧
    ((([3] ++ [5, 7] : List Int).foldl setZoom (new 0)).zoomedIn = true ↔ (7 : Int) > 5) ∧
    ((([3] ++ [5, 7] : List Int).foldl setZoom (new 0)).zoomedOut = true ↔ (7 : Int) < 5) :=
  ⟨by decide, (setZoom_flags 0 [3] 5 7 (by decide)).2.1⟩

end State

/-! ## The grid rectangle of `getTiles` and the viewport -/

/-- The values that a `for (int v = a; v <= b; v++)` loop visits are those from `a` to
`b`. -/
theorem mem_loopRange (a b v : Int) :
    v ∈ (loopRange a b).map Prod.fst ↔ a ≤ v ∧ v ≤ b := by
  unfold loopRange
  rw [List.map_map, List.mem_map]
  constructor
  · rintro ⟨i, hi, rfl⟩
    simp at hi
    simp only [Function.comp_apply]
    omega
  · rintro ⟨h1, h2⟩
    refine ⟨v - a, ?_, ?_⟩
    · simp
      exact ⟨(v - a).toNat, by omega, by omega⟩
    · simp only [Function.comp_apply]
      omega

/-- The truncating division of C++ against the floor, for a positive divisor: they
differ, by one, exactly on a negative dividend that is not a multiple. -/
theorem tdiv_floor (a s : Int) (hs : 0 < s) :
    ((0 ≤ a ∨ s ∣ a) ∧ Int.tdiv a s = a / s) ∨
    ((a < 0 ∧ ¬ s ∣ a) ∧ Int.tdiv a s = a / s + 1) := by
  by_cases h0 : 0 ≤ a
  · exact Or.inl ⟨Or.inl h0, Int.tdiv_eq_ediv h0 (le_of_lt hs)⟩
  · by_cases hd : s ∣ a
    · exact Or.inl ⟨Or.inr hd, Int.tdiv_eq_ediv_of_dvd hd⟩
    · refine Or.inr ⟨⟨by omega, hd⟩, ?_⟩
      have hneg : Int.tdiv a s = -((-a) / s) := by
        have h1 : Int.tdiv (-(-a)) s = -(Int.tdiv (-a) s) := Int.neg_tdiv (-a) s
        rw [neg_neg] at h1
        rw [h1, Int.tdiv_eq_ediv (by omega) (le_of_lt hs)]
      have hq := Int.ediv_add_emod (-a) s
      have hr0 := Int.emod_nonneg (-a) (ne_of_gt hs)
      have hr1 := Int.emod_lt_of_pos (-a) hs
      have hrne : (-a) % s ≠ 0 := by
        intro h
        apply hd
        have := Int.dvd_of_emod_eq_zero h
        exact (Int.dvd_neg).mp this
      have hfloor : a / s = -((-a) / s) - 1 := by
        apply le_antisymm
        · have : a / s < -((-a) / s) := by
            rw [Int.ediv_lt_iff_lt_mul hs]
            have e : -(-a / s) * s = -(s * (-a / s)) := by ring
            rw [e]
            omega
          omega
        · rw [Int.le_ediv_iff_mul_le hs]
          have e : (-(-a / s) - 1) * s = -(s * (-a / s)) - s := by ring
          rw [e]
          omega
      rw [hneg, hfloor]
      ring

/-- The floor of a pixel below a negative multiple of the tile size lies below the floor
of the multiple. -/
theorem ediv_lt_of_lt_multiple (p a s : Int) (hs : 0 < s) (hd : s ∣ a) (hp : p < a) :
    p / s < a / s := by
  rw [Int.ediv_lt_iff_lt_mul hs, Int.ediv_mul_cancel hd]
  exact hp

/-- C19, the claim as stated fails: with tile size 256 and the bounds
`[0, 255] × [-1, 255]` the rows are enumerated from `-1 / 256 = 0` (the division of the
source truncates) to 0, and the row `floor(-1 / 256) = -1` of the pixel `(0, -1)` is
not among them. -/
theorem grid_rows_miss_negative_pixel :
    ((0 : Int) ≤ 0 ∧ (0 : Int) ≤ 255 ∧ (-1 : Int) ≤ -1 ∧ (-1 : Int) ≤ 255) ∧
    gridRows 256 ⟨0, -1, 255, 255⟩ = (0, 0) ∧
    (-1 : Int) / 256 ∉
      (loopRange (gridRows 256 ⟨0, -1, 255, 255⟩).1 (gridRows 256 ⟨0, -1, 255, 255⟩).2).map
        Prod.fst := by
  decide

/-- The right edge on a negative multiple of the tile size: with tile size 256 and the
bounds `[-300, -256] × [0, 255]` the columns are enumerated from `-2` to `-2`, and the
column `floor(-256 / 256) = -1` of the pixel `(-256, 0)` is not among them. -/
theorem grid_columns_right_multiple :
    gridColumns 256 ⟨-300, 0, -256, 255⟩ = (-2, -2) ∧
    (-256 : Int) / 256 ∉
      (loopRange (gridColumns 256 ⟨-300, 0, -256, 255⟩).1
        (gridColumns 256 ⟨-300, 0, -256, 255⟩).2).map Prod.fst := by
  decide

/-- C19, amended: for every tile size `s ≥ 1`, every bounds rectangle and every pixel
`(px, py)` in it: the column `floor(px / s)` is among the enumerated columns, unless the
right edge is a negative multiple of `s` and `px` is the right edge; the row
`floor(py / s)` is among the enumerated rows exactly when the top edge is not negative,
or is a multiple of `s`, or `py` lies below the row of the top edge (the rows are cut
by the truncating division, and rows above the map are never drawn). -/
theorem grid_covers_viewport (s : Int) (b : QRect) (px py : Int) (hs : 1 ≤ s)
    (hx : b.x1 ≤ px ∧ px ≤ b.x2) (hy : b.y1 ≤ py ∧ py ≤ b.y2) :
    ((0 ≤ b.x2 ∨ ¬ s ∣ b.x2 ∨ px ≠ b.x2) →
      px / s ∈ (loopRange (gridColumns s b).1 (gridColumns s b).2).map Prod.fst) ∧
    (py / s ∈ (loopRange (gridRows s b).1 (gridRows s b).2).map Prod.fst ↔
      (0 ≤ b.y1 ∨ s ∣ b.y1 ∨ py / s ≠ b.y1 / s)) := by
  have hs0 : 0 < s := by omega
  have hx1 := Int.ediv_le_ediv hs0 hx.1
  have hx2 := Int.ediv_le_ediv hs0 hx.2
  have hy1 := Int.ediv_le_ediv hs0 hy.1
  have hy2 := Int.ediv_le_ediv hs0 hy.2
  constructor
  · intro hcol
    rw [mem_loopRange]
    simp only [gridColumns]
    constructor
    · rcases tdiv_floor b.x1 s hs0 with ⟨-, e⟩ | ⟨⟨hneg, -⟩, e⟩
      · rw [e]
        split <;> omega
      · rw [e, if_pos hneg]
        omega
    · rcases tdiv_floor b.x2 s hs0 with ⟨hc, e⟩ | ⟨⟨hneg, -⟩, e⟩
      · rw [e]
        by_cases h0 : b.x2 < 0
        · rw [if_pos h0]
          have hd : s ∣ b.x2 := by
            rcases hc with hc | hc
            · omega
            · exact hc
          have hne : px ≠ b.x2 := by
            rcases hcol with h | h | h
            · omega
            · exact absurd hd h
            · exact h
          have := ediv_lt_of_lt_multiple px b.x2 s hs0 hd (by omega)
          omega
        · rw [if_neg h0]
          omega
      · rw [e, if_pos hneg]
        omega
  · rw [mem_loopRange]
    simp only [gridRows]
    rcases tdiv_floor b.y1 s hs0 with ⟨hc, e⟩ | ⟨⟨hneg, hnd⟩, e⟩
    · rw [e]
      constructor
      · intro _
        rcases hc with hc | hc
        · exact Or.inl hc
        · exact Or.inr (Or.inl hc)
      · intro _
        refine ⟨hy1, ?_⟩
        rcases tdiv_floor b.y2 s hs0 with ⟨-, e2⟩ | ⟨-, e2⟩ <;> rw [e2] <;> omega
    · rw [e]
      constructor
      · rintro ⟨h1, -⟩
        right
        right
        omega
      · intro h
        have hne : py / s ≠ b.y1 / s := by
          rcases h with h | h | h
          · omega
          · exact absurd h hnd
          · exact h
        refine ⟨by omega, ?_⟩
        rcases tdiv_floor b.y2 s hs0 with ⟨-, e2⟩ | ⟨-, e2⟩ <;> rw [e2] <;> omega

/-- C19, an instance of the amended claim: tile size 256, bounds `[-300, -256] × [-1, 255]`,
pixel `(-257, 0)`: column `-2` and row 0 are enumerated. -/
theorem grid_covers_viewport_witness :
    ((1 : Int) ≤ 256 ∧ ((-300 : Int) ≤ -257 ∧ (-257 : Int) ≤ -256) ∧
      ((-1 : Int) ≤ 0 ∧ (0 : Int) ≤ 255)) ∧
    (-257 : Int) / 256 ∈
      (loopRange (gridColumns 256 ⟨-300, -1, -256, 255⟩).1
        (gridColumns 256 ⟨-300, -1, -256, 255⟩).2).map Prod.fst ∧
    (0 : Int) / 256 ∈
      (loopRange (gridRows 256 ⟨-300, -1, -256, 255⟩).1
        (gridRows 256 ⟨-300, -1, -256, 255⟩).2).map Prod.fst :=
  ⟨by decide,
    (grid_covers_viewport 256 ⟨-300, -1, -256, 255⟩ (-257) 0 (by decide) (by decide)
      (by decide)).1 (Or.inr (Or.inr (by decide))),
    (grid_covers_viewport 256 ⟨-300, -1, -256, 255⟩ (-257) 0 (by decide) (by decide)
      (by decide)).2.mpr (Or.inr (Or.inr (by decide)))⟩

/-! ## The parent of a wrapped cell -/

/-- C20, the failing input: zoom 1 just after a zoom-in from 0, tile size 256, cache
holding only `(0, 0, 0)`, the parent of every coordinate of zoom 1. With the viewport
`[512, 767] × [0, 255]`, one turn east of the map, the cell of grid column 2 is wrapped
to column 0 and requests `(1, 0, 0)`, but it queries the parent `(0, 2 / 2, 0)`
`= (0, 1, 0)`, whose `x` is outside `[0, 1)`, misses, and draws nothing. With the
viewport `[0, 255] × [0, 255]` the cell of column 0 requests the same `(1, 0, 0)` and
draws its parent `(0, 0, 0)`. -/
theorem parent_fallback_wrapped_column :
    getTiles ⟨256, 4⟩ ⟨true, ⟨512, 0, 767, 255⟩, 1, 0, ⟨256, 256⟩⟩
        ⟨4, [⟨0, 0, 0⟩], [(⟨0, 0, 0⟩, ⟨7, ⟨0, 0, 0⟩, true⟩)]⟩
      = some (⟨4, [⟨0, 0, 0⟩], [(⟨0, 0, 0⟩, ⟨7, ⟨0, 0, 0⟩, true⟩)]⟩, [], [⟨1, 0, 0⟩]) ∧
    gridColumns 256 ⟨512, 0, 767, 255⟩ = (2, 2) ∧ wrapColumn 1 2 = some 0 ∧
    (⟨1 - 1, Int.tdiv 2 2, Int.tdiv 0 2⟩ : TileIndex) = ⟨0, 1, 0⟩ ∧
    (⟨1 - 1, (0 : Int) / 2, (0 : Int) / 2⟩ : TileIndex) = ⟨0, 0, 0⟩ ∧
    ∃ d,
      getTiles ⟨256, 4⟩ ⟨true, ⟨0, 0, 255, 255⟩, 1, 0, ⟨256, 256⟩⟩
          ⟨4, [⟨0, 0, 0⟩], [(⟨0, 0, 0⟩, ⟨7, ⟨0, 0, 0⟩, true⟩)]⟩
        = some (⟨4, [⟨0, 0, 0⟩], [(⟨0, 0, 0⟩, ⟨7, ⟨0, 0, 0⟩, true⟩)]⟩, [d], [⟨1, 0, 0⟩]) ∧
      d.image = ⟨7, ⟨0, 0, 0⟩, true⟩ := by
  refine ⟨rfl, by decide, by decide, by decide, by decide,
    mkDrawable ⟨1, 1⟩ (QVector2D.ofInt 0 0) ⟨1/2, 1/2⟩
      ⟨1/2 * ((0 : Int) : ℚ), 1/2 * ((0 : Int) : ℚ)⟩ ⟨7, ⟨0, 0, 0⟩, true⟩, rfl, rfl⟩

/-! ## The screen position of a cached tile -/

section Placement

/-- The pairs that a `for (int v = a; v <= b; v++)` loop visits: each value from `a` to
`b` with the counter `v - a`. -/
theorem mem_loopRange_pair (a b : Int) (p : Int × Int) :
    p ∈ loopRange a b ↔ a ≤ p.1 ∧ p.1 ≤ b ∧ p.2 = p.1 - a := by
  obtain ⟨v, i⟩ := p
  unfold loopRange
  rw [List.mem_map]
  constructor
  · rintro ⟨k, hk, hv⟩
    simp at hk
    obtain ⟨n, hn, rfl⟩ := hk
    simp only [Prod.mk.injEq] at hv
    obtain ⟨rfl, rfl⟩ := hv
    simp only
    omega
  · rintro ⟨h1, h2, h3⟩
    simp only at h1 h2 h3
    refine ⟨v - a, ?_, ?_⟩
    · simp
      exact ⟨(v - a).toNat, by omega, by omega⟩
    · simp only [Prod.mk.injEq]
      omega

/-- The horizontal offset of the cell of column `x`: the loop counter is `x - x1`, and
`xoffset + (x - x1) * size` is the distance of the cell from the left edge. -/
theorem gridXOffset_cell (s : Int) (b : QRect) (x : Int) :
    gridXOffset s b + (x - (gridColumns s b).1) * s = x * s - b.x1 := by
  have h := Int.tdiv_add_tmod b.x1 s
  unfold gridXOffset gridColumns
  by_cases h0 : b.x1 < 0
  · simp only [h0, if_true]
    linear_combination (-1 : Int) * h
  · simp only [h0, if_false]
    linear_combination (-1 : Int) * h

/-- The vertical offset of the cell of row `y`. -/
theorem gridYOffset_cell (s : Int) (b : QRect) (y : Int) :
    gridYOffset s b + (y - (gridRows s b).1) * s = y * s - b.y1 := by
  have h := Int.tdiv_add_tmod b.y1 s
  unfold gridYOffset gridRows
  simp only
  linear_combination (-1 : Int) * h

/-- The inner loop on a row inside the grid returns, keeps the cache contents and draws
every cached exact coordinate 1:1 at the offset of its counters. -/
theorem getTilesRow_hits (size : Int) (state : State) (pixels xoffset yoffset : Int)
    (y yy : Int) (hp : 0 < pixels) (hy0 : 0 ≤ y) (hy1 : y < pixels)
    (cols : List (Int × Int)) :
    ∀ cache : TileCache, ∃ cache2 tiles requests,
      getTilesRow size state pixels xoffset yoffset y yy cols cache
        = some (cache2, tiles, requests) ∧
      cache2.m_map = cache.m_map ∧
      ∀ x xx image, (x, xx) ∈ cols →
        mapFind cache.m_map ⟨state.zoom, x % pixels, y⟩ = some image →
        mkDrawable ⟨1, 1⟩ (QVector2D.ofInt (xoffset + xx * size) (yoffset + yy * size))
          ⟨1, 1⟩ ⟨0, 0⟩ image ∈ tiles := by
  induction cols with
  | nil =>
    intro cache
    exact ⟨cache, [], [], rfl, rfl, fun x xx image h => by cases h⟩
  | cons col cols ih =>
    intro cache
    obtain ⟨x0, xx0⟩ := col
    obtain ⟨c1, t1, r1, h1, hm1, -, hhit⟩ :=
      getTilesCell_exact size state pixels xoffset yoffset x0 y xx0 yy cache hp hy0 hy1
    obtain ⟨c2, t2, r2, h2, hm2, hrest⟩ := ih c1
    refine ⟨c2, t1 ++ t2, r1 ++ r2, by simp only [getTilesRow, h1, h2], by rw [hm2, hm1], ?_⟩
    intro x xx image hmem hfind
    rcases List.mem_cons.mp hmem with heq | hmem
    · simp only [Prod.mk.injEq] at heq
      obtain ⟨rfl, rfl⟩ := heq
      rw [(hhit image hfind).2.1]
      simp
    · apply List.mem_append_right
      apply hrest x xx image hmem
      rw [hm1]
      exact hfind

/-- The inner loop on any row returns and keeps the cache contents. -/
theorem getTilesRow_map (size : Int) (state : State) (pixels xoffset yoffset : Int)
    (y yy : Int) (hp : 0 < pixels) (cols : List (Int × Int)) :
    ∀ cache : TileCache, ∃ cache2 tiles requests,
      getTilesRow size state pixels xoffset yoffset y yy cols cache
        = some (cache2, tiles, requests) ∧
      cache2.m_map = cache.m_map := by
  by_cases hy : y < 0 ∨ pixels ≤ y
  · induction cols with
    | nil =>
      intro cache
      exact ⟨cache, [], [], rfl, rfl⟩
    | cons col cols ih =>
      intro cache
      obtain ⟨x0, xx0⟩ := col
      have h1 := getTilesCell_row_outside size state pixels xoffset yoffset x0 y xx0 yy cache
        hp hy
      obtain ⟨c2, t2, r2, h2, hm2⟩ := ih cache
      exact ⟨c2, [] ++ t2, [] ++ r2, by simp only [getTilesRow, h1, h2], hm2⟩
  · intro cache
    obtain ⟨c2, t2, r2, h2, hm2, -⟩ :=
      getTilesRow_hits size state pixels xoffset yoffset y yy hp (by omega) (by omega) cols
        cache
    exact ⟨c2, t2, r2, h2, hm2⟩

/-- The outer loop returns, keeps the cache contents and draws every cached exact
coordinate of a row inside the grid 1:1 at the offset of its counters. -/
theorem getTilesRows_hits (size : Int) (state : State) (pixels xoffset yoffset : Int)
    (hp : 0 < pixels) (cols rows : List (Int × Int)) :
    ∀ cache : TileCache, ∃ cache2 tiles requests,
      getTilesRows size state pixels xoffset yoffset cols rows cache
        = some (cache2, tiles, requests) ∧
      cache2.m_map = cache.m_map ∧
      ∀ x xx y yy image, (x, xx) ∈ cols → (y, yy) ∈ rows → 0 ≤ y → y < pixels →
        mapFind cache.m_map ⟨state.zoom, x % pixels, y⟩ = some image →
        mkDrawable ⟨1, 1⟩ (QVector2D.ofInt (xoffset + xx * size) (yoffset + yy * size))
          ⟨1, 1⟩ ⟨0, 0⟩ image ∈ tiles := by
  induction rows with
  | nil =>
    intro cache
    exact ⟨cache, [], [], rfl, rfl, fun x xx y yy image _ h => by cases h⟩
  | cons row rows ih =>
    intro cache
    obtain ⟨y0, yy0⟩ := row
    obtain ⟨c1, t1, r1, h1, hm1⟩ :=
      getTilesRow_map size state pixels xoffset yoffset y0 yy0 hp cols cache
    obtain ⟨c2, t2, r2, h2, hm2, hrest⟩ := ih c1
    refine ⟨c2, t1 ++ t2, r1 ++ r2, by simp only [getTilesRows, h1, h2], by rw [hm2, hm1], ?_⟩
    intro x xx y yy image hx hmem hy0 hy1 hfind
    rcases List.mem_cons.mp hmem with heq | hmem
    · simp only [Prod.mk.injEq] at heq
      obtain ⟨rfl, rfl⟩ := heq
      obtain ⟨c1b, t1b, r1b, h1b, -, hhit⟩ :=
        getTilesRow_hits size state pixels xoffset yoffset y yy hp hy0 hy1 cols cache
      rw [h1] at h1b
      simp only [Option.some.injEq, Prod.mk.injEq] at h1b
      obtain ⟨-, rfl, -⟩ := h1b
      exact List.mem_append_left _ (hhit x xx image hx hfind)
    · apply List.mem_append_right
      apply hrest x xx y yy image hx hmem hy0 hy1
      rw [hm1]
      exact hfind

/-- An `int` of magnitude up to `2^24` is converted to `float` exactly. -/
theorem floatOfInt_exact (v : Int) (h : v.natAbs ≤ 2 ^ 24) : floatOfInt v = v := by
  unfold floatOfInt
  rw [if_pos h]

/-- C21, the claim as stated fails: the components of a `QVector2D` are `float` values.
With the tile size `33554433 = 2^25 + 1`, zoom 1, the bounds `[0, 67108865] × [0, 100]`
and the cache holding `(1, 1, 0)`, the cell of column 1, row 0 is enumerated, its exact
coordinate is cached and no `int` overflows, but the drawable has the horizontal offset
`33554432`, the `float` nearest to `1 * 33554433 - 0`. -/
theorem cached_cell_offset_rounded :
    ((1 : Int) ≤ 33554433 ∧ gridColumns 33554433 ⟨0, 0, 67108865, 100⟩ = (0, 1) ∧
      gridRows 33554433 ⟨0, 0, 67108865, 100⟩ = (0, 0) ∧ pixelsOfZoom 1 = some 2) ∧
    ∃ cache2 d,
      getTiles ⟨33554433, 4⟩ ⟨true, ⟨0, 0, 67108865, 100⟩, 1, 1, ⟨67108866, 101⟩⟩
          ⟨4, [⟨1, 1, 0⟩], [(⟨1, 1, 0⟩, ⟨7, ⟨1, 1, 0⟩, true⟩)]⟩
        = some (cache2, [d], [⟨1, 0, 0⟩]) ∧
      d.image = ⟨7, ⟨1, 1, 0⟩, true⟩ ∧ d.offset = ⟨33554432, 0⟩ ∧
      d.offset.x ≠ ((1 * 33554433 - 0 : Int) : ℚ) := by
  refine ⟨⟨by decide, by decide, by decide, by decide⟩,
    ⟨4, [⟨1, 1, 0⟩], [(⟨1, 1, 0⟩, ⟨7, ⟨1, 1, 0⟩, true⟩)]⟩,
    mkDrawable ⟨1, 1⟩ (QVector2D.ofInt (0 + 1 * 33554433) (0 + 0 * 33554433)) ⟨1, 1⟩ ⟨0, 0⟩
      ⟨7, ⟨1, 1, 0⟩, true⟩, by rfl, rfl, ?_, ?_⟩
  · have h1 : floatOfInt (0 + 1 * 33554433) = 33554432 := by decide
    have h2 : floatOfInt (0 + 0 * 33554433) = 0 := by decide
    simp only [mkDrawable, QVector2D.ofInt, h1, h2]
    norm_num
  · have h1 : floatOfInt (0 + 1 * 33554433) = 33554432 := by decide
    simp only [mkDrawable, QVector2D.ofInt, h1]
    norm_num

/-- C21, amended: for every tile size `s ≥ 1`, every state (bounds of any sign) and
cache, and every grid cell `(x, y)` that `getTiles` enumerates, with `0 ≤ y < pixels`,
whose exact coordinate `(z, x mod pixels, y)` is cached and whose offsets
`x * s - left` and `y * s - top` have a magnitude of at most `2^24` (the integers that a
`float` holds exactly): the loops reach the cell with the counters `x - x1` and `y - y1`
and only with them; the cell pushes exactly one drawable and no request; the drawable
has geometry scale `(1, 1)`, texture scale `(1, 1)`, texture offset `(0, 0)`, the cached
image, and the offset exactly `(x * s - left, y * s - top)`; and `getTiles` returns with
this drawable in its list. -/
theorem cached_cell_drawn_in_place (config : Config) (state : State) (cache : TileCache)
    (pixels x y : Int) (image : TileImage)
    (hs : 1 ≤ config.tile_size) (hp : pixelsOfZoom state.zoom = some pixels)
    (hx : (gridColumns config.tile_size state.bounds).1 ≤ x ∧
      x ≤ (gridColumns config.tile_size state.bounds).2)
    (hy : (gridRows config.tile_size state.bounds).1 ≤ y ∧
      y ≤ (gridRows config.tile_size state.bounds).2)
    (hy0 : 0 ≤ y ∧ y < pixels)
    (hhit : mapFind cache.m_map ⟨state.zoom, x % pixels, y⟩ = some image)
    (hbx : (x * config.tile_size - state.bounds.x1).natAbs ≤ 2 ^ 24)
    (hby : (y * config.tile_size - state.bounds.y1).natAbs ≤ 2 ^ 24) :
    (∀ xx, (x, xx) ∈ loopRange (gridColumns config.tile_size state.bounds).1
        (gridColumns config.tile_size state.bounds).2 ↔
      xx = x - (gridColumns config.tile_size state.bounds).1) ∧
    (∀ yy, (y, yy) ∈ loopRange (gridRows config.tile_size state.bounds).1
        (gridRows config.tile_size state.bounds).2 ↔
      yy = y - (gridRows config.tile_size state.bounds).1) ∧
    (∀ c : TileCache, c.m_map = cache.m_map →
      getTilesCell config.tile_size state pixels
          (gridXOffset config.tile_size state.bounds) (gridYOffset config.tile_size state.bounds)
          x y (x - (gridColumns config.tile_size state.bounds).1)
          (y - (gridRows config.tile_size state.bounds).1) c
        = some ((c.query ⟨state.zoom, x % pixels, y⟩).1,
            [mkDrawable ⟨1, 1⟩
              (QVector2D.ofInt (x * config.tile_size - state.bounds.x1)
                (y * config.tile_size - state.bounds.y1)) ⟨1, 1⟩ ⟨0, 0⟩ image],
            [])) ∧
    (mkDrawable ⟨1, 1⟩
        (QVector2D.ofInt (x * config.tile_size - state.bounds.x1)
          (y * config.tile_size - state.bounds.y1)) ⟨1, 1⟩ ⟨0, 0⟩ image
      = { scale := ⟨1, 1⟩,
          offset := ⟨((x * config.tile_size - state.bounds.x1 : Int) : ℚ),
            ((y * config.tile_size - state.bounds.y1 : Int) : ℚ)⟩,
          tex_scale := ⟨1, 1⟩, tex_offset := ⟨0, 0⟩, image := image }) ∧
    ∃ cache2 tiles requests,
      getTiles config state cache = some (cache2, tiles, requests) ∧
      mkDrawable ⟨1, 1⟩
        (QVector2D.ofInt (x * config.tile_size - state.bounds.x1)
          (y * config.tile_size - state.bounds.y1)) ⟨1, 1⟩ ⟨0, 0⟩ image ∈ tiles := by
  have hpos : 0 < pixels := by omega
  have hsz : config.tile_size ≠ 0 := by omega
  have hcx : ∀ xx, (x, xx) ∈ loopRange (gridColumns config.tile_size state.bounds).1
        (gridColumns config.tile_size state.bounds).2 ↔
      xx = x - (gridColumns config.tile_size state.bounds).1 := by
    intro xx
    rw [mem_loopRange_pair]
    simp only
    constructor
    · rintro ⟨-, -, h⟩
      exact h
    · intro h
      exact ⟨hx.1, hx.2, h⟩
  have hcy : ∀ yy, (y, yy) ∈ loopRange (gridRows config.tile_size state.bounds).1
        (gridRows config.tile_size state.bounds).2 ↔
      yy = y - (gridRows config.tile_size state.bounds).1 := by
    intro yy
    rw [mem_loopRange_pair]
    simp only
    constructor
    · rintro ⟨-, -, h⟩
      exact h
    · intro h
      exact ⟨hy.1, hy.2, h⟩
  have hexact : mkDrawable ⟨1, 1⟩
        (QVector2D.ofInt (x * config.tile_size - state.bounds.x1)
          (y * config.tile_size - state.bounds.y1)) ⟨1, 1⟩ ⟨0, 0⟩ image
      = { scale := ⟨1, 1⟩,
          offset := ⟨((x * config.tile_size - state.bounds.x1 : Int) : ℚ),
            ((y * config.tile_size - state.bounds.y1 : Int) : ℚ)⟩,
          tex_scale := ⟨1, 1⟩, tex_offset := ⟨0, 0⟩, image := image } := by
    simp only [mkDrawable, QVector2D.ofInt, floatOfInt_exact _ hbx, floatOfInt_exact _ hby]
  refine ⟨hcx, hcy, ?_, hexact, ?_⟩
  · intro c hc
    obtain ⟨c2, t2, r2, h2, -, -, hh⟩ :=
      getTilesCell_exact config.tile_size state pixels
        (gridXOffset config.tile_size state.bounds) (gridYOffset config.tile_size state.bounds)
        x y (x - (gridColumns config.tile_size state.bounds).1)
        (y - (gridRows config.tile_size state.bounds).1) c hpos hy0.1 hy0.2
    rw [hc] at hh
    obtain ⟨hr, ht, hq⟩ := hh image hhit
    rw [h2, hr, ht, hq, gridXOffset_cell, gridYOffset_cell]
  · obtain ⟨c2, t2, r2, h2, -, hh⟩ :=
      getTilesRows_hits config.tile_size state pixels
        (gridXOffset config.tile_size state.bounds) (gridYOffset config.tile_size state.bounds)
        hpos
        (loopRange (gridColumns config.tile_size state.bounds).1
          (gridColumns config.tile_size state.bounds).2)
        (loopRange (gridRows config.tile_size state.bounds).1
          (gridRows config.tile_size state.bounds).2) cache
    refine ⟨c2, t2, r2, ?_, ?_⟩
    · unfold getTiles
      simp only [hp, hsz, if_false]
      exact h2
    · have := hh x (x - (gridColumns config.tile_size state.bounds).1) y
        (y - (gridRows config.tile_size state.bounds).1) image
        ((hcx _).mpr rfl) ((hcy _).mpr rfl) hy0.1 hy0.2 hhit
      rw [gridXOffset_cell, gridYOffset_cell] at this
      exact this

/-- C21, an instance of the amended claim: tile size 256, zoom 1, bounds with the corner
`(-300, -10)`; the cell of column `-1`, row 0 (wrapped coordinate `(1, 1, 0)`, cached) is
drawn at `(-256 + 300, 0 + 10) = (44, 10)`. -/
theorem cached_cell_drawn_in_place_witness :
    ((1 : Int) ≤ 256 ∧ pixelsOfZoom 1 = some 2 ∧
      mapFind [((⟨1, 1, 0⟩ : TileIndex), (⟨7, ⟨1, 1, 0⟩, true⟩ : TileImage))]
        ⟨1, (-1) % 2, 0⟩ = some ⟨7, ⟨1, 1, 0⟩, true⟩ ∧
      ((-1 : Int) * 256 - (-300)).natAbs ≤ 2 ^ 24 ∧ ((0 : Int) * 256 - (-10)).natAbs ≤ 2 ^ 24) ∧
    ∃ cache2 tiles requests,
      getTiles ⟨256, 4⟩ ⟨true, ⟨-300, -10, 100, 200⟩, 1, 1, ⟨401, 211⟩⟩
          ⟨4, [⟨1, 1, 0⟩], [(⟨1, 1, 0⟩, ⟨7, ⟨1, 1, 0⟩, true⟩)]⟩
        = some (cache2, tiles, requests) ∧
      mkDrawable ⟨1, 1⟩ (QVector2D.ofInt ((-1) * 256 - (-300)) (0 * 256 - (-10))) ⟨1, 1⟩ ⟨0, 0⟩
        ⟨7, ⟨1, 1, 0⟩, true⟩ ∈ tiles :=
  ⟨⟨by decide, by decide, by decide, by decide, by decide⟩,
    (cached_cell_drawn_in_place ⟨256, 4⟩ ⟨true, ⟨-300, -10, 100, 200⟩, 1, 1, ⟨401, 211⟩⟩
      ⟨4, [⟨1, 1, 0⟩], [(⟨1, 1, 0⟩, ⟨7, ⟨1, 1, 0⟩, true⟩)]⟩ 2 (-1) 0 ⟨7, ⟨1, 1, 0⟩, true⟩
      (by decide) (by decide) (by decide) (by decide) (by decide) (by decide) (by decide)
      (by decide)).2.2.2.2⟩

end Placement

/-! ## The render counter and the queued render requests -/

namespace RenderLoop

/-- The `deleteTile` signals of an insertion post no render request. -/
theorem postCount_deleted (log : List (TileIndex × TileImage)) :
    postCount (log.map (fun e => Effect.deleteTile e.2)) = 0 := by
  induction log with
  | nil => rfl
  | cons e log ih =>
    simp only [postCount, List.map_cons, List.filter_cons, Effect.isPostRender,
      Bool.false_eq_true, if_false] at ih ⊢
    exact ih

/-- What a tile response does to the render counter and how many render requests it
posts. -/
theorem tileResponse_counter (r r2 : TileRenderer) (t : TileImage) (fx : List Effect)
    (h : r.tileResponse t = some (r2, fx)) :
    (t.valid = true → r.m_render_requests = 0 →
      r2.m_render_requests = 1 ∧ postCount fx = 1) ∧
    (t.valid = false ∨ r.m_render_requests ≠ 0 →
      r2.m_render_requests = r.m_render_requests ∧ postCount fx = 0) := by
  by_cases hv : t.valid = true
  · simp only [TileRenderer.tileResponse, hv, if_true] at h
    cases hins : r.m_cache.insert t.index t with
    | none => simp [hins] at h
    | some res =>
      obtain ⟨cache, log⟩ := res
      simp only [hins] at h
      by_cases h0 : r.m_render_requests = 0
      · simp only [h0, if_true, Option.some.injEq, Prod.mk.injEq] at h
        obtain ⟨rfl, rfl⟩ := h
        refine ⟨fun _ _ => ⟨rfl, ?_⟩, ?_⟩
        · rw [postCount_append, postCount_deleted]
          rfl
        · rintro (h | h)
          · rw [hv] at h
            cases h
          · exact absurd h0 h
      · simp only [h0, if_false, Option.some.injEq, Prod.mk.injEq] at h
        obtain ⟨rfl, rfl⟩ := h
        refine ⟨fun _ h => absurd h h0, fun _ => ⟨rfl, postCount_deleted log⟩⟩
  · have hf : t.valid = false := by simpa using hv
    rw [TileRenderer.tileResponse_invalid r t hf] at h
    simp only [Option.some.injEq, Prod.mk.injEq] at h
    obtain ⟨rfl, rfl⟩ := h
    exact ⟨fun h => absurd h hv, fun _ => ⟨rfl, rfl⟩⟩

theorem scheduled_start (r : TileRenderer) (h : r.m_render_requests = 0) :
    Scheduled (start r) :=
  ⟨h, rfl, Nat.zero_le _⟩

/-- Every step keeps the invariant; a step other than a render pass does not take a
request from the queue, and a state update or a valid tile leaves one queued. -/
theorem scheduled_step (l l2 : RenderLoop) (call : Call) (hinv : Scheduled l)
    (hs : l.step call = some l2) :
    Scheduled l2 ∧ (call ≠ Call.renderPass → l.queue ≤ l2.queue) ∧
    ((∃ s, call = Call.setState s) ∨ (∃ t, call = Call.tileResponse t ∧ t.valid = true) →
      l2.queue = 1) := by
  obtain ⟨hc, hp, hb⟩ := hinv
  cases call with
  | setState s =>
    simp only [step, Option.some.injEq] at hs
    subst hs
    by_cases h0 : l.renderer.m_render_requests = 0
    · rw [setState_idle l s h0]
      have hq : l.queue = 0 := by omega
      refine ⟨⟨?_, ?_, ?_⟩, fun _ => ?_, fun _ => ?_⟩
      · simp [hq]
      · simp only
        omega
      · simp only
        omega
      · simp
      · simp [hq]
    · rw [setState_scheduled l s h0]
      refine ⟨⟨hc, hp, hb⟩, fun _ => le_refl _, fun _ => ?_⟩
      simp only
      omega
  | tileResponse t =>
    simp only [step, tileResponse] at hs
    cases hr : l.renderer.tileResponse t with
    | none => simp [hr] at hs
    | some res =>
      obtain ⟨r2, fx⟩ := res
      simp only [hr, Option.some.injEq] at hs
      subst hs
      obtain ⟨h1, h2⟩ := tileResponse_counter l.renderer r2 t fx hr
      by_cases hcase : t.valid = true ∧ l.renderer.m_render_requests = 0
      · obtain ⟨ha, hb2⟩ := h1 hcase.1 hcase.2
        have hq : l.queue = 0 := by omega
        refine ⟨⟨?_, ?_, ?_⟩, fun _ => ?_, fun _ => ?_⟩
        · simp [ha, hb2, hq]
        · simp only [hb2]
          omega
        · simp only [hb2]
          omega
        · simp
        · simp [hb2, hq]
      · have hor : t.valid = false ∨ l.renderer.m_render_requests ≠ 0 := by
          by_cases hv : t.valid = true
          · right
            exact fun h => hcase ⟨hv, h⟩
          · left
            simpa using hv
        obtain ⟨ha, hb2⟩ := h2 hor
        refine ⟨⟨?_, ?_, ?_⟩, fun _ => ?_, fun hm => ?_⟩
        · simp [ha, hb2, hc]
        · simp only [hb2]
          omega
        · simp only [hb2]
          omega
        · simp
        · simp only [hb2, add_zero]
          rcases hm with ⟨s, hs⟩ | ⟨t2, ht2, hv2⟩
          · cases hs
          · cases ht2
            rcases hor with hf | hn
            · rw [hv2] at hf
              cases hf
            · omega
  | renderPass =>
    simp only [step] at hs
    have hq : l.queue = 1 := by
      by_cases h0 : l.queue = 0
      · simp [renderPass, h0] at hs
      · omega
    obtain ⟨a, b, c, d, -⟩ := (renderPass_single l hq (by omega)).1 l2 hs
    refine ⟨⟨by omega, ?_, by omega⟩, fun h => absurd rfl h, fun hm => ?_⟩
    · rw [a, b, c, List.length_append]
      simp only [List.length_singleton]
      omega
    · rcases hm with ⟨s, hs2⟩ | ⟨t2, ht2, -⟩
      · cases hs2
      · cases ht2

/-- Every run keeps the invariant. -/
theorem scheduled_run (calls : List Call) :
    ∀ l l2 : RenderLoop, Scheduled l → l.run calls = some l2 → Scheduled l2 := by
  induction calls with
  | nil =>
    intro l l2 hinv hr
    simp only [run, Option.some.injEq] at hr
    subst hr
    exact hinv
  | cons call calls ih =>
    intro l l2 hinv hr
    simp only [run] at hr
    cases hs : l.step call with
    | none => simp [hs] at hr
    | some l1 =>
      simp only [hs] at hr
      exact ih l1 l2 (scheduled_step l l1 call hinv hs).1 hr

/-- A run splits at every point into two runs. -/
theorem run_append (pre post : List Call) :
    ∀ l l2 : RenderLoop, l.run (pre ++ post) = some l2 →
      ∃ lm, l.run pre = some lm ∧ lm.run post = some l2 := by
  induction pre with
  | nil =>
    intro l l2 hr
    exact ⟨l, rfl, hr⟩
  | cons call pre ih =>
    intro l l2 hr
    simp only [List.cons_append, run] at hr ⊢
    cases hs : l.step call with
    | none => simp [hs] at hr
    | some l1 =>
      simp only [hs] at hr ⊢
      exact ih l1 l2 hr

/-- A run without render pass takes no request from the queue, and leaves one queued
when it has a state update or a valid tile. -/
theorem run_updates_queued (post : List Call) :
    ∀ l l2 : RenderLoop, Scheduled l → l.run post = some l2 →
      (∀ c ∈ post, c ≠ Call.renderPass) →
      l.queue ≤ l2.queue ∧
      ((∃ c ∈ post, (∃ s, c = Call.setState s) ∨
          (∃ t, c = Call.tileResponse t ∧ t.valid = true)) → l2.queue = 1) := by
  induction post with
  | nil =>
    intro l l2 _ hr _
    simp only [run, Option.some.injEq] at hr
    subst hr
    refine ⟨le_refl _, ?_⟩
    rintro ⟨c, hc, -⟩
    cases hc
  | cons call post ih =>
    intro l l2 hinv hr hno
    simp only [run] at hr
    cases hs : l.step call with
    | none => simp [hs] at hr
    | some l1 =>
      simp only [hs] at hr
      obtain ⟨hinv1, hmono, hupd⟩ := scheduled_step l l1 call hinv hs
      obtain ⟨hle, hq⟩ := ih l1 l2 hinv1 hr (fun c hc => hno c (List.mem_cons_of_mem _ hc))
      have h1 := hmono (hno call (List.mem_cons_self _ _))
      have hb2 := (scheduled_run post l1 l2 hinv1 hr).bound
      refine ⟨le_trans h1 hle, ?_⟩
      rintro ⟨c, hc, hm⟩
      rcases List.mem_cons.mp hc with rfl | hc
      · have := hupd hm
        omega
      · exact hq ⟨c, hc, hm⟩

/-- C22: in every state that the scheduling state machine reaches from a constructed
renderer by `setState` calls, `tileResponse` calls and starts of render passes, the
render counter equals the number of render requests queued, that is, posted and not
yet started, and this number is at most 1; and whenever, since the last start of a
render pass, the stored state has been replaced or a valid tile inserted, one render
request is queued. -/
theorem render_counter_invariant (config : Config) (zoom0 : Int) (calls : List Call)
    (l : RenderLoop)
    (h : (start (TileRenderer.new config zoom0)).run calls = some l) :
    l.renderer.m_render_requests = l.queue ∧
    l.queue + l.reads.length = l.posted ∧
    l.queue ≤ 1 ∧
    ∀ pre post, calls = pre ++ post → (∀ c ∈ post, c ≠ Call.renderPass) →
      (∃ c ∈ post, (∃ s, c = Call.setState s) ∨
        (∃ t, c = Call.tileResponse t ∧ t.valid = true)) →
      l.queue = 1 := by
  have h0 : Scheduled (start (TileRenderer.new config zoom0)) := scheduled_start _ rfl
  obtain ⟨hc, hp, hb⟩ := scheduled_run calls _ l h0 h
  refine ⟨hc, hp.symm, hb, ?_⟩
  intro pre post hsplit hno hupd
  subst hsplit
  obtain ⟨lm, hpre, hpost⟩ := run_append pre post _ l h
  exact (run_updates_queued post lm l (scheduled_run pre _ lm h0 hpre) hpost hno).2 hupd

/-- C22, an instance: a state update, the pass it schedules, a valid tile and two more
state updates; one render request is queued at the end, two were posted in all. -/
theorem render_counter_invariant_witness :
    ∃ l, (start (TileRenderer.new ⟨256, 2⟩ 0)).run
        [Call.setState (State.new 10), Call.renderPass,
          Call.tileResponse ⟨1, ⟨0, 0, 0⟩, true⟩,
          Call.setState ((State.new 10).setZoom 3),
          Call.setState ((State.new 10).setZoom 4)] = some l ∧
      l.renderer.m_render_requests = 1 ∧ l.queue = 1 ∧ l.posted = 2 ∧ l.reads.length = 1 := by
  have hrun : ((start (TileRenderer.new ⟨256, 2⟩ 0)).run
        [Call.setState (State.new 10), Call.renderPass,
          Call.tileResponse ⟨1, ⟨0, 0, 0⟩, true⟩,
          Call.setState ((State.new 10).setZoom 3),
          Call.setState ((State.new 10).setZoom 4)]).isSome = true := by
    rfl
  obtain ⟨l, hl⟩ := Option.isSome_iff_exists.mp hrun
  obtain ⟨h1, h2, -, h4⟩ := render_counter_invariant ⟨256, 2⟩ 0 _ l hl
  have hq : l.queue = 1 :=
    h4 [Call.setState (State.new 10), Call.renderPass]
      [Call.tileResponse ⟨1, ⟨0, 0, 0⟩, true⟩,
        Call.setState ((State.new 10).setZoom 3),
        Call.setState ((State.new 10).setZoom 4)] rfl (by decide)
      ⟨_, List.mem_cons_self _ _, Or.inr ⟨_, rfl, rfl⟩⟩
  have hreads : l.reads.length = 1 := by
    have : (((start (TileRenderer.new ⟨256, 2⟩ 0)).run
        [Call.setState (State.new 10), Call.renderPass,
          Call.tileResponse ⟨1, ⟨0, 0, 0⟩, true⟩,
          Call.setState ((State.new 10).setZoom 3),
          Call.setState ((State.new 10).setZoom 4)]).map
          (fun l => l.reads.length)) = some 1 := by
      rfl
    rw [hl] at this
    exact Option.some.inj this
  exact ⟨l, hl, by omega, hq, by omega, hreads⟩

end RenderLoop

/-! ## The combined state machine: ownership of the tile images -/

section MapCounts

variable {K V : Type} [DecidableEq K]

theorem count_keys_eq_zero (m : List (K × V)) (c : K) :
    (m.map Prod.fst).count c = 0 ↔ mapFind m c = none := by
  rw [mapFind_eq_none_iff, List.count_eq_zero]

theorem count_keys_pos (m : List (K × V)) (c : K) (v : V) (h : mapFind m c = some v) :
    0 < (m.map Prod.fst).count c := by
  rcases Nat.eq_zero_or_pos ((m.map Prod.fst).count c) with h0 | h0
  · rw [(count_keys_eq_zero m c).mp h0] at h
    cases h
  · exact h0

theorem count_keys_mapErase (m : List (K × V)) (a c : K) :
    ((mapErase m a).map Prod.fst).count c
      = if c = a then 0 else (m.map Prod.fst).count c := by
  by_cases h : c = a
  · rw [if_pos h, count_keys_eq_zero, mapFind_mapErase, if_pos h]
  · rw [if_neg h, map_fst_mapErase]
    exact List.count_filter (by simpa using h)

theorem count_keys_mapInsert (m : List (K × V)) (key c : K) (value : V)
    (h : mapFind m key = none) :
    ((mapInsert m key value).map Prod.fst).count c
      = (m.map Prod.fst).count c + if c = key then 1 else 0 := by
  rw [mapInsert_of_none m key value h, List.map_append, List.count_append]
  by_cases hc : c = key
  · subst hc
    simp
  · simp [hc, Ne.symm hc]

theorem count_values_mapErase_le [DecidableEq V] (m : List (K × V)) (a : K) (c : V) :
    ((mapErase m a).map Prod.snd).count c ≤ (m.map Prod.snd).count c := by
  unfold mapErase
  exact List.Sublist.count_le (List.Sublist.map _ (List.filter_sublist m)) c

theorem count_values_mapErase_lt [DecidableEq V] (m : List (K × V)) (a : K) (c : V)
    (h : mapFind m a = some c) :
    ((mapErase m a).map Prod.snd).count c + 1 ≤ (m.map Prod.snd).count c := by
  induction m with
  | nil => cases h
  | cons e m ih =>
    obtain ⟨b, v⟩ := e
    by_cases hb : b = a
    · subst hb
      simp only [mapFind, if_true, Option.some.injEq] at h
      subst h
      have hle := count_values_mapErase_le m b v
      have he : mapErase ((b, v) :: m) b = mapErase m b := by
        simp [mapErase]
      rw [he]
      simp only [List.map_cons, List.count_cons_self]
      omega
    · simp only [mapFind, hb, if_false] at h
      have ih2 := ih h
      have he : mapErase ((b, v) :: m) a = (b, v) :: mapErase m a := by
        simp [mapErase, hb]
      rw [he]
      simp only [List.map_cons, List.count_cons]
      omega

theorem count_values_mapSet [DecidableEq V] (m : List (K × V)) (a : K) (c0 c : V)
    (h : mapFind m a = none) :
    ((mapSet m a c0).map Prod.snd).count c
      = (m.map Prod.snd).count c + if c = c0 then 1 else 0 := by
  unfold mapSet
  rw [h]
  simp only [List.map_append, List.count_append, List.map_cons, List.map_nil]
  by_cases hc : c = c0
  · subst hc
    simp
  · simp [hc, Ne.symm hc]

end MapCounts

section Posts

/-- An effect of the renderer posts nothing but render requests to its own mailbox. -/
theorem toRenderer_response (fx : List Effect) :
    (fx.filterMap Effect.toRenderer).filterMap RendererMsg.response = [] := by
  induction fx with
  | nil => rfl
  | cons e fx ih =>
    cases e <;> simp [Effect.toRenderer, RendererMsg.response, ih]

theorem responseTile_mem_posts (rq : List RendererMsg) (fx : List Effect) (t : TileImage) :
    RendererMsg.responseTile t ∈ rq ++ fx.filterMap Effect.toRenderer ↔
      RendererMsg.responseTile t ∈ rq := by
  constructor
  · intro h
    rcases List.mem_append.mp h with h | h
    · exact h
    · exfalso
      have hm : t ∈ (fx.filterMap Effect.toRenderer).filterMap RendererMsg.response :=
        List.mem_filterMap.mpr ⟨_, h, rfl⟩
      rw [toRenderer_response] at hm
      cases hm
  · intro h
    exact List.mem_append_left _ h

/-- The effects of `getState` post nothing to the fetcher. -/
theorem toFetcher_postRender (fx : List Effect) (h : ∀ e ∈ fx, e = Effect.postRender) :
    fx.filterMap Effect.toFetcher = [] := by
  induction fx with
  | nil => rfl
  | cons e fx ih =>
    have he := h e (List.mem_cons_self _ _)
    subst he
    simp only [List.filterMap_cons, Effect.toFetcher]
    exact ih (fun e2 h2 => h e2 (List.mem_cons_of_mem _ h2))

theorem toFetcher_draw (tiles : List TileDrawable) :
    (tiles.map Effect.draw).filterMap Effect.toFetcher = [] := by
  induction tiles with
  | nil => rfl
  | cons t ts ih =>
    simp only [List.map_cons, List.filterMap_cons, Effect.toFetcher]
    exact ih

theorem toFetcher_requestTile (l : List TileIndex) :
    (l.map Effect.requestTile).filterMap Effect.toFetcher = l.map FetcherMsg.tileRequest := by
  induction l with
  | nil => rfl
  | cons c l ih =>
    simp only [List.map_cons, List.filterMap_cons, Effect.toFetcher, ih]

end Posts

section Missing

/-- A cell that is defined keeps the cache contents and requests only coordinates that
the cache does not hold. -/
theorem getTilesCell_sound (size : Int) (state : State) (pixels xoffset yoffset : Int)
    (x y xx yy : Int) (cache cache2 : TileCache) (tiles : List TileDrawable)
    (requests : List TileIndex)
    (h : getTilesCell size state pixels xoffset yoffset x y xx yy cache
      = some (cache2, tiles, requests)) :
    cache2.m_map = cache.m_map ∧ ∀ i ∈ requests, mapFind cache.m_map i = none := by
  by_cases hin : 0 ≤ y ∧ y < pixels
  · have hp : 0 < pixels := by omega
    obtain ⟨c2, t2, r2, heq, hmap, hmiss, hhit⟩ :=
      getTilesCell_exact size state pixels xoffset yoffset x y xx yy cache hp hin.1 hin.2
    rw [heq] at h
    simp only [Option.some.injEq, Prod.mk.injEq] at h
    obtain ⟨rfl, rfl, rfl⟩ := h
    refine ⟨hmap, ?_⟩
    intro i hi
    cases hfind : mapFind cache.m_map ⟨state.zoom, x % pixels, y⟩ with
    | some image =>
      rw [(hhit image hfind).1] at hi
      cases hi
    | none =>
      rw [hmiss hfind, List.mem_singleton] at hi
      rw [hi]
      exact hfind
  · unfold getTilesCell at h
    cases hw : wrapX pixels x with
    | none => simp [hw] at h
    | some wx =>
      have hn : ¬ (y ≥ 0 ∧ y < pixels) := hin
      simp only [hw, hn, if_false, Option.some.injEq, Prod.mk.injEq] at h
      obtain ⟨rfl, -, rfl⟩ := h
      exact ⟨rfl, fun i hi => by cases hi⟩

theorem getTilesRow_sound (size : Int) (state : State) (pixels xoffset yoffset : Int)
    (y yy : Int) (cols : List (Int × Int)) :
    ∀ (cache cache2 : TileCache) (tiles : List TileDrawable) (requests : List TileIndex),
      getTilesRow size state pixels xoffset yoffset y yy cols cache
        = some (cache2, tiles, requests) →
      cache2.m_map = cache.m_map ∧ ∀ i ∈ requests, mapFind cache.m_map i = none := by
  induction cols with
  | nil =>
    intro cache cache2 tiles requests h
    simp only [getTilesRow, Option.some.injEq, Prod.mk.injEq] at h
    obtain ⟨rfl, -, rfl⟩ := h
    exact ⟨rfl, fun i hi => by cases hi⟩
  | cons col cols ih =>
    intro cache cache2 tiles requests h
    obtain ⟨x, xx⟩ := col
    simp only [getTilesRow] at h
    cases h1 : getTilesCell size state pixels xoffset yoffset x y xx yy cache with
    | none => simp [h1] at h
    | some res1 =>
      obtain ⟨c1, t1, r1⟩ := res1
      simp only [h1] at h
      cases h2 : getTilesRow size state pixels xoffset yoffset y yy cols c1 with
      | none => simp [h2] at h
      | some res2 =>
        obtain ⟨c2, t2, r2⟩ := res2
        simp only [h2, Option.some.injEq, Prod.mk.injEq] at h
        obtain ⟨rfl, -, rfl⟩ := h
        obtain ⟨hm1, hr1⟩ := getTilesCell_sound _ _ _ _ _ _ _ _ _ _ _ _ _ h1
        obtain ⟨hm2, hr2⟩ := ih c1 _ _ _ h2
        refine ⟨by rw [hm2, hm1], ?_⟩
        intro i hi
        rcases List.mem_append.mp hi with hi | hi
        · exact hr1 i hi
        · rw [← hm1]
          exact hr2 i hi

theorem getTilesRows_sound (size : Int) (state : State) (pixels xoffset yoffset : Int)
    (cols rows : List (Int × Int)) :
    ∀ (cache cache2 : TileCache) (tiles : List TileDrawable) (requests : List TileIndex),
      getTilesRows size state pixels xoffset yoffset cols rows cache
        = some (cache2, tiles, requests) →
      cache2.m_map = cache.m_map ∧ ∀ i ∈ requests, mapFind cache.m_map i = none := by
  induction rows with
  | nil =>
    intro cache cache2 tiles requests h
    simp only [getTilesRows, Option.some.injEq, Prod.mk.injEq] at h
    obtain ⟨rfl, -, rfl⟩ := h
    exact ⟨rfl, fun i hi => by cases hi⟩
  | cons row rows ih =>
    intro cache cache2 tiles requests h
    obtain ⟨y, yy⟩ := row
    simp only [getTilesRows] at h
    cases h1 : getTilesRow size state pixels xoffset yoffset y yy cols cache with
    | none => simp [h1] at h
    | some res1 =>
      obtain ⟨c1, t1, r1⟩ := res1
      simp only [h1] at h
      cases h2 : getTilesRows size state pixels xoffset yoffset cols rows c1 with
      | none => simp [h2] at h
      | some res2 =>
        obtain ⟨c2, t2, r2⟩ := res2
        simp only [h2, Option.some.injEq, Prod.mk.injEq] at h
        obtain ⟨rfl, -, rfl⟩ := h
        obtain ⟨hm1, hr1⟩ := getTilesRow_sound _ _ _ _ _ _ _ _ _ _ _ _ h1
        obtain ⟨hm2, hr2⟩ := ih c1 _ _ _ h2
        refine ⟨by rw [hm2, hm1], ?_⟩
        intro i hi
        rcases List.mem_append.mp hi with hi | hi
        · exact hr1 i hi
        · rw [← hm1]
          exact hr2 i hi

/-- When `getTiles` returns, the cache holds what it held and none of the requested
coordinates. -/
theorem getTiles_sound (config : Config) (state : State) (cache cache2 : TileCache)
    (tiles : List TileDrawable) (requests : List TileIndex)
    (h : getTiles config state cache = some (cache2, tiles, requests)) :
    cache2.m_map = cache.m_map ∧ ∀ i ∈ requests, mapFind cache.m_map i = none := by
  unfold getTiles at h
  cases hp : pixelsOfZoom state.zoom with
  | none => simp [hp] at h
  | some pixels =>
    by_cases hs : config.tile_size = 0
    · simp [hp, hs] at h
    · simp only [hp, hs, if_false] at h
      exact getTilesRows_sound _ _ _ _ _ _ _ _ _ _ _ h

end Missing

namespace LRUCache

variable {K V : Type} [DecidableEq K]

/-- An insertion under a key that the cache does not hold either adds the slot or first
evicts the slot of the key at the front of the recency list. -/
theorem insert_absent (c c2 : LRUCache K V) (key : K) (value : V) (log : List (K × V))
    (hk : mapFind c.m_map key = none) (h : c.insert key value = some (c2, log)) :
    (log = [] ∧ c2.m_map = mapInsert c.m_map key value) ∨
    (∃ front old, log = [(front, old)] ∧ mapFind c.m_map front = some old ∧
      c2.m_map = mapInsert (mapErase c.m_map front) key value) := by
  unfold insert at h
  simp only [hk] at h
  by_cases hfull : c.m_list.length = c.m_size
  · simp only [hfull, if_true] at h
    cases hl : c.m_list with
    | nil => simp [hl] at h
    | cons front rest =>
      simp only [hl] at h
      cases hf : mapFind c.m_map front with
      | none => simp [hf] at h
      | some old =>
        simp only [hf, Option.some.injEq, Prod.mk.injEq] at h
        obtain ⟨rfl, rfl⟩ := h
        exact Or.inr ⟨front, old, rfl, hf, rfl⟩
  · simp only [hfull, if_false, Option.some.injEq, Prod.mk.injEq] at h
    obtain ⟨rfl, rfl⟩ := h
    exact Or.inl ⟨rfl, rfl⟩

end LRUCache

namespace TileRenderer

/-- The coordinates for which the request loop of `render()` emits `requestTile`: each
at most once, none of them pending before. -/
theorem requestLoop_emitted (requests : List TileIndex) :
    ∀ m : List (TileIndex × Bool), ∃ emitted : List TileIndex,
      (requestLoop m requests).2 = emitted.map Effect.requestTile ∧ emitted.Nodup ∧
      ∀ c ∈ emitted, c ∈ requests ∧ mapFind m c = none := by
  induction requests with
  | nil =>
    intro m
    exact ⟨[], rfl, List.nodup_nil, fun c hc => by cases hc⟩
  | cons i rest ih =>
    intro m
    cases hfind : mapFind m i with
    | some b =>
      obtain ⟨emitted, h1, h2, h3⟩ := ih m
      refine ⟨emitted, ?_, h2, fun c hc => ⟨List.mem_cons_of_mem _ (h3 c hc).1, (h3 c hc).2⟩⟩
      simp only [requestLoop, hfind]
      exact h1
    | none =>
      obtain ⟨emitted, h1, h2, h3⟩ := ih (mapInsert m i true)
      have hfacts : ∀ c ∈ emitted, c ≠ i ∧ mapFind m c = none := by
        intro c hc
        have hn := (h3 c hc).2
        rw [mapFind_mapInsert m i c true hfind] at hn
        by_cases hci : c = i
        · simp [hci] at hn
        · simp only [hci, if_false] at hn
          exact ⟨hci, hn⟩
      refine ⟨i :: emitted, ?_, ?_, ?_⟩
      · simp only [requestLoop, hfind, List.map_cons]
        rw [← h1]
      · refine List.nodup_cons.mpr ⟨?_, h2⟩
        intro hi
        exact (hfacts i hi).1 rfl
      · intro c hc
        rcases List.mem_cons.mp hc with rfl | hc
        · exact ⟨List.mem_cons_self _ _, hfind⟩
        · exact ⟨List.mem_cons_of_mem _ (h3 c hc).1, (hfacts c hc).2⟩

/-- What a render pass sends to the fetcher: `tileRequest` for coordinates, each at most
once, that were not pending and that the cache does not hold; they are pending
afterwards, as is what was pending. The cache holds what it held. -/
theorem render_posts (r r2 : TileRenderer) (fx : List Effect)
    (h : r.render = some (r2, fx)) :
    r2.m_cache.m_map = r.m_cache.m_map ∧
    ∃ emitted : List TileIndex,
      fx.filterMap Effect.toFetcher = emitted.map FetcherMsg.tileRequest ∧
      emitted.Nodup ∧
      (∀ c ∈ emitted, mapFind r.m_requests c = none ∧ mapFind r.m_cache.m_map c = none ∧
        (mapFind r2.m_requests c).isSome = true) ∧
      ∀ c, (mapFind r.m_requests c).isSome = true → (mapFind r2.m_requests c).isSome = true := by
  obtain ⟨hm, hcfg, hcache, hst, hfx⟩ := getState_requests r
  by_cases hv : r.m_state.valid = false
  · rw [render_invalid r hv] at h
    simp only [Option.some.injEq, Prod.mk.injEq] at h
    obtain ⟨rfl, rfl⟩ := h
    refine ⟨by rw [hcache], [], toFetcher_postRender _ hfx, List.nodup_nil,
      (fun c hc => by cases hc), ?_⟩
    intro c hc
    rw [hm]
    exact hc
  · have hv2 : r.m_state.valid = true := by simpa using hv
    cases hg : getTiles r.m_config r.m_state r.m_cache with
    | none =>
      exfalso
      unfold render at h
      simp [hst, hv2, hcfg, hcache, hg] at h
    | some res =>
      obtain ⟨cache, tiles, requests⟩ := res
      rw [render_valid r cache tiles requests hv2 hg] at h
      simp only [Option.some.injEq, Prod.mk.injEq] at h
      obtain ⟨rfl, rfl⟩ := h
      obtain ⟨hmap, hmiss⟩ := getTiles_sound _ _ _ _ _ _ hg
      obtain ⟨emitted, he1, he2, he3⟩ := requestLoop_emitted requests r.m_requests
      refine ⟨hmap, emitted, ?_, he2, ?_, ?_⟩
      · rw [List.filterMap_append, List.filterMap_append, toFetcher_postRender _ hfx,
          toFetcher_draw, he1, toFetcher_requestTile]
        simp
      · intro c hc
        obtain ⟨hreq, hnone⟩ := he3 c hc
        refine ⟨hnone, hmiss c hreq, ?_⟩
        exact ((requestLoop_index requests c r.m_requests).1).mpr (Or.inr hreq)
      · intro c hc
        exact ((requestLoop_index requests c r.m_requests).1).mpr (Or.inl hc)

/-- What the response of a valid image does when the cache does not hold its
coordinate: the pending entry is erased, the image is inserted, and `deleteTile` is sent
for the image of the evicted slot, if any. -/
theorem tileResponse_posts (r r2 : TileRenderer) (t : TileImage) (fx : List Effect)
    (hv : t.valid = true) (hk : mapFind r.m_cache.m_map t.index = none)
    (h : r.tileResponse t = some (r2, fx)) :
    r2.m_requests = mapErase r.m_requests t.index ∧
    ((fx.filterMap Effect.toFetcher = [] ∧
        r2.m_cache.m_map = mapInsert r.m_cache.m_map t.index t) ∨
      (∃ front old, fx.filterMap Effect.toFetcher = [FetcherMsg.deleteTile old] ∧
        mapFind r.m_cache.m_map front = some old ∧
        r2.m_cache.m_map = mapInsert (mapErase r.m_cache.m_map front) t.index t)) := by
  refine ⟨tileResponse_requests r r2 t fx h, ?_⟩
  simp only [tileResponse, hv, if_true] at h
  cases hins : r.m_cache.insert t.index t with
  | none => simp [hins] at h
  | some res =>
    obtain ⟨cache, log⟩ := res
    simp only [hins] at h
    have hcases := LRUCache.insert_absent r.m_cache cache t.index t log hk hins
    have hfx : fx.filterMap Effect.toFetcher
        = (log.map (fun e => Effect.deleteTile e.2)).filterMap Effect.toFetcher ∧
        r2.m_cache = cache := by
      by_cases h0 : r.m_render_requests = 0
      · simp only [h0, if_true, Option.some.injEq, Prod.mk.injEq] at h
        obtain ⟨rfl, rfl⟩ := h
        refine ⟨?_, rfl⟩
        rw [List.filterMap_append]
        simp [Effect.toFetcher]
      · simp only [h0, if_false, Option.some.injEq, Prod.mk.injEq] at h
        obtain ⟨rfl, rfl⟩ := h
        exact ⟨rfl, rfl⟩
    obtain ⟨hf, hc⟩ := hfx
    rcases hcases with ⟨hlog, hmap⟩ | ⟨front, old, hlog, hfind, hmap⟩
    · left
      rw [hf, hc, hlog]
      exact ⟨rfl, hmap⟩
    · right
      refine ⟨front, old, ?_, hfind, ?_⟩
      · rw [hf, hlog]
        rfl
      · rw [hc]
        exact hmap

end TileRenderer

section OwnedSteps

theorem filterMap_requested_map (l : List TileIndex) :
    (l.map FetcherMsg.tileRequest).filterMap FetcherMsg.requested = l := by
  induction l with
  | nil => rfl
  | cons c l ih => simp only [List.map_cons, List.filterMap_cons, FetcherMsg.requested, ih]

theorem filterMap_deleted_map (l : List TileIndex) :
    (l.map FetcherMsg.tileRequest).filterMap FetcherMsg.deleted = [] := by
  induction l with
  | nil => rfl
  | cons c l ih => simp only [List.map_cons, List.filterMap_cons, FetcherMsg.deleted, ih]

theorem count_le_one_of_nodup {α : Type} [DecidableEq α] (l : List α) (h : l.Nodup) (a : α) :
    l.count a ≤ 1 :=
  List.nodup_iff_count_le_one.mp h a

theorem count_eq_zero_of_not_mem {α : Type} [DecidableEq α] (l : List α) (a : α)
    (h : a ∉ l) : l.count a = 0 :=
  List.count_eq_zero.mpr h

variable {cache : List (TileIndex × TileImage)} {pend : List (TileIndex × Bool)}
  {images : List (TileIndex × TileImage)} {replies : List (Nat × TileIndex)}
  {fq : List FetcherMsg} {responses : List TileImage} {allocated : List Nat}
  {destroyed : List TileImage}

/-- A render pass keeps the invariant: the requests it queues are for coordinates that
were in no stage. -/
theorem owned_request (h : Owned cache pend images replies fq responses allocated destroyed)
    (pend2 : List (TileIndex × Bool)) (emitted : List TileIndex) (hnd : emitted.Nodup)
    (hnew : ∀ c ∈ emitted, mapFind pend c = none ∧ mapFind cache c = none ∧
      (mapFind pend2 c).isSome = true)
    (hkeep : ∀ c, (mapFind pend c).isSome = true → (mapFind pend2 c).isSome = true) :
    Owned cache pend2 images replies (fq ++ emitted.map FetcherMsg.tileRequest) responses
      allocated destroyed := by
  have hreq : (fq ++ emitted.map FetcherMsg.tileRequest).filterMap FetcherMsg.requested
      = fq.filterMap FetcherMsg.requested ++ emitted := by
    rw [List.filterMap_append, filterMap_requested_map]
  have hdel : (fq ++ emitted.map FetcherMsg.tileRequest).filterMap FetcherMsg.deleted
      = fq.filterMap FetcherMsg.deleted := by
    rw [List.filterMap_append, filterMap_deleted_map, List.append_nil]
  have hzero : ∀ c ∈ emitted, (fq.filterMap FetcherMsg.requested).count c
      + (replies.map Prod.snd).count c + (responses.map TileImage.index).count c
      + (cache.map Prod.fst).count c = 0 := by
    intro c hc
    obtain ⟨hp, hk, -⟩ := hnew c hc
    have h1 : ¬ 0 < (fq.filterMap FetcherMsg.requested).count c
        + (replies.map Prod.snd).count c + (responses.map TileImage.index).count c := by
      intro hpos
      have := h.pending c hpos
      rw [hp] at this
      cases this
    have h2 := (count_keys_eq_zero cache c).mpr hk
    omega
  refine ⟨h.cache_reg, ?_, h.rsp_reg, ?_, ?_, ?_, ?_, h.destroyed_nodup, h.destroyed_ids,
    h.registered_live⟩
  · rw [hdel]
    exact h.del_reg
  · intro c hpos
    rw [hreq, List.count_append] at hpos
    by_cases hc : c ∈ emitted
    · exact (hnew c hc).2.2
    · have := count_eq_zero_of_not_mem emitted c hc
      exact hkeep c (h.pending c (by omega))
  · intro c
    rw [hreq, List.count_append]
    by_cases hc : c ∈ emitted
    · have := hzero c hc
      have := count_le_one_of_nodup emitted hnd c
      omega
    · have := count_eq_zero_of_not_mem emitted c hc
      have := h.holders c
      omega
  · intro c
    rw [hdel]
    exact h.deleters c
  · rw [List.pairwise_append]
    refine ⟨h.order, ?_, ?_⟩
    · rw [List.pairwise_map]
      exact List.pairwise_of_forall (fun _ _ => fun c t _ hb => by cases hb)
    · intro a _ b hb c t _ hbt
      obtain ⟨i, -, rfl⟩ := List.mem_map.mp hb
      cases hbt

theorem count_index_pos (l : List TileImage) (t : TileImage) (h : t ∈ l) :
    0 < (l.map TileImage.index).count t.index :=
  List.count_pos_iff.mpr (List.mem_map_of_mem _ h)

theorem count_cons_index (t : TileImage) (l : List TileImage) (c : TileIndex) :
    ((t :: l).map TileImage.index).count c
      = (l.map TileImage.index).count c + if c = t.index then 1 else 0 := by
  by_cases h : c = t.index
  · subst h
    simp
  · simp [h, List.count_cons_of_ne h]

/-- A handled `tileResponse` call leaves the invariant: the coordinate is no longer
pending, and it is in no stage. -/
theorem owned_response_drop (t : TileImage)
    (h : Owned cache pend images replies fq (t :: responses) allocated destroyed) :
    Owned cache (mapErase pend t.index) images replies fq responses allocated destroyed ∧
    (fq.filterMap FetcherMsg.requested).count t.index
      + (replies.map Prod.snd).count t.index + (responses.map TileImage.index).count t.index
      + (cache.map Prod.fst).count t.index = 0 ∧
    ((fq.filterMap FetcherMsg.deleted).map TileImage.index).count t.index = 0 := by
  have hh := h.holders t.index
  have hd := h.deleters t.index
  rw [count_cons_index, if_pos rfl] at hh hd
  refine ⟨⟨h.cache_reg, h.del_reg, ?_, ?_, ?_, ?_, h.order, h.destroyed_nodup,
    h.destroyed_ids, h.registered_live⟩, by omega, by omega⟩
  · intro t2 ht2 hv
    exact h.rsp_reg t2 (List.mem_cons_of_mem _ ht2) hv
  · intro c hpos
    by_cases hc : c = t.index
    · subst hc
      omega
    · rw [mapFind_mapErase, if_neg hc]
      apply h.pending c
      rw [count_cons_index, if_neg hc]
      omega
  · intro c
    have := h.holders c
    rw [count_cons_index] at this
    split at this <;> omega
  · intro c
    have := h.deleters c
    rw [count_cons_index] at this
    split at this <;> omega

/-- The eviction of a cache slot keeps the invariant: its image goes to a queued
`deleteTile` call. -/
theorem owned_evict (front : TileIndex) (old : TileImage)
    (h : Owned cache pend images replies fq responses allocated destroyed)
    (hf : mapFind cache front = some old) :
    Owned (mapErase cache front) pend images replies (fq ++ [FetcherMsg.deleteTile old])
      responses allocated destroyed := by
  obtain ⟨hidx, hval, hreg⟩ := h.cache_reg front old hf
  have hkey := count_keys_pos cache front old hf
  have hreq : (fq ++ [FetcherMsg.deleteTile old]).filterMap FetcherMsg.requested
      = fq.filterMap FetcherMsg.requested := by
    rw [List.filterMap_append]
    simp [FetcherMsg.requested]
  have hdel : (fq ++ [FetcherMsg.deleteTile old]).filterMap FetcherMsg.deleted
      = fq.filterMap FetcherMsg.deleted ++ [old] := by
    rw [List.filterMap_append]
    simp [FetcherMsg.deleted]
  have hkeys : ∀ c, ((mapErase cache front).map Prod.fst).count c ≤ (cache.map Prod.fst).count c := by
    intro c
    rw [count_keys_mapErase]
    split <;> omega
  refine ⟨?_, ?_, h.rsp_reg, ?_, ?_, ?_, ?_, h.destroyed_nodup, h.destroyed_ids,
    h.registered_live⟩
  · intro k t hk
    rw [mapFind_mapErase] at hk
    by_cases hkf : k = front
    · simp [hkf] at hk
    · rw [if_neg hkf] at hk
      exact h.cache_reg k t hk
  · intro t ht
    rw [hdel] at ht
    rcases List.mem_append.mp ht with ht | ht
    · exact h.del_reg t ht
    · rw [List.mem_singleton] at ht
      subst ht
      rw [hidx]
      exact ⟨hval, hreg⟩
  · intro c hpos
    rw [hreq] at hpos
    exact h.pending c hpos
  · intro c
    rw [hreq]
    have := h.holders c
    have := hkeys c
    omega
  · intro c
    rw [hdel, List.map_append, List.count_append]
    have hdc := h.deleters c
    rw [count_keys_mapErase]
    by_cases hc : c = front
    · subst hc
      simp only [if_true, List.map_cons, List.map_nil]
      have : ([old.index] : List TileIndex).count c ≤ 1 := by
        rw [List.count_singleton]
        split <;> omega
      omega
    · rw [if_neg hc]
      have : ([old].map TileImage.index).count c = 0 := by
        simp only [List.map_cons, List.map_nil]
        rw [List.count_singleton]
        have : ¬ (old.index == c) = true := by
          rw [hidx]
          simpa using Ne.symm hc
        simp [this]
      omega
  · rw [List.pairwise_append]
    refine ⟨h.order, List.pairwise_singleton _ _, ?_⟩
    intro a ha b hb c t hac hbt
    rw [List.mem_singleton] at hb
    subst hb
    cases hbt
    subst hac
    rw [hidx]
    intro hfc
    subst hfc
    have hmem : front ∈ fq.filterMap FetcherMsg.requested :=
      List.mem_filterMap.mpr ⟨_, ha, rfl⟩
    have := List.count_pos_iff.mpr hmem
    have := h.holders front
    omega

/-- The insertion of a registered valid image under a coordinate that is in no stage
keeps the invariant. -/
theorem owned_add (t : TileImage)
    (h : Owned cache pend images replies fq responses allocated destroyed)
    (hv : t.valid = true) (hreg : mapFind images t.index = some t)
    (hfree : (fq.filterMap FetcherMsg.requested).count t.index
      + (replies.map Prod.snd).count t.index + (responses.map TileImage.index).count t.index
      + (cache.map Prod.fst).count t.index = 0)
    (hnodel : ((fq.filterMap FetcherMsg.deleted).map TileImage.index).count t.index = 0) :
    Owned (mapInsert cache t.index t) pend images replies fq responses allocated destroyed := by
  have hnone : mapFind cache t.index = none := (count_keys_eq_zero cache t.index).mp (by omega)
  refine ⟨?_, h.del_reg, h.rsp_reg, h.pending, ?_, ?_, h.order, h.destroyed_nodup,
    h.destroyed_ids, h.registered_live⟩
  · intro k t2 hk
    rw [mapFind_mapInsert cache t.index k t hnone] at hk
    by_cases hkc : k = t.index
    · rw [if_pos hkc, Option.some.injEq] at hk
      subst hk
      rw [hkc]
      exact ⟨rfl, hv, hreg⟩
    · rw [if_neg hkc] at hk
      exact h.cache_reg k t2 hk
  · intro c
    rw [count_keys_mapInsert cache t.index c t hnone]
    by_cases hc : c = t.index
    · subst hc
      simp only [if_true]
      omega
    · rw [if_neg hc]
      exact h.holders c
  · intro c
    rw [count_keys_mapInsert cache t.index c t hnone]
    by_cases hc : c = t.index
    · subst hc
      simp only [if_true]
      omega
    · rw [if_neg hc]
      exact h.deleters c

/-- A handled `tileRequest` call keeps the invariant: the coordinate goes from the
stage request queued to the stage transfer in flight. -/
theorem owned_tileRequest (c : TileIndex) (reply : Nat)
    (h : Owned cache pend images replies (FetcherMsg.tileRequest c :: fq) responses
      allocated destroyed)
    (hr : mapFind replies reply = none) :
    Owned cache pend images (mapSet replies reply c) fq responses allocated destroyed := by
  have hreq : ∀ k, ((FetcherMsg.tileRequest c :: fq).filterMap FetcherMsg.requested).count k
      = (fq.filterMap FetcherMsg.requested).count k + if k = c then 1 else 0 := by
    intro k
    simp only [List.filterMap_cons, FetcherMsg.requested]
    by_cases hk : k = c
    · subst hk
      simp
    · simp [hk, List.count_cons_of_ne hk]
  have hdel : (FetcherMsg.tileRequest c :: fq).filterMap FetcherMsg.deleted
      = fq.filterMap FetcherMsg.deleted := by
    simp only [List.filterMap_cons, FetcherMsg.deleted]
  have hord := List.pairwise_cons.mp h.order
  have hnodel : ((fq.filterMap FetcherMsg.deleted).map TileImage.index).count c = 0 := by
    apply List.count_eq_zero.mpr
    intro hmem
    obtain ⟨t, ht, hidx⟩ := List.mem_map.mp hmem
    obtain ⟨b, hb, hbt⟩ := List.mem_filterMap.mp ht
    cases b with
    | tileRequest i => cases hbt
    | deleteTile t2 =>
      simp only [FetcherMsg.deleted, Option.some.injEq] at hbt
      subst hbt
      exact hord.1 _ hb c t2 rfl rfl hidx
  refine ⟨h.cache_reg, ?_, h.rsp_reg, ?_, ?_, ?_, hord.2, h.destroyed_nodup,
    h.destroyed_ids, h.registered_live⟩
  · intro t ht
    apply h.del_reg t
    rw [hdel]
    exact ht
  · intro k hpos
    apply h.pending k
    rw [hreq]
    rw [count_values_mapSet replies reply c k hr] at hpos
    omega
  · intro k
    have := h.holders k
    rw [hreq] at this
    rw [count_values_mapSet replies reply c k hr]
    omega
  · intro k
    have hd := h.deleters k
    rw [hdel] at hd
    rw [count_values_mapSet replies reply c k hr]
    by_cases hk : k = c
    · subst hk
      have hh := h.holders k
      rw [hreq, if_pos rfl] at hh
      rw [if_pos rfl]
      omega
    · rw [if_neg hk]
      omega

/-- A handled `deleteTile` call keeps the invariant: the image was registered, and it
is unregistered and destroyed. -/
theorem owned_deleteTile (t : TileImage)
    (h : Owned cache pend images replies (FetcherMsg.deleteTile t :: fq) responses
      allocated destroyed) :
    Owned cache pend (mapErase images t.index) replies fq responses allocated
      (destroyed ++ [t]) := by
  have hreq : (FetcherMsg.deleteTile t :: fq).filterMap FetcherMsg.requested
      = fq.filterMap FetcherMsg.requested := by
    simp only [List.filterMap_cons, FetcherMsg.requested]
  have hdel : (FetcherMsg.deleteTile t :: fq).filterMap FetcherMsg.deleted
      = t :: fq.filterMap FetcherMsg.deleted := by
    simp only [List.filterMap_cons, FetcherMsg.deleted]
  have hreg := (h.del_reg t (by rw [hdel]; exact List.mem_cons_self _ _)).2
  obtain ⟨hid, hnd⟩ := h.registered_live t hreg
  have hdc := h.deleters t.index
  rw [hdel, count_cons_index, if_pos rfl] at hdc
  have hord := List.pairwise_cons.mp h.order
  refine ⟨?_, ?_, ?_, ?_, ?_, ?_, hord.2, ?_, ?_, ?_⟩
  · intro k t2 hk
    obtain ⟨h1, h2, h3⟩ := h.cache_reg k t2 hk
    have hpos := count_keys_pos cache k t2 hk
    have hne : k ≠ t.index := by
      intro e
      rw [e] at hpos
      omega
    refine ⟨h1, h2, ?_⟩
    rw [mapFind_mapErase, if_neg hne]
    exact h3
  · intro t2 ht2
    obtain ⟨h1, h2⟩ := h.del_reg t2 (by rw [hdel]; exact List.mem_cons_of_mem _ ht2)
    have hpos := count_index_pos _ t2 ht2
    have hne : t2.index ≠ t.index := by
      intro e
      rw [e] at hpos
      omega
    refine ⟨h1, ?_⟩
    rw [mapFind_mapErase, if_neg hne]
    exact h2
  · intro t2 ht2 hv
    have h2 := h.rsp_reg t2 ht2 hv
    have hpos := count_index_pos _ t2 ht2
    have hne : t2.index ≠ t.index := by
      intro e
      rw [e] at hpos
      omega
    rw [mapFind_mapErase, if_neg hne]
    exact h2
  · intro c hpos
    apply h.pending c
    rw [hreq]
    exact hpos
  · intro c
    have := h.holders c
    rw [hreq] at this
    exact this
  · intro c
    have := h.deleters c
    rw [hdel, count_cons_index] at this
    omega
  · rw [List.nodup_append]
    refine ⟨h.destroyed_nodup, List.nodup_singleton _, ?_⟩
    intro a ha hb
    rw [List.mem_singleton] at hb
    subst hb
    exact hnd ha
  · intro d hd
    rcases List.mem_append.mp hd with hd | hd
    · exact h.destroyed_ids d hd
    · rw [List.mem_singleton] at hd
      subst hd
      exact hid
  · intro t2 h2
    rw [mapFind_mapErase] at h2
    by_cases hne : t2.index = t.index
    · rw [if_pos hne] at h2
      cases h2
    · rw [if_neg hne] at h2
      obtain ⟨ha, hb⟩ := h.registered_live t2 h2
      refine ⟨ha, ?_⟩
      intro hmem
      rcases List.mem_append.mp hmem with hmem | hmem
      · exact hb hmem
      · rw [List.mem_singleton] at hmem
        subst hmem
        exact hne rfl

/-- A transfer that finishes with an error keeps the invariant: the coordinate goes from
the stage transfer in flight to the stage response queued, with an invalid image. -/
theorem owned_load_error (reply : Nat) (t : TileImage)
    (h : Owned cache pend images replies fq responses allocated destroyed)
    (hr : mapFind replies reply = some t.index) (hv : t.valid = false) :
    Owned cache pend images (mapErase replies reply) fq (responses ++ [t])
      (allocated ++ [t.id]) destroyed := by
  have hle := fun k => count_values_mapErase_le replies reply k
  have hlt := count_values_mapErase_lt replies reply t.index hr
  have hrsp : ∀ k, ((responses ++ [t]).map TileImage.index).count k
      = (responses.map TileImage.index).count k + if k = t.index then 1 else 0 := by
    intro k
    rw [List.map_append, List.count_append]
    by_cases hk : k = t.index
    · subst hk
      simp
    · simp [hk, List.count_cons_of_ne hk]
  refine ⟨h.cache_reg, h.del_reg, ?_, ?_, ?_, ?_, h.order, h.destroyed_nodup, ?_, ?_⟩
  · intro t2 ht2 hv2
    rcases List.mem_append.mp ht2 with ht2 | ht2
    · exact h.rsp_reg t2 ht2 hv2
    · rw [List.mem_singleton] at ht2
      subst ht2
      rw [hv] at hv2
      cases hv2
  · intro k hpos
    apply h.pending k
    rw [hrsp] at hpos
    have := hle k
    by_cases hk : k = t.index
    · subst hk
      omega
    · rw [if_neg hk] at hpos
      omega
  · intro k
    rw [hrsp]
    have := h.holders k
    have := hle k
    by_cases hk : k = t.index
    · subst hk
      rw [if_pos rfl]
      omega
    · rw [if_neg hk]
      omega
  · intro k
    rw [hrsp]
    have := h.deleters k
    have := hle k
    by_cases hk : k = t.index
    · subst hk
      rw [if_pos rfl]
      omega
    · rw [if_neg hk]
      omega
  · intro d hd
    exact List.mem_append_left _ (h.destroyed_ids d hd)
  · intro t2 h2
    obtain ⟨ha, hb⟩ := h.registered_live t2 h2
    exact ⟨List.mem_append_left _ ha, hb⟩

/-- A transfer that finishes with success keeps the invariant: the coordinate goes from
the stage transfer in flight to the stage response queued, with a new, registered,
valid image. -/
theorem owned_load_ok (reply : Nat) (t : TileImage)
    (h : Owned cache pend images replies fq responses allocated destroyed)
    (hr : mapFind replies reply = some t.index) (hv : t.valid = true)
    (hfresh : t.id ∉ allocated) :
    Owned cache pend (mapSet images t.index t) (mapErase replies reply) fq (responses ++ [t])
      (allocated ++ [t.id]) destroyed := by
  have hle := fun k => count_values_mapErase_le replies reply k
  have hlt := count_values_mapErase_lt replies reply t.index hr
  have hhc := h.holders t.index
  have hdc := h.deleters t.index
  have hrsp : ∀ k, ((responses ++ [t]).map TileImage.index).count k
      = (responses.map TileImage.index).count k + if k = t.index then 1 else 0 := by
    intro k
    rw [List.map_append, List.count_append]
    by_cases hk : k = t.index
    · subst hk
      simp
    · simp [hk, List.count_cons_of_ne hk]
  refine ⟨?_, ?_, ?_, ?_, ?_, ?_, h.order, h.destroyed_nodup, ?_, ?_⟩
  · intro k t2 hk
    obtain ⟨h1, h2, h3⟩ := h.cache_reg k t2 hk
    have hpos := count_keys_pos cache k t2 hk
    have hne : k ≠ t.index := by
      intro e
      rw [e] at hpos
      omega
    refine ⟨h1, h2, ?_⟩
    rw [mapFind_mapSet, if_neg hne]
    exact h3
  · intro t2 ht2
    obtain ⟨h1, h2⟩ := h.del_reg t2 ht2
    have hpos := count_index_pos _ t2 ht2
    have hne : t2.index ≠ t.index := by
      intro e
      rw [e] at hpos
      omega
    refine ⟨h1, ?_⟩
    rw [mapFind_mapSet, if_neg hne]
    exact h2
  · intro t2 ht2 hv2
    rcases List.mem_append.mp ht2 with ht2 | ht2
    · have h2 := h.rsp_reg t2 ht2 hv2
      have hpos := count_index_pos _ t2 ht2
      have hne : t2.index ≠ t.index := by
        intro e
        rw [e] at hpos
        omega
      rw [mapFind_mapSet, if_neg hne]
      exact h2
    · rw [List.mem_singleton] at ht2
      subst ht2
      rw [mapFind_mapSet, if_pos rfl]
  · intro k hpos
    apply h.pending k
    rw [hrsp] at hpos
    have := hle k
    by_cases hk : k = t.index
    · subst hk
      omega
    · rw [if_neg hk] at hpos
      omega
  · intro k
    rw [hrsp]
    have := h.holders k
    have := hle k
    by_cases hk : k = t.index
    · subst hk
      rw [if_pos rfl]
      omega
    · rw [if_neg hk]
      omega
  · intro k
    rw [hrsp]
    have := h.deleters k
    have := hle k
    by_cases hk : k = t.index
    · subst hk
      rw [if_pos rfl]
      omega
    · rw [if_neg hk]
      omega
  · intro d hd
    exact List.mem_append_left _ (h.destroyed_ids d hd)
  · intro t2 h2
    rw [mapFind_mapSet] at h2
    by_cases hne : t2.index = t.index
    · rw [if_pos hne, Option.some.injEq] at h2
      subst h2
      refine ⟨List.mem_append_right _ (List.mem_singleton.mpr rfl), ?_⟩
      intro hmem
      exact hfresh (h.destroyed_ids _ hmem)
    · rw [if_neg hne] at h2
      obtain ⟨ha, hb⟩ := h.registered_live t2 h2
      exact ⟨List.mem_append_left _ ha, hb⟩

end OwnedSteps

namespace System

theorem inv_start (config : Config) (zoom0 : Int) : (start config zoom0).Inv := by
  unfold Inv start
  refine ⟨?_, ?_, ?_, ?_, ?_, ?_, ?_, ?_, ?_, ?_⟩
  · intro k t h
    cases h
  · intro t h
    cases h
  · intro t h
    cases h
  · intro c h
    simp [TileFetcher.new] at h
  · intro c
    simp [TileRenderer.new, TileFetcher.new, LRUCache.new]
  · intro c
    simp [TileRenderer.new, TileFetcher.new, LRUCache.new]
  · exact List.Pairwise.nil
  · exact List.nodup_nil
  · intro d h
    cases h
  · intro t h
    cases h

/-- A `setState` call keeps the invariant. -/
theorem inv_setState (s s2 : System) (state : State) (hinv : s.Inv)
    (hs : s.step (Step.setState state) = some s2) : s2.Inv := by
  simp only [step, Option.some.injEq] at hs
  subst hs
  unfold Inv at hinv ⊢
  have h1 : (s.renderer.setState state).1.m_cache = s.renderer.m_cache ∧
      (s.renderer.setState state).1.m_requests = s.renderer.m_requests := by
    unfold TileRenderer.setState
    split <;> exact ⟨rfl, rfl⟩
  simp only [List.filterMap_append, toRenderer_response, List.append_nil, h1.1, h1.2]
  exact hinv

/-- The handling of a queued `tileResponse` call keeps the invariant. -/
theorem inv_tileResponse (s s2 : System) (t : TileImage) (rest : List RendererMsg)
    (hinv : s.Inv) (hrq : s.rq = RendererMsg.responseTile t :: rest)
    (hs : s.step Step.rendererNext = some s2) : s2.Inv := by
  simp only [step, hrq] at hs
  cases htr : s.renderer.tileResponse t with
  | none => simp [htr] at hs
  | some res =>
    obtain ⟨r, fx⟩ := res
    simp only [htr, Option.some.injEq] at hs
    subst hs
    unfold Inv at hinv ⊢
    simp only [hrq, List.filterMap_cons, RendererMsg.response] at hinv
    simp only [List.filterMap_append, toRenderer_response, List.append_nil]
    obtain ⟨hdrop, hfree, hnodel⟩ := owned_response_drop t hinv
    by_cases hv : t.valid = true
    · have hreg := hinv.rsp_reg t (List.mem_cons_self _ _) hv
      have hk : mapFind s.renderer.m_cache.m_map t.index = none :=
        (count_keys_eq_zero _ _).mp (by omega)
      obtain ⟨hreq, hposts⟩ := TileRenderer.tileResponse_posts s.renderer r t fx hv hk htr
      rw [hreq]
      rcases hposts with ⟨hfx, hmap⟩ | ⟨front, old, hfx, hfront, hmap⟩
      · rw [hfx, hmap, List.append_nil]
        exact owned_add t hdrop hv hreg hfree hnodel
      · rw [hfx, hmap]
        have hev := owned_evict front old hdrop hfront
        have hfpos := count_keys_pos _ front old hfront
        have hne : t.index ≠ front := by
          intro e
          rw [e] at hfree
          omega
        have hoidx := (hinv.cache_reg front old hfront).1
        apply owned_add t hev hv hreg
        · rw [List.filterMap_append, count_keys_mapErase, if_neg hne]
          simp only [List.filterMap_cons, FetcherMsg.requested, List.filterMap_nil,
            List.append_nil]
          exact hfree
        · rw [List.filterMap_append, List.map_append, List.count_append, hnodel]
          simp only [List.filterMap_cons, FetcherMsg.deleted, List.filterMap_nil,
            List.map_cons, List.map_nil, zero_add]
          apply List.count_eq_zero.mpr
          intro hmem
          rw [List.mem_singleton] at hmem
          rw [hoidx] at hmem
          exact hne hmem
    · have hf : t.valid = false := by simpa using hv
      rw [TileRenderer.tileResponse_invalid s.renderer t hf] at htr
      simp only [Option.some.injEq, Prod.mk.injEq] at htr
      obtain ⟨rfl, rfl⟩ := htr
      simp only [List.filterMap_nil, List.append_nil]
      exact hdrop

/-- The handling of a queued render request keeps the invariant. -/
theorem inv_render (s s2 : System) (rest : List RendererMsg)
    (hinv : s.Inv) (hrq : s.rq = RendererMsg.renderRequest :: rest)
    (hs : s.step Step.rendererNext = some s2) : s2.Inv := by
  simp only [step, hrq] at hs
  cases htr : s.renderer.render with
  | none => simp [htr] at hs
  | some res =>
    obtain ⟨r, fx⟩ := res
    simp only [htr, Option.some.injEq] at hs
    subst hs
    unfold Inv at hinv ⊢
    simp only [hrq, List.filterMap_cons, RendererMsg.response] at hinv
    simp only [List.filterMap_append, toRenderer_response, List.append_nil]
    obtain ⟨hmap, emitted, hfx, hnd, hnew, hkeep⟩ := TileRenderer.render_posts s.renderer r fx htr
    rw [hmap, hfx]
    exact owned_request hinv r.m_requests emitted hnd hnew hkeep

/-- The handling of a queued `tileRequest` call keeps the invariant. -/
theorem inv_tileRequest (s s2 : System) (c : TileIndex) (reply : Nat) (rest : List FetcherMsg)
    (hinv : s.Inv) (hfq : s.fq = FetcherMsg.tileRequest c :: rest)
    (hs : s.step (Step.fetcherNext reply) = some s2) : s2.Inv := by
  simp only [step, hfq, TileFetcher.tileRequest] at hs
  cases hr : mapFind s.fetcher.m_replies reply with
  | some i => simp [hr] at hs
  | none =>
    simp only [hr, Option.some.injEq] at hs
    subst hs
    unfold Inv at hinv ⊢
    rw [hfq] at hinv
    exact owned_tileRequest c reply hinv hr

/-- The handling of a queued `deleteTile` call is defined and keeps the invariant. -/
theorem inv_deleteTile (s : System) (t : TileImage) (reply : Nat) (rest : List FetcherMsg)
    (hinv : s.Inv) (hfq : s.fq = FetcherMsg.deleteTile t :: rest) :
    s.step (Step.fetcherNext reply)
      = some { s with fetcher := { s.fetcher with
                        m_images := mapErase s.fetcher.m_images t.index },
                      fq := rest, destroyed := s.destroyed ++ [t] } ∧
    ∀ s2, s.step (Step.fetcherNext reply) = some s2 → s2.Inv := by
  unfold Inv at hinv
  rw [hfq] at hinv
  have hreg := (hinv.del_reg t (by simp [FetcherMsg.deleted])).2
  have hstep : s.step (Step.fetcherNext reply)
      = some { s with fetcher := { s.fetcher with
                        m_images := mapErase s.fetcher.m_images t.index },
                      fq := rest, destroyed := s.destroyed ++ [t] } := by
    simp [step, hfq, TileFetcher.deleteTile, hreg, FetchEffect.toDestroyed]
  refine ⟨hstep, ?_⟩
  intro s2 hs
  rw [hstep, Option.some.injEq] at hs
  subst hs
  unfold Inv
  exact owned_deleteTile t hinv

/-- The end of a transfer keeps the invariant. -/
theorem inv_finished (s s2 : System) (reply : Reply) (fresh : Nat) (hinv : s.Inv)
    (hs : s.step (Step.finished reply fresh) = some s2) : s2.Inv := by
  simp only [step] at hs
  by_cases hfresh : fresh ∈ s.allocated
  · simp [hfresh] at hs
  · simp only [hfresh, if_false, TileFetcher.loadTile] at hs
    cases hr : mapFind s.fetcher.m_replies reply.handle with
    | none => simp [hr] at hs
    | some index =>
      simp only [hr] at hs
      unfold Inv at hinv ⊢
      by_cases herr : reply.error ≠ NetworkError.NoError
      · have hown := owned_load_error reply.handle ⟨fresh, index, false⟩ hinv hr rfl
        by_cases hcan : reply.error ≠ NetworkError.OperationCanceledError
        · simp only [herr, hcan, if_true, ne_eq, not_false_eq_true, Option.some.injEq] at hs
          subst hs
          simpa [FetchEffect.toRenderer, RendererMsg.response, List.filterMap_append] using hown
        · simp only [herr, hcan, if_true, if_false, ne_eq, not_false_eq_true,
            Option.some.injEq] at hs
          subst hs
          simpa [FetchEffect.toRenderer, RendererMsg.response, List.filterMap_append] using hown
      · simp only [herr, if_false] at hs
        by_cases hw : reply.width = s.fetcher.tile_size
        · by_cases hh : reply.height = s.fetcher.tile_size
          · simp only [hw, hh, if_true, Option.some.injEq] at hs
            subst hs
            have hown := owned_load_ok reply.handle ⟨fresh, index, true⟩ hinv hr rfl hfresh
            simpa [FetchEffect.toRenderer, RendererMsg.response, List.filterMap_append]
              using hown
          · simp [hw, hh] at hs
        · simp [hw] at hs

/-- Every step keeps the invariant. -/
theorem inv_step (s s2 : System) (st : Step) (hinv : s.Inv) (hs : s.step st = some s2) :
    s2.Inv := by
  cases st with
  | setState state => exact inv_setState s s2 state hinv hs
  | rendererNext =>
    cases hrq : s.rq with
    | nil => simp [step, hrq] at hs
    | cons m rest =>
      cases m with
      | responseTile t => exact inv_tileResponse s s2 t rest hinv hrq hs
      | renderRequest => exact inv_render s s2 rest hinv hrq hs
  | fetcherNext reply =>
    cases hfq : s.fq with
    | nil => simp [step, hfq] at hs
    | cons m rest =>
      cases m with
      | tileRequest c => exact inv_tileRequest s s2 c reply rest hinv hfq hs
      | deleteTile t => exact (inv_deleteTile s t reply rest hinv hfq).2 s2 hs
  | finished reply fresh => exact inv_finished s s2 reply fresh hinv hs

/-- Every run keeps the invariant. -/
theorem inv_run (steps : List Step) :
    ∀ s s2 : System, s.Inv → s.run steps = some s2 → s2.Inv := by
  induction steps with
  | nil =>
    intro s s2 hinv hr
    simp only [run, Option.some.injEq] at hr
    subst hr
    exact hinv
  | cons st steps ih =>
    intro s s2 hinv hr
    simp only [run] at hr
    cases hs : s.step st with
    | none => simp [hs] at hr
    | some s1 =>
      simp only [hs] at hr
      exact ih s1 s2 (inv_step s s1 st hinv hs) hr

end System

namespace System

/-- C23: in every state that the combined state machine reaches from the two workers as
constructed (the viewer calling `setState`, each worker taking the oldest message of
its mailbox, transfers finishing with success or with an error in any order): every
image in the cache of the renderer is valid, is stored under its own coordinate and is
registered in the owned-image table of the fetcher under that coordinate, and so is
every image of a queued `deleteTile` call. Hence a `deleteTile` call that the fetcher
takes from its mailbox passes its assertions, unregisters and destroys the image; at
that moment the cache does not hold the image, no other queued `deleteTile` or
`tileResponse` call carries it, and it was not destroyed before. No destroyed image is
in the cache or in a queued `deleteTile` call, and no image is destroyed twice. -/
theorem images_owned (config : Config) (zoom0 : Int) (steps : List Step) (s : System)
    (h : (start config zoom0).run steps = some s) :
    (∀ k t, mapFind s.renderer.m_cache.m_map k = some t →
      t.valid = true ∧ t.index = k ∧ mapFind s.fetcher.m_images t.index = some t) ∧
    (∀ t, FetcherMsg.deleteTile t ∈ s.fq →
      t.valid = true ∧ mapFind s.fetcher.m_images t.index = some t) ∧
    (∀ t rest reply, s.fq = FetcherMsg.deleteTile t :: rest →
      s.step (Step.fetcherNext reply)
        = some { s with fetcher := { s.fetcher with
                          m_images := mapErase s.fetcher.m_images t.index },
                        fq := rest, destroyed := s.destroyed ++ [t] } ∧
      (∀ k, mapFind s.renderer.m_cache.m_map k ≠ some t) ∧
      FetcherMsg.deleteTile t ∉ rest ∧ RendererMsg.responseTile t ∉ s.rq ∧
      t ∉ s.destroyed) ∧
    (∀ d ∈ s.destroyed, (∀ k, mapFind s.renderer.m_cache.m_map k ≠ some d) ∧
      FetcherMsg.deleteTile d ∉ s.fq) ∧
    s.destroyed.Nodup := by
  have hinv : s.Inv := inv_run steps _ s (inv_start config zoom0) h
  have hown := hinv
  unfold Inv at hown
  have hdel : ∀ t, FetcherMsg.deleteTile t ∈ s.fq →
      t.valid = true ∧ mapFind s.fetcher.m_images t.index = some t := by
    intro t ht
    exact hown.del_reg t (List.mem_filterMap.mpr ⟨_, ht, rfl⟩)
  refine ⟨?_, hdel, ?_, ?_, hown.destroyed_nodup⟩
  · intro k t hk
    obtain ⟨h1, h2, h3⟩ := hown.cache_reg k t hk
    rw [h1]
    exact ⟨h2, rfl, h3⟩
  · intro t rest reply hfq
    have hreg := (hdel t (by rw [hfq]; exact List.mem_cons_self _ _)).2
    have hdc := hown.deleters t.index
    rw [hfq] at hdc
    simp only [List.filterMap_cons, FetcherMsg.deleted] at hdc
    rw [count_cons_index, if_pos rfl] at hdc
    refine ⟨(inv_deleteTile s t reply rest hinv hfq).1, ?_, ?_, ?_,
      (hown.registered_live t hreg).2⟩
    · intro k hk
      have hidx := (hown.cache_reg k t hk).1
      have hpos := count_keys_pos _ k t hk
      rw [← hidx] at hpos
      omega
    · intro hmem
      have hpos := count_index_pos (rest.filterMap FetcherMsg.deleted) t
        (List.mem_filterMap.mpr ⟨_, hmem, rfl⟩)
      omega
    · intro hmem
      have hpos := count_index_pos (s.rq.filterMap RendererMsg.response) t
        (List.mem_filterMap.mpr ⟨_, hmem, rfl⟩)
      omega
  · intro d hd
    constructor
    · intro k hk
      obtain ⟨h1, -, h3⟩ := hown.cache_reg k d hk
      rw [← h1] at h3
      exact (hown.registered_live d h3).2 hd
    · intro hmem
      exact (hown.registered_live d (hdel d hmem).2).2 hd

/-- C23, an instance: with a cache of one slot, the tile `(0, 0, 0)` is requested,
loaded and cached; after a zoom-in the tile `(1, 0, 0)` is requested, loaded and cached
in its place, and the `deleteTile` call for the first image destroys it. -/
theorem images_owned_witness :
    ∃ s, (start ⟨256, 1⟩ 0).run
        [Step.setState ⟨true, ⟨0, 0, 255, 255⟩, 0, 0, ⟨256, 256⟩⟩, Step.rendererNext,
          Step.fetcherNext 5, Step.finished ⟨5, NetworkError.NoError, 256, 256⟩ 1,
          Step.rendererNext, Step.rendererNext,
          Step.setState ⟨true, ⟨0, 0, 255, 255⟩, 1, 0, ⟨256, 256⟩⟩, Step.rendererNext,
          Step.fetcherNext 6, Step.finished ⟨6, NetworkError.NoError, 256, 256⟩ 2,
          Step.rendererNext, Step.fetcherNext 0] = some s ∧
      s.destroyed = [⟨1, ⟨0, 0, 0⟩, true⟩] ∧
      s.renderer.m_cache.m_map = [(⟨1, 0, 0⟩, ⟨2, ⟨1, 0, 0⟩, true⟩)] ∧
      mapFind s.fetcher.m_images ⟨1, 0, 0⟩ = some ⟨2, ⟨1, 0, 0⟩, true⟩ ∧
      s.destroyed.Nodup := by
  have hrun : ((start ⟨256, 1⟩ 0).run
        [Step.setState ⟨true, ⟨0, 0, 255, 255⟩, 0, 0, ⟨256, 256⟩⟩, Step.rendererNext,
          Step.fetcherNext 5, Step.finished ⟨5, NetworkError.NoError, 256, 256⟩ 1,
          Step.rendererNext, Step.rendererNext,
          Step.setState ⟨true, ⟨0, 0, 255, 255⟩, 1, 0, ⟨256, 256⟩⟩, Step.rendererNext,
          Step.fetcherNext 6, Step.finished ⟨6, NetworkError.NoError, 256, 256⟩ 2,
          Step.rendererNext, Step.fetcherNext 0]).map
        (fun s => (s.destroyed, s.renderer.m_cache.m_map))
      = some ([⟨1, ⟨0, 0, 0⟩, true⟩], [(⟨1, 0, 0⟩, ⟨2, ⟨1, 0, 0⟩, true⟩)]) := by
    rfl
  obtain ⟨s, hs, hval⟩ := Option.map_eq_some'.mp hrun
  simp only [Prod.mk.injEq] at hval
  obtain ⟨h1, -, -, -, h5⟩ := images_owned ⟨256, 1⟩ 0 _ s hs
  refine ⟨s, hs, hval.1, hval.2, ?_, h5⟩
  have hfind : mapFind s.renderer.m_cache.m_map ⟨1, 0, 0⟩ = some ⟨2, ⟨1, 0, 0⟩, true⟩ := by
    rw [hval.2]
    rfl
  exact (h1 _ _ hfind).2.2

end System

/-! ## Cancellation -/

section Cancel

namespace System

end System

end Cancel

namespace System

end System

namespace System

end System

end QtMapViewer
